import Mathlib

/-!
# minitime: the line parser, the ranking step and the report helpers

A shallow embedding of `main.go` of `diamondburned/minitime` together with the
standard-library functions it calls (`strings.Split`, `strings.Join`,
`strings.SplitAfterN`, `bytes.Contains`, `filepath.Base`, `time.ParseDuration`,
`sort.Slice`), followed by theorems about them.

A Go string is a sequence of bytes.  It is represented as a list whose elements
are the bytes of the string, each byte held in a `Char`; for an ASCII literal
this is the list of its characters.
-/

namespace Minitime

/-- Go `string`: the list of the bytes of the string. -/
abbrev Str := List Char

/-- Go `time.Duration`: a signed count of nanoseconds. -/
abbrev Duration := Int

/-! ## `strings` -/

/-- Go `strings.Index(s, substr)`: the index of the first instance of `substr`
in `s`; `none` stands for the result `-1`. -/
def Index : Str → Str → Option Nat
  | [], sep => if sep.isPrefixOf [] then some 0 else none
  | c :: s, sep =>
    if sep.isPrefixOf (c :: s) then some 0
    else (Index s sep).map (· + 1)

/-- Go `strings.Contains` / `bytes.Contains`: `Index(s, substr) >= 0`. -/
def Contains (s substr : Str) : Bool :=
  (Index s substr).isSome

/-- The loop of Go `strings.Count(s, substr)` for a non-empty `substr`:
`for { i := Index(s, substr); if i == -1 { return n }; n++; s = s[i+len(substr):] }`.
The first argument bounds the number of iterations. -/
def CountLoop (substr : Str) : Nat → Str → Nat
  | 0, _ => 0
  | fuel + 1, s =>
    match Index s substr with
    | none => 0
    | some i => CountLoop substr fuel (s.drop (i + substr.length)) + 1

/-- Go `strings.Count(s, substr)` for a non-empty `substr`: the number of
non-overlapping instances of `substr` in `s`.  Every iteration of the loop
removes at least one byte, so `len(s) + 1` iterations are enough. -/
def Count (s substr : Str) : Nat :=
  CountLoop substr (s.length + 1) s

/-- The loop of Go `strings.genSplit`:
`for i < n { m := Index(s, sep); if m < 0 { break }; a[i] = s[:m+sepSave];
s = s[m+len(sep):]; i++ }; a[i] = s; return a[:i+1]`.
The first argument is the number `n - i` of iterations left. -/
def genSplitLoop (sep : Str) (sepSave : Nat) : Nat → Str → List Str
  | 0, s => [s]
  | k + 1, s =>
    match Index s sep with
    | none => [s]
    | some m => s.take (m + sepSave) :: genSplitLoop sep sepSave k (s.drop (m + sep.length))

/-- Go `strings.genSplit(s, sep, sepSave, n)` for a non-empty `sep` (the
program only splits on the literals `" -> "` and `" "`; the branch for
`sep == ""` is not part of the embedding). -/
def genSplit (s sep : Str) (sepSave : Nat) (n : Int) : List Str :=
  if n = 0 then []
  else
    let n₁ : Nat := if n < 0 then Count s sep + 1 else n.toNat
    let n₂ : Nat := if n₁ > s.length + 1 then s.length + 1 else n₁
    genSplitLoop sep sepSave (n₂ - 1) s

/-- Go `strings.Split(s, sep)`: `genSplit(s, sep, 0, -1)`. -/
def Split (s sep : Str) : List Str :=
  genSplit s sep 0 (-1)

/-- Go `strings.SplitAfterN(s, sep, n)`: `genSplit(s, sep, len(sep), n)`. -/
def SplitAfterN (s sep : Str) (n : Int) : List Str :=
  genSplit s sep sep.length n

/-- Go `strings.Join(elems, sep)`: the first element, then `sep` and the
element for each further one; the empty string for no element. -/
def Join : List Str → Str → Str
  | [], _ => []
  | a :: rest, sep => rest.foldl (fun b s => b ++ sep ++ s) a

/-! ## `time.ParseDuration` -/

/-- The three errors of Go `time.ParseDuration`: `invalid duration <orig>`,
`missing unit in duration <orig>`, `unknown unit <u> in duration <orig>`. -/
inductive DurationError where
  | invalid (orig : Str)
  | missingUnit (orig : Str)
  | unknownUnit (u orig : Str)
  deriving DecidableEq, Repr

/-- Go `time.leadingInt`: consumes the leading `[0-9]*` of `s`; `none` is the
overflow error.  The second argument is the accumulator `x`. -/
def leadingInt : Str → Nat → Option (Nat × Str)
  | [], x => some (x, [])
  | c :: s, x =>
    if c < '0' ∨ c > '9' then some (x, c :: s)
    else if x > 2 ^ 63 / 10 then none
    else
      let x₁ := x * 10 + (c.toNat - '0'.toNat)
      if x₁ > 2 ^ 63 then none else leadingInt s x₁

/-- A non-negative finite `float64` value `m * 2 ^ e`.  The exponent is not
bounded: where the `float64` of the program would be subnormal, zero or
infinite (a `scale` of `leadingFraction` beyond `10 ^ 308`), the fraction it
contributes to a duration is below one nanosecond and `uint64` truncates it to
0, as it does here. -/
structure F64 where
  m : Nat
  e : Int
  deriving DecidableEq, Repr

/-- The number of binary digits of a natural number below `2 ^ 256`. -/
def bitLenAux : Nat → Nat → Nat
  | 0, _ => 0
  | fuel + 1, n => if n = 0 then 0 else bitLenAux fuel (n / 2) + 1

/-- The number of binary digits of a natural number below `2 ^ 256`. -/
def bitLen (n : Nat) : Nat := bitLenAux 256 n

/-- The integer part of `n / (d * 2 ^ e)`. -/
def scaledQuot (n d : Nat) (e : Int) : Nat :=
  if e ≥ 0 then n / (d * 2 ^ e.toNat) else (n * 2 ^ (-e).toNat) / d

/-- IEEE 754 round-to-nearest-even of the positive rational `n / d` to a
`float64` (53 significant bits; the exponent range is not reached by the
values `time.ParseDuration` computes). -/
def f64round (n d : Nat) : F64 :=
  if n = 0 then ⟨0, 0⟩
  else
    let e₀ : Int := (bitLen n : Int) - (bitLen d : Int) - 53
    let e : Int := if scaledQuot n d e₀ ≥ 2 ^ 53 then e₀ + 1 else e₀
    let num := if e ≥ 0 then n else n * 2 ^ (-e).toNat
    let den := if e ≥ 0 then d * 2 ^ e.toNat else d
    let q := num / den
    let r := num % den
    if 2 * r > den ∨ (2 * r = den ∧ q % 2 = 1) then ⟨q + 1, e⟩ else ⟨q, e⟩

/-- The `float64` product. -/
def f64mul (x y : F64) : F64 :=
  let p := f64round (x.m * y.m) 1
  ⟨p.m, p.e + x.e + y.e⟩

/-- The `float64` quotient. -/
def f64div (x y : F64) : F64 :=
  let q := f64round x.m y.m
  ⟨q.m, q.e + x.e - y.e⟩

/-- Go `time.leadingFraction`: consumes the leading `[0-9]*` of `s` and
returns `(x, scale, rem)`; digits after an overflow are consumed and ignored.
`scale` is a `float64` that starts at 1 and is multiplied by 10, with
rounding, for every digit taken into `x`. -/
def leadingFraction : Str → Nat → F64 → Bool → Nat × F64 × Str
  | [], x, scale, _ => (x, scale, [])
  | c :: s, x, scale, overflow =>
    if c < '0' ∨ c > '9' then (x, scale, c :: s)
    else if overflow then leadingFraction s x scale overflow
    else if x > (2 ^ 63 - 1) / 10 then leadingFraction s x scale true
    else
      let y := x * 10 + (c.toNat - '0'.toNat)
      if y > 2 ^ 63 then leadingFraction s x scale true
      else leadingFraction s y (f64mul scale ⟨10, 0⟩) overflow

/-- Go `uint64(x)` for a non-negative `float64` below `2 ^ 64`: truncation. -/
def f64toUint64 (x : F64) : Nat :=
  if x.e ≥ 0 then x.m * 2 ^ x.e.toNat else x.m / 2 ^ (-x.e).toNat

/-- Go `time.unitMap`; `µs` (U+00B5) and `μs` (U+03BC) are given by their
UTF-8 bytes. -/
def unitMap (u : Str) : Option Nat :=
  if u = ['n', 's'] then some 1
  else if u = ['u', 's'] then some 1000
  else if u = [Char.ofNat 0xC2, Char.ofNat 0xB5, 's'] then some 1000
  else if u = [Char.ofNat 0xCE, Char.ofNat 0xBC, 's'] then some 1000
  else if u = ['m', 's'] then some 1000000
  else if u = ['s'] then some 1000000000
  else if u = ['m'] then some 60000000000
  else if u = ['h'] then some 3600000000000
  else none

/-- The length of the unit at the head of `s`: the scan
`for ; i < len(s); i++ { c := s[i]; if c == '.' || '0' <= c && c <= '9' { break } }`. -/
def unitLen : Str → Nat
  | [] => 0
  | c :: s => if c = '.' ∨ ('0' ≤ c ∧ c ≤ '9') then 0 else unitLen s + 1

/-- The part `(\.[0-9]*)?` of an iteration of the loop of Go
`time.ParseDuration`: `(f, scale, s, post)` after
`post := false; if s != "" && s[0] == '.' { s = s[1:]; pl := len(s);
f, scale, s = leadingFraction(s); post = pl != len(s) }`. -/
def fractionPart (s : Str) : Nat × F64 × Str × Bool :=
  match s with
  | '.' :: s₂ =>
    let r := leadingFraction s₂ 0 ⟨1, 0⟩ false
    (r.1, r.2.1, r.2.2, decide (s₂.length ≠ r.2.2.length))
  | _ => (0, ⟨1, 0⟩, s, false)

/-- The arithmetic of an iteration of the loop of Go `time.ParseDuration`, for
the integer part `v`, the fraction `f / scale`, the unit `unit` and the
accumulator `d` (all `uint64`):
`if v > 1<<63/unit { overflow }; v *= unit;
if f > 0 { v += uint64(float64(f) * (float64(unit) / scale)); if v > 1<<63 { overflow } };
d += v; if d > 1<<63 { overflow }`.  The result is the new `d`; `none` is the
overflow error. -/
def addUnit (d v f : Nat) (scale : F64) (unit : Nat) : Option Nat :=
  if v > 2 ^ 63 / unit then none
  else
    let v₁ := v * unit
    let v₂ :=
      if f > 0 then
        (v₁ + f64toUint64 (f64mul (f64round f 1) (f64div (f64round unit 1) scale))) % 2 ^ 64
      else v₁
    if f > 0 ∧ v₂ > 2 ^ 63 then none
    else
      let d₁ := (d + v₂) % 2 ^ 64
      if d₁ > 2 ^ 63 then none else some d₁

/-- One iteration of the loop `for s != "" { ... }` of Go `time.ParseDuration`
on a non-empty `s` with the accumulator `d`: the rest of `s` and the new `d`,
or the error returned. -/
def parseDurationStep (orig s : Str) (d : Nat) : Except DurationError (Str × Nat) :=
  match s with
  | [] => .error (.invalid orig)
  | c :: _ =>
    if ¬ (c = '.' ∨ ('0' ≤ c ∧ c ≤ '9')) then .error (.invalid orig)
    else
      match leadingInt s 0 with
      | none => .error (.invalid orig)
      | some (v, s₁) =>
        let pre : Bool := decide (s.length ≠ s₁.length)
        let fp := fractionPart s₁
        let f := fp.1
        let scale := fp.2.1
        let s₃ := fp.2.2.1
        let post := fp.2.2.2
        if pre = false ∧ post = false then .error (.invalid orig)
        else
          let i := unitLen s₃
          if i = 0 then .error (.missingUnit orig)
          else
            let u := s₃.take i
            match unitMap u with
            | none => .error (.unknownUnit u orig)
            | some unit =>
              match addUnit d v f scale unit with
              | none => .error (.invalid orig)
              | some d₁ => .ok (s₃.drop i, d₁)

/-- The loop `for s != "" { ... }` of Go `time.ParseDuration`.  Every iteration
consumes at least one byte; the first argument bounds the number of
iterations. -/
def parseDurationLoop (orig : Str) : Nat → Str → Nat → Except DurationError Nat
  | 0, _, d => .ok d
  | fuel + 1, s, d =>
    if s = [] then .ok d
    else
      match parseDurationStep orig s d with
      | .error e => .error e
      | .ok (s₁, d₁) => parseDurationLoop orig fuel s₁ d₁

/-- Go `time.ParseDuration(s)`. -/
def parseDuration (orig : Str) : Except DurationError Duration :=
  let neg : Bool := match orig with
    | '-' :: _ => true
    | _ => false
  let s : Str := match orig with
    | '-' :: s => s
    | '+' :: s => s
    | s => s
  if s = ['0'] then .ok 0
  else if s = [] then .error (.invalid orig)
  else
    match parseDurationLoop orig (s.length + 1) s 0 with
    | .error e => .error e
    | .ok d =>
      if neg then .ok (-(d : Int))
      else if d > 2 ^ 63 - 1 then .error (.invalid orig)
      else .ok (d : Int)

/-! ## `sort.Slice`

The pattern-defeating quicksort of the Go library (`sort/zsortfunc.go`, Go 1.19
and later), on a slice held as a list: the insertion sort alone for at most 12
elements, and for more the choice of a pivot, the partitions, the breaking of
patterns and the heap sort.  Every loop is a function with a bound on its
number of turns. -/

section Sorting

variable {α : Type} [Inhabited α]

/-- The element `data[i]` of a slice. -/
def elem (data : List α) (i : Nat) : α := data.getD i default

/-- The `Swap(i, j)` of `sort.lessSwap` (`reflectlite.Swapper`): exchanges
`data[i]` and `data[j]`. -/
def swap (data : List α) (i j : Nat) : List α :=
  (data.set i (elem data j)).set j (elem data i)

/-- The `Less(i, j)` of `sort.lessSwap`: the `less` of the caller on the
elements at `i` and `j`. -/
def lessAt (less : α → α → Bool) (data : List α) (i j : Nat) : Bool :=
  less (elem data i) (elem data j)

/-- The inner loop of Go `sort.insertionSort_func`:
`for j := i; j > a && data.Less(j, j-1); j-- { data.Swap(j, j-1) }`. -/
def insertionInner (less : α → α → Bool) (a : Nat) : Nat → List α → List α
  | 0, data => data
  | j + 1, data =>
    if j + 1 > a ∧ lessAt less data (j + 1) j then
      insertionInner less a j (swap data (j + 1) j)
    else data

/-- The outer loop of Go `sort.insertionSort_func`, `for ; i < b; i++`, with a
bound on the number of iterations. -/
def insertionOuter (less : α → α → Bool) (a b : Nat) : Nat → Nat → List α → List α
  | 0, _, data => data
  | fuel + 1, i, data =>
    if i < b then insertionOuter less a b fuel (i + 1) (insertionInner less a i data)
    else data

/-- Go `sort.insertionSort_func(data, a, b)`: sorts `data[a:b]`. -/
def insertionSortFunc (less : α → α → Bool) (data : List α) (a b : Nat) : List α :=
  insertionOuter less a b (b - a) (a + 1) data

/-- Go `sort.siftDown_func(data, lo, hi, first)`, the loop on `root`, with a
bound on the number of iterations. -/
def siftDownFunc (less : α → α → Bool) (hi first : Nat) : Nat → Nat → List α → List α
  | 0, _, data => data
  | fuel + 1, root, data =>
    let child := 2 * root + 1
    if child ≥ hi then data
    else
      let child₁ :=
        if child + 1 < hi ∧ lessAt less data (first + child) (first + child + 1) then child + 1
        else child
      if ¬ lessAt less data (first + root) (first + child₁) then data
      else siftDownFunc less hi first fuel child₁ (swap data (first + root) (first + child₁))

/-- The first loop of Go `sort.heapSort_func`:
`for i := (hi - 1) / 2; i >= 0; i-- { siftDown_func(data, i, hi, first) }`; the
argument is `i + 1`. -/
def heapBuild (less : α → α → Bool) (hi first : Nat) : Nat → List α → List α
  | 0, data => data
  | i + 1, data => heapBuild less hi first i (siftDownFunc less hi first hi i data)

/-- The second loop of Go `sort.heapSort_func`:
`for i := hi - 1; i >= 0; i-- { data.Swap(first, first+i); siftDown_func(data, lo, i, first) }`;
the argument is `i + 1`. -/
def heapPop (less : α → α → Bool) (first : Nat) : Nat → List α → List α
  | 0, data => data
  | i + 1, data =>
    heapPop less first i (siftDownFunc less i first i 0 (swap data first (first + i)))

/-- Go `sort.heapSort_func(data, a, b)`. -/
def heapSortFunc (less : α → α → Bool) (data : List α) (a b : Nat) : List α :=
  let hi := b - a
  heapPop less a hi (heapBuild less hi a ((hi - 1) / 2 + 1) data)

/-- The loop `for i <= j && data.Less(i, a) { i++ }` of Go `sort.partition_func`:
the final `i`. -/
def scanUpLess (less : α → α → Bool) (data : List α) (a j : Nat) : Nat → Nat → Nat
  | 0, i => i
  | fuel + 1, i =>
    if i ≤ j ∧ lessAt less data i a then scanUpLess less data a j fuel (i + 1) else i

/-- The loop `for i <= j && !data.Less(j, a) { j-- }` of Go
`sort.partition_func`: the final `j` (`i >= 1` where it runs, so `j` stays
non-negative). -/
def scanDownNotLess (less : α → α → Bool) (data : List α) (a i : Nat) : Nat → Nat
  | 0 => 0
  | j + 1 =>
    if i ≤ j + 1 ∧ ¬ lessAt less data (j + 1) a then scanDownNotLess less data a i j
    else j + 1

/-- The loop `for { ... }` of Go `sort.partition_func`, up to its `break`: the
slice and the final `j`. -/
def partitionLoop (less : α → α → Bool) (a : Nat) : Nat → Nat → Nat → List α → List α × Nat
  | 0, _, j, data => (data, j)
  | fuel + 1, i, j, data =>
    let i₁ := scanUpLess less data a j (j + 1 - i) i
    let j₁ := scanDownNotLess less data a i₁ j
    if i₁ > j₁ then (data, j₁)
    else partitionLoop less a fuel (i₁ + 1) (j₁ - 1) (swap data i₁ j₁)

/-- Go `sort.partition_func(data, a, b, pivot)`: the slice, `newpivot` and
`alreadyPartitioned`. -/
def partitionFunc (less : α → α → Bool) (data : List α) (a b pivot : Nat) :
    List α × Nat × Bool :=
  let d₁ := swap data a pivot
  let i := scanUpLess less d₁ a (b - 1) (b - 1 - a) (a + 1)
  let j := scanDownNotLess less d₁ a i (b - 1)
  if i > j then (swap d₁ j a, j, true)
  else
    let r := partitionLoop less a (b - a) (i + 1) (j - 1) (swap d₁ i j)
    (swap r.1 r.2 a, r.2, false)

/-- The loop `for i <= j && !data.Less(a, i) { i++ }` of Go
`sort.partitionEqual_func`: the final `i`. -/
def scanUpNotGreater (less : α → α → Bool) (data : List α) (a j : Nat) : Nat → Nat → Nat
  | 0, i => i
  | fuel + 1, i =>
    if i ≤ j ∧ ¬ lessAt less data a i then scanUpNotGreater less data a j fuel (i + 1) else i

/-- The loop `for i <= j && data.Less(a, j) { j-- }` of Go
`sort.partitionEqual_func`: the final `j`. -/
def scanDownGreater (less : α → α → Bool) (data : List α) (a i : Nat) : Nat → Nat
  | 0 => 0
  | j + 1 =>
    if i ≤ j + 1 ∧ lessAt less data a (j + 1) then scanDownGreater less data a i j
    else j + 1

/-- The loop `for { ... }` of Go `sort.partitionEqual_func`: the slice and the
final `i`. -/
def partitionEqualLoop (less : α → α → Bool) (a : Nat) :
    Nat → Nat → Nat → List α → List α × Nat
  | 0, i, _, data => (data, i)
  | fuel + 1, i, j, data =>
    let i₁ := scanUpNotGreater less data a j (j + 1 - i) i
    let j₁ := scanDownGreater less data a i₁ j
    if i₁ > j₁ then (data, i₁)
    else partitionEqualLoop less a fuel (i₁ + 1) (j₁ - 1) (swap data i₁ j₁)

/-- Go `sort.partitionEqual_func(data, a, b, pivot)`: the slice and `newpivot`. -/
def partitionEqualFunc (less : α → α → Bool) (data : List α) (a b pivot : Nat) :
    List α × Nat :=
  partitionEqualLoop less a (b - a + 1) (a + 1) (b - 1) (swap data a pivot)

/-- The loop `for i < b && !data.Less(i, i-1) { i++ }` of Go
`sort.partialInsertionSort_func`: the final `i`. -/
def scanSorted (less : α → α → Bool) (data : List α) (b : Nat) : Nat → Nat → Nat
  | 0, i => i
  | fuel + 1, i =>
    if i < b ∧ ¬ lessAt less data i (i - 1) then scanSorted less data b fuel (i + 1) else i

/-- The loop `for j := i - 1; j >= 1; j-- { if !data.Less(j, j-1) { break };
data.Swap(j, j-1) }` of Go `sort.partialInsertionSort_func`. -/
def shiftLeft (less : α → α → Bool) : Nat → List α → List α
  | 0, data => data
  | j + 1, data =>
    if ¬ lessAt less data (j + 1) j then data else shiftLeft less j (swap data (j + 1) j)

/-- The loop `for j := i + 1; j < b; j++ { if !data.Less(j, j-1) { break };
data.Swap(j, j-1) }` of Go `sort.partialInsertionSort_func`. -/
def shiftRight (less : α → α → Bool) (b : Nat) : Nat → Nat → List α → List α
  | 0, _, data => data
  | fuel + 1, j, data =>
    if j < b then
      if ¬ lessAt less data j (j - 1) then data
      else shiftRight less b fuel (j + 1) (swap data j (j - 1))
    else data

/-- The loop `for j := 0; j < maxSteps; j++ { ... }` of Go
`sort.partialInsertionSort_func`; the first argument is the number of steps
left. -/
def partialInsertionLoop (less : α → α → Bool) (a b : Nat) :
    Nat → Nat → List α → List α × Bool
  | 0, _, data => (data, false)
  | steps + 1, i, data =>
    let i₁ := scanSorted less data b (b - i) i
    if i₁ = b then (data, true)
    else if b - a < 50 then (data, false)
    else
      let d₁ := swap data i₁ (i₁ - 1)
      let d₂ := if i₁ - a ≥ 2 then shiftLeft less (i₁ - 1) d₁ else d₁
      let d₃ := if b - i₁ ≥ 2 then shiftRight less b (b - (i₁ + 1)) (i₁ + 1) d₂ else d₂
      partialInsertionLoop less a b steps i₁ d₃

/-- Go `sort.partialInsertionSort_func(data, a, b)`: the slice and whether it
is sorted at the end. -/
def partialInsertionSortFunc (less : α → α → Bool) (data : List α) (a b : Nat) :
    List α × Bool :=
  partialInsertionLoop less a b 5 (a + 1) data

/-- The `other` of Go `sort.breakPatterns_func` for the random value `r`:
`other := int(uint(r) & (modulus - 1)); if other >= length { other -= length }`. -/
def breakOther (r modulus length : Nat) : Nat :=
  let other := r &&& (modulus - 1)
  if other ≥ length then other - length else other

/-- Go `sort.breakPatterns_func(data, a, b)`, over the function `next` that
maps the state of the `xorshift` generator to its next state. -/
def breakPatternsFunc (next : Nat → Nat) (data : List α) (a b : Nat) : List α :=
  let length := b - a
  if length ≥ 8 then
    let modulus := 2 ^ bitLen length
    let idx := a + (length / 4) * 2 - 1
    let r₁ := next length
    let r₂ := next r₁
    let r₃ := next r₂
    let d₁ := swap data (idx - 1 + 0) (a + breakOther r₁ modulus length)
    let d₂ := swap d₁ (idx - 1 + 1) (a + breakOther r₂ modulus length)
    swap d₂ (idx - 1 + 2) (a + breakOther r₃ modulus length)
  else data

/-- Go `sort.xorshift.Next`: the next state of the generator, a `uint64`. -/
def xorshift (r : Nat) : Nat :=
  let r₁ := r ^^^ ((r <<< 13) % 2 ^ 64)
  let r₂ := r₁ ^^^ (r₁ >>> 7)
  r₂ ^^^ ((r₂ <<< 17) % 2 ^ 64)

/-- Go `sort.sortedHint`. -/
inductive SortedHint where
  | unknownHint
  | increasingHint
  | decreasingHint
  deriving DecidableEq, Repr

/-- Go `sort.order2_func(data, a, b, swaps)`: the two indices and the new
`swaps`. -/
def order2Func (less : α → α → Bool) (data : List α) (a b swaps : Nat) : Nat × Nat × Nat :=
  if lessAt less data b a then (b, a, swaps + 1) else (a, b, swaps)

/-- Go `sort.median_func(data, a, b, c, swaps)`: the index and the new `swaps`. -/
def medianFunc (less : α → α → Bool) (data : List α) (a b c swaps : Nat) : Nat × Nat :=
  let r₁ := order2Func less data a b swaps
  let r₂ := order2Func less data r₁.2.1 c r₁.2.2
  let r₃ := order2Func less data r₁.1 r₂.1 r₂.2.2
  (r₃.2.1, r₃.2.2)

/-- Go `sort.medianAdjacent_func(data, a, swaps)`. -/
def medianAdjacentFunc (less : α → α → Bool) (data : List α) (a swaps : Nat) : Nat × Nat :=
  medianFunc less data (a - 1) a (a + 1) swaps

/-- Go `sort.choosePivot_func(data, a, b)`: the pivot and the hint. -/
def choosePivotFunc (less : α → α → Bool) (data : List α) (a b : Nat) : Nat × SortedHint :=
  let l := b - a
  let i := a + l / 4 * 1
  let j := a + l / 4 * 2
  let k := a + l / 4 * 3
  let r : Nat × Nat :=
    if l ≥ 8 then
      if l ≥ 50 then
        let ri := medianAdjacentFunc less data i 0
        let rj := medianAdjacentFunc less data j ri.2
        let rk := medianAdjacentFunc less data k rj.2
        medianFunc less data ri.1 rj.1 rk.1 rk.2
      else medianFunc less data i j k 0
    else (j, 0)
  if r.2 = 0 then (r.1, .increasingHint)
  else if r.2 = 12 then (r.1, .decreasingHint)
  else (r.1, .unknownHint)

/-- Go `sort.reverseRange_func(data, a, b)`, the loop `for i < j`, with a bound
on the number of iterations. -/
def reverseLoop : Nat → Nat → Nat → List α → List α
  | 0, _, _, data => data
  | fuel + 1, i, j, data =>
    if i < j then reverseLoop fuel (i + 1) (j - 1) (swap data i j) else data

/-- Go `sort.reverseRange_func(data, a, b)`. -/
def reverseRangeFunc (data : List α) (a b : Nat) : List α :=
  reverseLoop (b - a) a (b - 1) data

/-- Go `sort.pdqsort_func(data, a, b, limit)`: the loop `for { ... }` entered
with the given `wasBalanced` and `wasPartitioned` (both `true` at the call).
Every turn of the loop returns or goes on with a shorter `data[a:b]`; the first
argument bounds the turns and the depth of the calls. -/
def pdqsortLoop (next : Nat → Nat) (less : α → α → Bool) :
    Nat → List α → Nat → Nat → Nat → Bool → Bool → List α
  | 0, data, _, _, _, _, _ => data
  | fuel + 1, data, a, b, limit, wasBalanced, wasPartitioned =>
    let length := b - a
    if length ≤ 12 then insertionSortFunc less data a b
    else if limit = 0 then heapSortFunc less data a b
    else
      let d₁ := if ¬ wasBalanced then breakPatternsFunc next data a b else data
      let limit₁ := if ¬ wasBalanced then limit - 1 else limit
      let ch := choosePivotFunc less d₁ a b
      let d₂ := if ch.2 = .decreasingHint then reverseRangeFunc d₁ a b else d₁
      let pivot := if ch.2 = .decreasingHint then (b - 1) - (ch.1 - a) else ch.1
      let hint := if ch.2 = .decreasingHint then SortedHint.increasingHint else ch.2
      let tryPartial : Bool := wasBalanced && wasPartitioned && decide (hint = .increasingHint)
      let pr := if tryPartial then partialInsertionSortFunc less d₂ a b else (d₂, false)
      if pr.2 then pr.1
      else
        let d₃ := pr.1
        if a > 0 ∧ ¬ lessAt less d₃ (a - 1) pivot then
          let pe := partitionEqualFunc less d₃ a b pivot
          pdqsortLoop next less fuel pe.1 pe.2 b limit₁ wasBalanced wasPartitioned
        else
          let pt := partitionFunc less d₃ a b pivot
          let d₄ := pt.1
          let mid := pt.2.1
          let leftLen := mid - a
          let rightLen := b - mid
          let balanceThreshold := length / 8
          if leftLen < rightLen then
            let d₅ := pdqsortLoop next less fuel d₄ a mid limit₁ true true
            pdqsortLoop next less fuel d₅ (mid + 1) b limit₁
              (decide (leftLen ≥ balanceThreshold)) pt.2.2
          else
            let d₅ := pdqsortLoop next less fuel d₄ (mid + 1) b limit₁ true true
            pdqsortLoop next less fuel d₅ a mid limit₁
              (decide (rightLen ≥ balanceThreshold)) pt.2.2

/-- Go `sort.Slice(x, less)` over the generator step `next`:
`pdqsort_func(lessSwap{less, swap}, 0, length, bits.Len(uint(length)))`. -/
def sortSliceWith (next : Nat → Nat) (less : α → α → Bool) (x : List α) : List α :=
  pdqsortLoop next less (x.length + 1) x 0 x.length (bitLen x.length) true true

/-- Go `sort.Slice(x, less)`. -/
def sortSlice (less : α → α → Bool) (x : List α) : List α :=
  sortSliceWith xorshift less x

end Sorting

section SortingSpec

variable {α : Type} [Inhabited α]

/-- The slice `data₁` is `data` with the elements of `data[a:b]` rearranged:
same length, and `data₁[n] = data[p n]` for a permutation `p` of the indices
that moves no index outside `a ≤ n < b`. -/
def Seg (a b : Nat) (data data₁ : List α) : Prop :=
  data₁.length = data.length ∧
    ∃ p : Equiv.Perm Nat, (∀ n, (n < a ∨ b ≤ n) → p n = n) ∧ ∀ n, elem data₁ n = elem data (p n)

/-- The keys of `data[a:b]` are in non-decreasing order. -/
def SortedOn (k : α → Int) (data : List α) (a b : Nat) : Prop :=
  ∀ i j, a ≤ i → i ≤ j → j < b → k (elem data i) ≤ k (elem data j)

/-- No element of `data[a:b]` has a key below that of `data[a-1]`, when `a > 0`. -/
def LowerBound (k : α → Int) (data : List α) (a b : Nat) : Prop :=
  0 < a → ∀ n, a ≤ n → n < b → k (elem data (a - 1)) ≤ k (elem data n)

end SortingSpec

section HeapSpec

variable {α : Type} [Inhabited α]

/-- In the heap of `hi` nodes laid out from `data[first]`, every node from `lo`
on has a key that is not below the keys of its children. -/
def HeapFrom (k : α → Int) (data : List α) (first lo hi : Nat) : Prop :=
  ∀ n c, lo ≤ n → (c = 2 * n + 1 ∨ c = 2 * n + 2) → c < hi →
    k (elem data (first + c)) ≤ k (elem data (first + n))

/-- The heap property from `lo` on, but for the node `root`: every other node
dominates its children, and the parent of `root` dominates the children of
`root`. -/
def HeapExcept (k : α → Int) (data : List α) (first lo hi root : Nat) : Prop :=
  (∀ n c, lo ≤ n → n ≠ root → (c = 2 * n + 1 ∨ c = 2 * n + 2) → c < hi →
    k (elem data (first + c)) ≤ k (elem data (first + n))) ∧
  (∀ n c, lo ≤ n → (root = 2 * n + 1 ∨ root = 2 * n + 2) →
    (c = 2 * root + 1 ∨ c = 2 * root + 2) → c < hi →
    k (elem data (first + c)) ≤ k (elem data (first + n)))

end HeapSpec

/-! ## `main.go` -/

/-- The struct `Line`. -/
structure Line where
  Command : Str
  Duration : Duration
  deriving DecidableEq, Repr

/-- The zero value `Line{}`. -/
def Line.zero : Line := ⟨[], 0⟩

instance : Inhabited Line := ⟨Line.zero⟩

/-- One call `log.Printf("invalid duration %q: %v", token, err)`. -/
structure Diagnostic where
  token : Str
  err : DurationError
  deriving DecidableEq, Repr

/-- The outcome of `parseLine`: the two results and the log calls it made. -/
structure Parsed where
  line : Line
  ok : Bool
  log : List Diagnostic
  deriving DecidableEq, Repr

/-- The separator literal `" -> "`. -/
def sep : Str := [' ', '-', '>', ' ']

/-- The pre-filter literal `"->"`. -/
def arrow : Str := ['-', '>']

/-- The function `parseLine` of `main.go`, over the duration parser `pd`
(`time.ParseDuration` in the program). -/
def parseLine (pd : Str → Except DurationError Duration) (line : Str) : Parsed :=
  let parts := Split line sep
  if parts.length < 2 then ⟨Line.zero, false, []⟩
  else
    let command := Join (parts.take (parts.length - 1)) sep
    match pd (parts.getD (parts.length - 1) []) with
    | .error err => ⟨Line.zero, false, [⟨parts.getD (parts.length - 1) [], err⟩]⟩
    | .ok d => ⟨⟨command, d⟩, true, []⟩

/-- The token `parts[len(parts)-1]` that `parseLine` hands to the duration
parser: the last part of `strings.Split(line, " -> ")`. -/
def trailingToken (line : Str) : Str :=
  (Split line sep).getD ((Split line sep).length - 1) []

/-- The text after the final separator `" -> "` of a line, in the words of the
specification ("the suffix after the final separator"): the text after the
occurrence of the separator that starts last; `none` when the line holds no
separator. -/
def afterFinalSeparator : Str → Option Str
  | [] => none
  | c :: s =>
    match afterFinalSeparator s with
    | some t => some t
    | none => if sep.isPrefixOf (c :: s) then some ((c :: s).drop sep.length) else none

/-- One result `(line, isPrefix)` of `reader.ReadLine()` with a nil error. -/
structure ReadResult where
  line : Str
  isPrefix : Bool
  deriving DecidableEq, Repr

/-- The read loop of `main` over the results of `ReadLine` up to `io.EOF`: the
strings sent on `lineIn`, in order.  A result with `isPrefix` set is skipped,
and so is a line that does not contain `"->"`. -/
def readLoop : List ReadResult → List Str
  | [] => []
  | r :: rest =>
    if r.isPrefix then readLoop rest
    else if ¬ Contains r.line arrow then readLoop rest
    else r.line :: readLoop rest

/-- The read loop of `main` with the quick check `bytes.Contains(line, "->")`
taken out. -/
def readLoopNoCheck : List ReadResult → List Str
  | [] => []
  | r :: rest =>
    if r.isPrefix then readLoopNoCheck rest
    else r.line :: readLoopNoCheck rest

/-- The function `parseWorker` of `main.go`, run over the strings it receives:
the lines it sends on `out`, in order. -/
def parseWorker (pd : Str → Except DurationError Duration) : List Str → List Line
  | [] => []
  | str :: rest =>
    if (parseLine pd str).ok then (parseLine pd str).line :: parseWorker pd rest
    else parseWorker pd rest

/-- The function `lineCollector` of `main.go`, run over the lines it receives:
`for out := range output { lines = append(lines, out) }`. -/
def lineCollector (output : List Line) : List Line :=
  output.foldl (fun lines out => lines ++ [out]) []

/-- The ranking step of `main`,
`sort.Slice(lines, func(i, j int) bool { return lines[i].Duration > lines[j].Duration })`,
over the generator step `next` of the library. -/
def rankWith (next : Nat → Nat) (lines : List Line) : List Line :=
  sortSliceWith next (fun a b => decide (a.Duration > b.Duration)) lines

/-- The ranking step of `main`:
`sort.Slice(lines, func(i, j int) bool { return lines[i].Duration > lines[j].Duration })`. -/
def rank (lines : List Line) : List Line :=
  rankWith xorshift lines

/-- The pipeline of `main` up to the ranked slice, run sequentially, over the
generator step `next` of the library: the read loop, `parseWorker`,
`lineCollector` and the sort. -/
def rankedWith (pd : Str → Except DurationError Duration) (next : Nat → Nat)
    (reads : List ReadResult) : List Line :=
  rankWith next (lineCollector (parseWorker pd (readLoop reads)))

/-- The pipeline of `main` up to the ranked slice, run sequentially: the read
loop, `parseWorker`, `lineCollector` and the sort. -/
def ranked (pd : Str → Except DurationError Duration) (reads : List ReadResult) : List Line :=
  rankedWith pd xorshift reads

/-- Go `filepath.Base` on a Unix system (separator `/`, no volume name). -/
def Base (path : Str) : Str :=
  if path = [] then ['.']
  else
    let p₁ := (path.reverse.dropWhile (· == '/')).reverse
    let p₂ := (p₁.reverse.takeWhile (· != '/')).reverse
    if p₂ = [] then ['/'] else p₂

/-- The function `baseCmd` of `main.go`; `none` is the run-time panic of an
index out of range. -/
def baseCmd (command : Str) : Option Str :=
  let parts := SplitAfterN command [' '] 2
  match parts[0]?, parts[1]? with
  | some p₀, some p₁ => some (Base p₀ ++ p₁)
  | _, _ => none

/-- The function `ellipsize` of `main.go`.  The slice `str[:max-3]` is in
range, as `len(str) >= max` where it is taken. -/
def ellipsize (str : Str) (max : Int) : Str :=
  let max₁ : Int := if max < 3 then 80 else max
  if (str.length : Int) < max₁ then str
  else str.take (max₁ - 3).toNat ++ ['.', '.', '.']

/-- What a run of a mode of `main` ends in: the values printed, the fatal
`log.Fatalf`, or a run-time panic. -/
inductive Outcome (α : Type) where
  | printed (out : α)
  | fatal
  | panic
  deriving DecidableEq, Repr

/-- The default mode of `main` (`case ""`): one row
`(line.Duration, ellipsize(baseCmd(line.Command), maxColumns))` per ranked line. -/
def defaultMode (lines : List Line) (maxColumns : Int) : Outcome (List (Duration × Str)) :=
  match lines.mapM (fun line =>
      (baseCmd line.Command).map (fun c => (line.Duration, ellipsize c maxColumns))) with
  | some rows => .printed rows
  | none => .panic

/-- The index mode of `main` (`case "line"`) after `strconv.Atoi` returned `l`:
the two values printed, `lines[l].Command` and `lines[l].Duration`. -/
def lineMode (lines : List Line) (l : Int) : Outcome (Str × Duration) :=
  if l < 0 ∨ l ≥ (lines.length : Int) then .fatal
  else
    match lines[l.toNat]? with
    | some e => .printed (e.Command, e.Duration)
    | none => .panic

/-! ## The goroutines of `main` -/

/-- Where a `parseWorker` goroutine (`go func() { parseWorker(lineIn, lineOut); wg.Done() }()`)
stands: at the receive of `for str := range in`, holding a received `str`
before `parseLine`, at the send `out <- line`, returned from `parseWorker`
before `wg.Done()`, or finished. -/
inductive Worker where
  | receiving
  | parsing (str : Str)
  | sending (line : Line)
  | returned
  | exited
  deriving DecidableEq, Repr

/-- Where the goroutine `go func() { linesOut <- lineCollector(lineOut) }()`
stands: in the loop `for out := range output` with the lines appended so far,
at the send on `linesOut` with the slice returned, or finished. -/
inductive Collector where
  | collecting (lines : List Line)
  | delivering (lines : List Line)
  | exited
  deriving DecidableEq, Repr

/-- Where the goroutine of `main` stands: in the read loop with the results of
`ReadLine` still to come, at `wg.Wait()` (after `close(lineIn)`), at
`close(lineOut)`, at the receive `lines := <-linesOut`, or past it with the
slice received. -/
inductive MainPc where
  | reading (reads : List ReadResult)
  | waiting
  | closing
  | receiving
  | got (lines : List Line)
  deriving DecidableEq, Repr

/-- The state of the running pipeline: the goroutines, whether each of the
unbuffered channels `lineIn` and `lineOut` is closed, and the counter of the
`sync.WaitGroup`. -/
structure Sys where
  main : MainPc
  lineInClosed : Bool
  lineOutClosed : Bool
  wg : Int
  workers : List Worker
  collector : Collector
  deriving DecidableEq, Repr

/-- The state after `main` has started the collector and `maxProcs` workers
(`wg.Add(maxProcs)`), before the first `ReadLine`. -/
def Sys.init (maxProcs : Nat) (reads : List ReadResult) : Sys :=
  ⟨.reading reads, false, false, maxProcs, List.replicate maxProcs .receiving, .collecting []⟩

/-- One step of one goroutine, or of two goroutines that meet on an unbuffered
channel.  A send on a closed channel, a second `close` and a negative
`WaitGroup` counter panic in Go: such a state has no step here. -/
inductive Step (pd : Str → Except DurationError Duration) : Sys → Sys → Prop
  /-- `if isPrefix { continue }` -/
  | skipPrefix (r : ReadResult) (rest : List ReadResult) (ic oc : Bool) (wg : Int)
      (ws : List Worker) (col : Collector) (h : r.isPrefix = true) :
      Step pd ⟨.reading (r :: rest), ic, oc, wg, ws, col⟩ ⟨.reading rest, ic, oc, wg, ws, col⟩
  /-- `if !bytes.Contains(line, []byte("->")) { continue }` -/
  | skipNoArrow (r : ReadResult) (rest : List ReadResult) (ic oc : Bool) (wg : Int)
      (ws : List Worker) (col : Collector) (h₁ : r.isPrefix = false)
      (h₂ : Contains r.line arrow = false) :
      Step pd ⟨.reading (r :: rest), ic, oc, wg, ws, col⟩ ⟨.reading rest, ic, oc, wg, ws, col⟩
  /-- `lineIn <- string(line)` in `main` meets `str := <-in` in a worker. -/
  | sendLine (r : ReadResult) (rest : List ReadResult) (oc : Bool) (wg : Int)
      (a b : List Worker) (col : Collector) (h₁ : r.isPrefix = false)
      (h₂ : Contains r.line arrow = true) :
      Step pd ⟨.reading (r :: rest), false, oc, wg, a ++ .receiving :: b, col⟩
        ⟨.reading rest, false, oc, wg, a ++ .parsing r.line :: b, col⟩
  /-- `io.EOF`: `break`, then `close(lineIn)`. -/
  | closeIn (oc : Bool) (wg : Int) (ws : List Worker) (col : Collector) :
      Step pd ⟨.reading [], false, oc, wg, ws, col⟩ ⟨.waiting, true, oc, wg, ws, col⟩
  /-- `parseLine(str)` returns `ok = true` in a worker. -/
  | accept (m : MainPc) (ic oc : Bool) (wg : Int) (a b : List Worker) (col : Collector)
      (str : Str) (h : (parseLine pd str).ok = true) :
      Step pd ⟨m, ic, oc, wg, a ++ .parsing str :: b, col⟩
        ⟨m, ic, oc, wg, a ++ .sending (parseLine pd str).line :: b, col⟩
  /-- `parseLine(str)` returns `ok = false` in a worker. -/
  | reject (m : MainPc) (ic oc : Bool) (wg : Int) (a b : List Worker) (col : Collector)
      (str : Str) (h : (parseLine pd str).ok = false) :
      Step pd ⟨m, ic, oc, wg, a ++ .parsing str :: b, col⟩
        ⟨m, ic, oc, wg, a ++ .receiving :: b, col⟩
  /-- The loop `for str := range in` of a worker ends on the closed `lineIn`. -/
  | rangeEnd (m : MainPc) (oc : Bool) (wg : Int) (a b : List Worker) (col : Collector) :
      Step pd ⟨m, true, oc, wg, a ++ .receiving :: b, col⟩
        ⟨m, true, oc, wg, a ++ .returned :: b, col⟩
  /-- `wg.Done()` in a worker goroutine. -/
  | done (m : MainPc) (ic oc : Bool) (wg : Int) (a b : List Worker) (col : Collector)
      (h : 0 < wg) :
      Step pd ⟨m, ic, oc, wg, a ++ .returned :: b, col⟩
        ⟨m, ic, oc, wg - 1, a ++ .exited :: b, col⟩
  /-- `out <- line` in a worker meets `out := range output` in the collector. -/
  | collect (m : MainPc) (ic : Bool) (wg : Int) (a b : List Worker) (line : Line)
      (lines : List Line) :
      Step pd ⟨m, ic, false, wg, a ++ .sending line :: b, .collecting lines⟩
        ⟨m, ic, false, wg, a ++ .receiving :: b, .collecting (lines ++ [line])⟩
  /-- `wg.Wait()` returns. -/
  | waitReturns (ic oc : Bool) (ws : List Worker) (col : Collector) :
      Step pd ⟨.waiting, ic, oc, 0, ws, col⟩ ⟨.closing, ic, oc, 0, ws, col⟩
  /-- `close(lineOut)`. -/
  | closeOut (ic : Bool) (wg : Int) (ws : List Worker) (col : Collector) :
      Step pd ⟨.closing, ic, false, wg, ws, col⟩ ⟨.receiving, ic, true, wg, ws, col⟩
  /-- The loop `for out := range output` of the collector ends on the closed
  `lineOut`, and `lineCollector` returns. -/
  | collectorRangeEnd (m : MainPc) (ic : Bool) (wg : Int) (ws : List Worker)
      (lines : List Line) :
      Step pd ⟨m, ic, true, wg, ws, .collecting lines⟩ ⟨m, ic, true, wg, ws, .delivering lines⟩
  /-- `linesOut <- lineCollector(lineOut)` meets `lines := <-linesOut` in `main`. -/
  | deliver (ic oc : Bool) (wg : Int) (ws : List Worker) (lines : List Line) :
      Step pd ⟨.receiving, ic, oc, wg, ws, .delivering lines⟩
        ⟨.got lines, ic, oc, wg, ws, .exited⟩

/-- The states that an interleaving of the goroutines reaches from `s₀`. -/
def Reachable (pd : Str → Except DurationError Duration) (s₀ s : Sys) : Prop :=
  Relation.ReflTransGen (Step pd) s₀ s

/-- The Records a worker holds: the one it is about to send, or the one that
`parseLine` is about to return for the string it holds. -/
def Worker.pending (pd : Str → Except DurationError Duration) : Worker → Multiset Line
  | .parsing str => (parseWorker pd [str] : List Line)
  | .sending line => ([line] : List Line)
  | _ => 0

/-- The Records held by the workers. -/
def pendingAll (pd : Str → Except DurationError Duration) (ws : List Worker) : Multiset Line :=
  (ws.map (Worker.pending pd)).sum

/-- The Records collected so far: the slice of the collector, or the slice
that `main` has received. -/
def Sys.collected (s : Sys) : List Line :=
  match s.collector, s.main with
  | .collecting lines, _ => lines
  | .delivering lines, _ => lines
  | .exited, .got lines => lines
  | .exited, _ => []

/-- The Records of the input that `main` has not read yet, as a sequential
run produces them. -/
def MainPc.future (pd : Str → Except DurationError Duration) : MainPc → List Line
  | .reading reads => parseWorker pd (readLoop reads)
  | _ => []

/-- The number of worker goroutines that have not called `wg.Done()`. -/
def liveCount (ws : List Worker) : Int :=
  (ws.map (fun w => if w = .exited then (0 : Int) else 1)).sum

/-- A bound on the number of steps a worker has left before the next receive. -/
def Worker.weight : Worker → Nat
  | .receiving => 2
  | .parsing _ => 4
  | .sending _ => 3
  | .returned => 1
  | .exited => 0

/-- A bound on the number of steps the collector has left. -/
def Collector.weight : Collector → Nat
  | .collecting _ => 2
  | .delivering _ => 1
  | .exited => 0

/-- A bound on the number of steps `main` has left, with those of the workers
that it still feeds. -/
def MainPc.weight : MainPc → Nat
  | .reading reads => 3 * reads.length + 4
  | .waiting => 3
  | .closing => 2
  | .receiving => 1
  | .got _ => 0

/-- The measure that every step of the pipeline decreases. -/
def Sys.weight (s : Sys) : Nat :=
  s.main.weight + (s.workers.map Worker.weight).sum + s.collector.weight

/-- What holds of the channels, the workers and the collector at each point of
`main`. -/
def Sys.phaseOk (s : Sys) : Prop :=
  match s.main with
  | .reading _ =>
    s.lineInClosed = false ∧ s.lineOutClosed = false ∧
      (∀ w ∈ s.workers, w ≠ .returned ∧ w ≠ .exited) ∧ ∃ l, s.collector = .collecting l
  | .waiting =>
    s.lineInClosed = true ∧ s.lineOutClosed = false ∧ ∃ l, s.collector = .collecting l
  | .closing =>
    s.lineInClosed = true ∧ s.lineOutClosed = false ∧ (∀ w ∈ s.workers, w = .exited) ∧
      ∃ l, s.collector = .collecting l
  | .receiving =>
    s.lineInClosed = true ∧ s.lineOutClosed = true ∧ (∀ w ∈ s.workers, w = .exited) ∧
      ∃ l, s.collector = .collecting l ∨ s.collector = .delivering l
  | .got _ =>
    s.lineInClosed = true ∧ s.lineOutClosed = true ∧ (∀ w ∈ s.workers, w = .exited) ∧
      s.collector = .exited

/-- The invariant of the running pipeline started with `maxProcs` workers on
the input `reads`. -/
structure Inv (pd : Str → Except DurationError Duration) (maxProcs : Nat)
    (reads : List ReadResult) (s : Sys) : Prop where
  workers_length : s.workers.length = maxProcs
  wg_eq : s.wg = liveCount s.workers
  phase : s.phaseOk
  conserved : (s.collected : Multiset Line) + pendingAll pd s.workers + (s.main.future pd : List Line)
    = (parseWorker pd (readLoop reads) : List Line)

/-- The Record that `parseLine` returns for a line, when it accepts the line. -/
def record (pd : Str → Except DurationError Duration) (line : Str) : Option Line :=
  if (parseLine pd line).ok then some (parseLine pd line).line else none

/-- The results of `ReadLine` for lines that are each read whole. -/
def wholeReads (lines : List Str) : List ReadResult :=
  lines.map (fun l => ⟨l, false⟩)

/-- The input of the example of the specification. -/
def exampleInput : List Str :=
  ["build -> 1.2s".toList, "test -> 500ms".toList, "not a measurement line".toList,
    "lint -> 2s".toList]

/-- The ranked output of the example of the specification:
lint (2s), build (1.2s), test (500ms). -/
def exampleRanked : List Line :=
  [⟨"lint".toList, 2000000000⟩, ⟨"build".toList, 1200000000⟩, ⟨"test".toList, 500000000⟩]

/-- The text of an ASCII literal as a Go string. -/
def lit (s : String) : Str := s.toList

/-- Thirteen Records, more than the twelve up to which `sort.Slice` runs the
insertion sort alone: the labels `a` to `m`, the duration 1ns for `a`, `c`, ...,
`m` and 2ns for `b`, `d`, ..., `l`. -/
def exampleThirteen : List Line :=
  [⟨lit "a", 1⟩, ⟨lit "b", 2⟩, ⟨lit "c", 1⟩, ⟨lit "d", 2⟩, ⟨lit "e", 1⟩, ⟨lit "f", 2⟩,
   ⟨lit "g", 1⟩, ⟨lit "h", 2⟩, ⟨lit "i", 1⟩, ⟨lit "j", 2⟩, ⟨lit "k", 1⟩, ⟨lit "l", 2⟩,
   ⟨lit "m", 1⟩]

deriving instance DecidableEq for Except

/-! ## Facts about `strings.Index` -/

theorem Index_eq_none_iff (s sp : Str) : Index s sp = none ↔ ¬ sp <:+: s := by
  induction s with
  | nil =>
    simp only [Index]
    split
    · rename_i h
      have := List.isPrefixOf_iff_prefix.mp h
      simp_all
    · rename_i h
      simp only [true_iff]
      intro hi
      apply h
      have : sp = [] := List.eq_nil_of_infix_nil hi
      subst this
      rfl
  | cons c s ih =>
    simp only [Index]
    split
    · rename_i h
      have := List.isPrefixOf_iff_prefix.mp h
      constructor
      · intro h₁
        cases h₁
      · intro hn
        exact absurd this.isInfix hn
    · rename_i h
      rw [Option.map_eq_none', ih, List.infix_cons_iff]
      have hp : ¬ sp <+: c :: s := fun hp => h (List.isPrefixOf_iff_prefix.mpr hp)
      tauto

theorem Index_some_split (s sp : Str) (m : Nat) (h : Index s sp = some m) :
    ∃ a b, s = a ++ sp ++ b ∧ a.length = m ∧
      ∀ a₁ b₁, s = a₁ ++ sp ++ b₁ → m ≤ a₁.length := by
  induction s generalizing m with
  | nil =>
    simp only [Index] at h
    split at h
    · rename_i hp
      have := List.isPrefixOf_iff_prefix.mp hp
      have hs : sp = [] := List.prefix_nil.mp this
      subst hs
      cases h
      exact ⟨[], [], by simp, rfl, by simp⟩
    · cases h
  | cons c s ih =>
    simp only [Index] at h
    split at h
    · rename_i hp
      obtain ⟨b, hb⟩ := List.isPrefixOf_iff_prefix.mp hp
      cases h
      exact ⟨[], b, by simp [hb], rfl, by simp⟩
    · rename_i hp
      rw [Option.map_eq_some'] at h
      obtain ⟨m₁, hm₁, rfl⟩ := h
      obtain ⟨a, b, hs, hl, hmin⟩ := ih m₁ hm₁
      refine ⟨c :: a, b, by simp [hs], by simp [hl], ?_⟩
      intro a₁ b₁ h₁
      cases a₁ with
      | nil =>
        exfalso
        apply hp
        apply List.isPrefixOf_iff_prefix.mpr
        exact ⟨b₁, by simpa using h₁.symm⟩
      | cons x a₂ =>
        simp only [List.cons_append, List.cons.injEq] at h₁
        have := hmin a₂ b₁ (by simpa using h₁.2)
        simp only [List.length_cons]
        omega
theorem Index_isSome_iff (s sp : Str) : (Index s sp).isSome = true ↔ sp <:+: s := by
  rw [← not_iff_not, ← Index_eq_none_iff]
  cases Index s sp <;> simp

theorem take_of_split (a sp b : Str) : (a ++ sp ++ b).take a.length = a := by
  simp [List.take_append_eq_append_take]

theorem take_sep_of_split (a sp b : Str) :
    (a ++ sp ++ b).take (a.length + sp.length) = a ++ sp := by
  rw [← List.length_append]
  exact List.take_left' rfl

theorem drop_of_split (a sp b : Str) : (a ++ sp ++ b).drop (a.length + sp.length) = b := by
  rw [← List.length_append]
  exact List.drop_left' rfl

/-! ## Facts about `strings.Join` -/

theorem foldl_join_append (sp : Str) (rest : List Str) (a x : Str) :
    rest.foldl (fun b s => b ++ sp ++ s) (a ++ x)
      = a ++ rest.foldl (fun b s => b ++ sp ++ s) x := by
  induction rest generalizing x with
  | nil => rfl
  | cons r rest ih =>
    simp only [List.foldl_cons]
    rw [← ih]
    simp [List.append_assoc]

theorem Join_cons_of_ne_nil (a : Str) (rest : List Str) (sp : Str) (h : rest ≠ []) :
    Join (a :: rest) sp = a ++ sp ++ Join rest sp := by
  cases rest with
  | nil => exact absurd rfl h
  | cons b rest =>
    simp only [Join, List.foldl_cons]
    rw [List.append_assoc a sp b, foldl_join_append, foldl_join_append, List.append_assoc]

theorem Join_append_singleton (P : List Str) (t sp : Str) (h : P ≠ []) :
    Join (P ++ [t]) sp = Join P sp ++ sp ++ t := by
  cases P with
  | nil => exact absurd rfl h
  | cons a rest => simp [Join, List.foldl_append]

/-! ## Facts about `strings.Count` and `strings.Split` -/

theorem CountLoop_le (sp : Str) (hsp : sp ≠ []) (f : Nat) (s : Str) :
    CountLoop sp f s ≤ s.length := by
  induction f generalizing s with
  | zero => simp [CountLoop]
  | succ f ih =>
    simp only [CountLoop]
    cases h : Index s sp with
    | none => simp
    | some m =>
      obtain ⟨a, b, hs, hl, -⟩ := Index_some_split s sp m h
      have hd : s.drop (m + sp.length) = b := by
        rw [hs, ← hl]
        exact drop_of_split a sp b
      have hpos : 0 < sp.length := List.length_pos.mpr hsp
      have := ih b
      simp only [hd]
      rw [hs]
      simp only [List.length_append]
      omega

theorem genSplitLoop_CountLoop (sp : Str) (sv : Nat) (hsp : sp ≠ []) (f : Nat) (s : Str)
    (hf : s.length < f) :
    genSplitLoop sp sv (CountLoop sp f s) s = genSplitLoop sp sv f s := by
  induction f generalizing s with
  | zero => omega
  | succ f ih =>
    simp only [CountLoop, genSplitLoop]
    cases h : Index s sp with
    | none => simp [genSplitLoop]
    | some m =>
      obtain ⟨a, b, hs, hl, -⟩ := Index_some_split s sp m h
      have hd : s.drop (m + sp.length) = b := by
        rw [hs, ← hl]
        exact drop_of_split a sp b
      have hpos : 0 < sp.length := List.length_pos.mpr hsp
      have hb : b.length < f := by
        rw [hs] at hf
        simp only [List.length_append] at hf
        omega
      simp only [genSplitLoop, h, hd]
      rw [ih b hb]

theorem Split_eq (s sp : Str) (hsp : sp ≠ []) :
    Split s sp = genSplitLoop sp 0 (s.length + 1) s := by
  have hc : CountLoop sp (s.length + 1) s ≤ s.length := CountLoop_le sp hsp _ s
  have h₁ : ¬ ((-1 : Int) = 0) := by decide
  have h₂ : (-1 : Int) < 0 := by decide
  have h₃ : ¬ (CountLoop sp (s.length + 1) s + 1 > s.length + 1) := by omega
  simp only [Split, genSplit, Count, h₁, h₂, h₃, if_true, if_false, Nat.add_sub_cancel]
  exact genSplitLoop_CountLoop sp 0 hsp _ s (by omega)

/-- The shape of the result of the split loop: the parts before the last one,
the last part, which holds no separator, and the join that restores `s`. -/
theorem genSplitLoop_spec (sp : Str) (hsp : sp ≠ []) (f : Nat) (s : Str)
    (hf : s.length < f) :
    ∃ P t, genSplitLoop sp 0 f s = P ++ [t] ∧ ¬ sp <:+: t ∧ Join (P ++ [t]) sp = s ∧
      (P = [] ↔ ¬ sp <:+: s) := by
  induction f generalizing s with
  | zero => omega
  | succ f ih =>
    simp only [genSplitLoop]
    cases h : Index s sp with
    | none =>
      have hn := (Index_eq_none_iff s sp).mp h
      exact ⟨[], s, rfl, hn, rfl, by simp [hn]⟩
    | some m =>
      obtain ⟨a, b, hs, hl, -⟩ := Index_some_split s sp m h
      have hd : s.drop (m + sp.length) = b := by
        rw [hs, ← hl]
        exact drop_of_split a sp b
      have ht : s.take (m + 0) = a := by
        rw [hs, ← hl]
        exact take_of_split a sp b
      have hpos : 0 < sp.length := List.length_pos.mpr hsp
      have hb : b.length < f := by
        rw [hs] at hf
        simp only [List.length_append] at hf
        omega
      obtain ⟨P, t, hP, hnt, hj, -⟩ := ih b hb
      refine ⟨a :: P, t, ?_, hnt, ?_, ?_⟩
      · simp only [hd, ht, hP, List.cons_append]
      · rw [List.cons_append, Join_cons_of_ne_nil _ _ _ (by simp), hj, hs]
      · have : sp <:+: s := ⟨a, b, hs.symm⟩
        simp [this]

/-! ## Facts about `parseLine` -/

theorem sep_ne_nil : sep ≠ [] := by decide

/-- The parts of `strings.Split(line, " -> ")`: the last part holds no
separator and the join of the parts restores the line. -/
theorem Split_sep_spec (line : Str) :
    ∃ P t, Split line sep = P ++ [t] ∧ ¬ sep <:+: t ∧ Join (P ++ [t]) sep = line ∧
      (P = [] ↔ ¬ sep <:+: line) := by
  rw [Split_eq line sep sep_ne_nil]
  exact genSplitLoop_spec sep sep_ne_nil _ line (by omega)

theorem parseLine_of_parts (pd : Str → Except DurationError Duration) (line : Str)
    (P : List Str) (t : Str) (h : Split line sep = P ++ [t]) (hP : P ≠ []) :
    parseLine pd line =
      match pd t with
      | .error err => ⟨Line.zero, false, [⟨t, err⟩]⟩
      | .ok d => ⟨⟨Join P sep, d⟩, true, []⟩ := by
  have hlen : ¬ (P ++ [t]).length < 2 := by
    have := List.length_pos.mpr hP
    simp only [List.length_append, List.length_singleton]
    omega
  have htake : (P ++ [t]).take ((P ++ [t]).length - 1) = P := by
    simp
  have hget : (P ++ [t]).getD ((P ++ [t]).length - 1) [] = t := by
    simp [List.getD_eq_getElem?_getD]
  simp only [parseLine, h, hlen, if_false, htake, hget]

theorem trailingToken_of_parts (line : Str) (P : List Str) (t : Str)
    (h : Split line sep = P ++ [t]) : trailingToken line = t := by
  simp [trailingToken, h, List.getD_eq_getElem?_getD]

theorem parseLine_of_absent (pd : Str → Except DurationError Duration) (line : Str)
    (h : ¬ sep <:+: line) : parseLine pd line = ⟨Line.zero, false, []⟩ := by
  obtain ⟨P, t, hs, -, -, hP⟩ := Split_sep_spec line
  have : P = [] := hP.mpr h
  subst this
  simp [parseLine, hs]

/-- The outcome of `parseLine` on a line that holds a separator. -/
theorem parseLine_of_present (pd : Str → Except DurationError Duration) (line : Str)
    (h : sep <:+: line) :
    ∃ c, line = c ++ sep ++ trailingToken line ∧ ¬ sep <:+: trailingToken line ∧
      parseLine pd line =
        match pd (trailingToken line) with
        | .error err => ⟨Line.zero, false, [⟨trailingToken line, err⟩]⟩
        | .ok d => ⟨⟨c, d⟩, true, []⟩ := by
  obtain ⟨P, t, hs, hnt, hj, hP⟩ := Split_sep_spec line
  have hne : P ≠ [] := fun hn => (hP.mp hn) h
  rw [trailingToken_of_parts line P t hs]
  refine ⟨Join P sep, ?_, hnt, parseLine_of_parts pd line P t hs hne⟩
  rw [← Join_append_singleton P t sep hne, hj]

theorem genSplitLoop_of_absent (sp : Str) (sv f : Nat) (s : Str) (h : ¬ sp <:+: s) :
    genSplitLoop sp sv f s = [s] := by
  cases f with
  | zero => rfl
  | succ f => simp only [genSplitLoop, (Index_eq_none_iff s sp).mpr h]

/-- The split loop on `L ++ " -> " ++ T`, where `T` holds no separator and `L`
does not end in `" ->"`: the last part is `T` and the parts before it join to `L`. -/
theorem genSplitLoop_label_token (T : Str) (hT : ¬ sep <:+: T) (f : Nat) (L : Str)
    (hf : (L ++ sep ++ T).length < f) (hL : ¬ [' ', '-', '>'] <:+ L) :
    ∃ P, genSplitLoop sep 0 f (L ++ sep ++ T) = P ++ [T] ∧ P ≠ [] ∧ Join P sep = L := by
  induction f generalizing L with
  | zero => omega
  | succ f ih =>
    simp only [genSplitLoop]
    cases h : Index (L ++ sep ++ T) sep with
    | none =>
      exact absurd ⟨L, T, rfl⟩ ((Index_eq_none_iff _ sep).mp h)
    | some m =>
      obtain ⟨a, b, hs, hl, hmin⟩ := Index_some_split _ sep m h
      have hm : m ≤ L.length := hmin L T rfl
      have hd : (L ++ sep ++ T).drop (m + sep.length) = b := by
        rw [hs, ← hl]
        exact drop_of_split a sep b
      have ht : (L ++ sep ++ T).take (m + 0) = a := by
        rw [hs, ← hl]
        exact take_of_split a sep b
      simp only [hd, ht]
      have hc : ∃ c, L = a ++ c ∧ sep ++ b = c ++ (sep ++ T) := by
        rw [List.append_assoc, List.append_assoc, List.append_eq_append_iff] at hs
        rcases hs with ⟨a₁, ha₁, h₁⟩ | ⟨c, hc, h₁⟩
        · have : a₁ = [] := by
            have := congrArg List.length ha₁
            simp only [List.length_append] at this
            exact List.length_eq_zero.mp (by omega)
          subst this
          exact ⟨[], by simpa using ha₁.symm, by simpa using h₁.symm⟩
        · exact ⟨c, hc, h₁⟩
      obtain ⟨c, hLc, hbc⟩ := hc
      rcases c with _ | ⟨x₁, _ | ⟨x₂, _ | ⟨x₃, _ | ⟨x₄, c⟩⟩⟩⟩
      · have hb : b = T := by simpa using hbc
        have ha : a = L := by simpa using hLc.symm
        subst hb ha
        exact ⟨[a], by rw [genSplitLoop_of_absent sep 0 f b hT]; rfl, by simp, rfl⟩
      · simp [sep] at hbc
      · simp [sep] at hbc
      · exfalso
        apply hL
        have hx : x₁ = ' ' ∧ x₂ = '-' ∧ x₃ = '>' := by
          simp only [sep, List.cons_append, List.cons.injEq] at hbc
          exact ⟨hbc.1.symm, hbc.2.1.symm, hbc.2.2.1.symm⟩
        obtain ⟨rfl, rfl, rfl⟩ := hx
        exact ⟨a, hLc.symm⟩
      · have hx : [x₁, x₂, x₃, x₄] = sep ∧ b = c ++ sep ++ T := by
          simp only [sep, List.cons_append, List.cons.injEq, List.nil_append] at hbc ⊢
          obtain ⟨h₁, h₂, h₃, h₄, h₅⟩ := hbc
          exact ⟨⟨h₁.symm, h₂.symm, h₃.symm, h₄.symm, trivial⟩, by simpa using h₅⟩
        obtain ⟨hx, hb⟩ := hx
        have hLc₁ : L = a ++ sep ++ c := by
          rw [hLc, ← hx]
          simp
        have hfc : (c ++ sep ++ T).length < f := by
          rw [hLc₁] at hf
          simp only [List.length_append] at hf ⊢
          have : 0 < sep.length := by decide
          omega
        have hcs : ¬ [' ', '-', '>'] <:+ c := by
          intro hsuf
          apply hL
          rw [hLc₁]
          exact hsuf.trans (List.suffix_append _ _)
        obtain ⟨P, hP, hne, hj⟩ := ih c hfc hcs
        refine ⟨a :: P, ?_, by simp, ?_⟩
        · rw [hb, hP, List.cons_append]
        · rw [Join_cons_of_ne_nil a P sep hne, hj, hLc₁]

/-! ## Facts about `time.ParseDuration` -/

theorem digit_ne_space (c : Char) (h : ¬ (c < '0' ∨ c > '9')) : c ≠ ' ' := by
  intro hc
  subst hc
  exact h (by decide)

theorem leadingInt_spec (s : Str) (x v : Nat) (r : Str) (h : leadingInt s x = some (v, r)) :
    ∃ ds, s = ds ++ r ∧ ' ' ∉ ds := by
  induction s generalizing x with
  | nil =>
    simp only [leadingInt, Option.some.injEq, Prod.mk.injEq] at h
    exact ⟨[], by simp [h.2], by simp⟩
  | cons c s ih =>
    simp only [leadingInt] at h
    split at h
    · simp only [Option.some.injEq, Prod.mk.injEq] at h
      exact ⟨[], by simp [h.2], by simp⟩
    · rename_i hc
      split at h
      · cases h
      · split at h
        · cases h
        · obtain ⟨ds, hds, hsp⟩ := ih _ h
          refine ⟨c :: ds, by simp [hds], ?_⟩
          simp only [List.mem_cons, not_or]
          exact ⟨fun e => digit_ne_space c hc e.symm, hsp⟩

theorem leadingFraction_spec (s : Str) (x : Nat) (scale : F64) (o : Bool) :
    ∃ ds, s = ds ++ (leadingFraction s x scale o).2.2 ∧ ' ' ∉ ds := by
  induction s generalizing x scale o with
  | nil => exact ⟨[], by simp [leadingFraction], by simp⟩
  | cons c s ih =>
    simp only [leadingFraction]
    split
    · exact ⟨[], by simp, by simp⟩
    · rename_i hc
      have key : ∀ x₁ sc₁ o₁, ∃ ds, c :: s = ds ++ (leadingFraction s x₁ sc₁ o₁).2.2 ∧ ' ' ∉ ds := by
        intro x₁ sc₁ o₁
        obtain ⟨ds, hds, hsp⟩ := ih x₁ sc₁ o₁
        refine ⟨c :: ds, by rw [List.cons_append, ← hds], ?_⟩
        simp only [List.mem_cons, not_or]
        exact ⟨fun e => digit_ne_space c hc e.symm, hsp⟩
      split
      · exact key _ _ _
      · split
        · exact key _ _ _
        · split
          · exact key _ _ _
          · exact key _ _ _

theorem unitMap_no_space (u : Str) (k : Nat) (h : unitMap u = some k) : ' ' ∉ u := by
  unfold unitMap at h
  repeat' split at h
  all_goals first
    | (rename_i hu; subst hu; decide)
    | cases h


theorem fractionPart_spec (s : Str) :
    ∃ ds, s = ds ++ (fractionPart s).2.2.1 ∧ ' ' ∉ ds := by
  unfold fractionPart
  split
  · rename_i s₂
    obtain ⟨ds, hds, hsp⟩ := leadingFraction_spec s₂ 0 ⟨1, 0⟩ false
    refine ⟨'.' :: ds, ?_, ?_⟩
    · simp only [List.cons_append]
      rw [← hds]
    · simp only [List.mem_cons, not_or]
      exact ⟨by decide, hsp⟩
  · exact ⟨[], by simp, by simp⟩

theorem unitLen_pos_ne_nil (s : Str) (h : unitLen s ≠ 0) : s ≠ [] := by
  intro hs
  subst hs
  exact h rfl

theorem parseDurationStep_spec (orig s : Str) (d : Nat) (s₁ : Str) (d₁ : Nat)
    (h : parseDurationStep orig s d = .ok (s₁, d₁)) :
    ∃ p, s = p ++ s₁ ∧ p ≠ [] ∧ ' ' ∉ p := by
  unfold parseDurationStep at h
  split at h
  · cases h
  · rename_i c s₀
    split at h
    · cases h
    · split at h
      · cases h
      · rename_i v r hli
        obtain ⟨ds, hds, hsp⟩ := leadingInt_spec _ _ _ _ hli
        obtain ⟨fs, hfs, hfsp⟩ := fractionPart_spec r
        simp only at h
        generalize fractionPart r = fp at h hfs
        split at h
        · cases h
        · split at h
          · cases h
          · rename_i hi
            split at h
            · cases h
            · rename_i unit hu
              split at h
              · cases h
              · simp only [Except.ok.injEq, Prod.mk.injEq] at h
                have htd := List.take_append_drop (unitLen fp.2.2.1) fp.2.2.1
                have hun := unitMap_no_space _ _ hu
                have hne : List.take (unitLen fp.2.2.1) fp.2.2.1 ≠ [] := by
                  intro hnil
                  rw [hnil] at hu
                  simp [unitMap] at hu
                refine ⟨ds ++ fs ++ List.take (unitLen fp.2.2.1) fp.2.2.1, ?_, ?_, ?_⟩
                · rw [hds, hfs, ← h.1]
                  simp only [List.append_assoc]
                  rw [htd]
                · simp [hne]
                · simp only [List.mem_append, not_or]
                  exact ⟨⟨hsp, hfsp⟩, hun⟩

theorem parseDurationLoop_no_space (orig : Str) (f : Nat) (s : Str) (d d₁ : Nat)
    (hf : s.length < f) (h : parseDurationLoop orig f s d = .ok d₁) : ' ' ∉ s := by
  induction f generalizing s d with
  | zero => omega
  | succ f ih =>
    simp only [parseDurationLoop] at h
    split at h
    · rename_i hs
      simp [hs]
    · split at h
      · cases h
      · rename_i s₁ d₂ hstep
        obtain ⟨p, hp, hne, hsp⟩ := parseDurationStep_spec _ _ _ _ _ hstep
        have hlen : s₁.length < f := by
          have := List.length_pos.mpr hne
          rw [hp] at hf
          simp only [List.length_append] at hf
          omega
        have := ih s₁ d₂ hlen h
        rw [hp]
        simp only [List.mem_append, not_or]
        exact ⟨hsp, this⟩

/-- A token that `time.ParseDuration` accepts holds no space. -/
theorem parseDuration_no_space (t : Str) (d : Duration) (h : parseDuration t = .ok d) :
    ' ' ∉ t := by
  unfold parseDuration at h
  simp only at h
  generalize hs : (match t with
    | '-' :: s => s
    | '+' :: s => s
    | s => s) = s at h
  have hts : ' ' ∉ s → ' ' ∉ t := by
    intro hn
    split at hs
    · subst hs
      simp only [List.mem_cons, not_or]
      exact ⟨by decide, hn⟩
    · subst hs
      simp only [List.mem_cons, not_or]
      exact ⟨by decide, hn⟩
    · subst hs
      exact hn
  apply hts
  split at h
  · rename_i hz
    rw [hz]
    decide
  · split at h
    · cases h
    · split at h
      · cases h
      · rename_i d₁ hl
        exact parseDurationLoop_no_space _ _ _ _ _ (by omega) hl

set_option maxRecDepth 1000000 in
/-- The scale of a fraction is a `float64` that is multiplied by 10 once per
digit, so from 25 digits on it is no longer the `float64` nearest to the power
of ten: `0.0000000420000000000000000s` is 42ns and `0.0000000030000000000000000s`
is 3ns. -/
theorem parseDuration_iterated_scale :
    parseDuration (lit "0.0000000420000000000000000s") = .ok 42 ∧
    parseDuration (lit "0.0000000030000000000000000s") = .ok 3 ∧
    parseDuration (lit "1.5h") = .ok 5400000000000 := by
  refine ⟨by decide, by decide, by decide⟩

/-! ## The line parser: claims -/

theorem space_mem_of_sep_present (t : Str) (h : sep <:+: t) : ' ' ∈ t := by
  obtain ⟨a, b, rfl⟩ := h
  simp [sep]

/-- C1 (amended): for a duration parser that accepts no token holding a space
(as `time.ParseDuration`), every label `L` that does not end in `" ->"` and
every accepted token `T` with value `d`, `parseLine (L ++ " -> " ++ T)` returns
the Record `(L, d)` with `ok = true` and logs nothing; separators inside `L`
stay in the label. -/
theorem parseLine_label_token (pd : Str → Except DurationError Duration)
    (hpd : ∀ t d, pd t = .ok d → ' ' ∉ t) (L T : Str) (d : Duration)
    (hL : ¬ [' ', '-', '>'] <:+ L) (hT : pd T = .ok d) :
    parseLine pd (L ++ sep ++ T) = ⟨⟨L, d⟩, true, []⟩ := by
  have hTs : ¬ sep <:+: T := fun hi => hpd T d hT (space_mem_of_sep_present T hi)
  obtain ⟨P, hP, hne, hj⟩ :=
    genSplitLoop_label_token T hTs ((L ++ sep ++ T).length + 1) L (by omega) hL
  rw [← Split_eq _ sep sep_ne_nil] at hP
  rw [parseLine_of_parts pd _ P T hP hne, hT, hj]

set_option maxRecDepth 100000 in
/-- C1, witness: `"a -> b -> 3s"` yields the label `"a -> b"` and 3s. -/
theorem parseLine_label_token_witness :
    (∀ t d, parseDuration t = .ok d → ' ' ∉ t) ∧
    ¬ [' ', '-', '>'] <:+ lit "a -> b" ∧
    parseDuration (lit "3s") = .ok 3000000000 ∧
    parseLine parseDuration (lit "a -> b" ++ sep ++ lit "3s")
      = ⟨⟨lit "a -> b", 3000000000⟩, true, []⟩ :=
  ⟨parseDuration_no_space, by decide, by decide,
    parseLine_label_token parseDuration parseDuration_no_space (lit "a -> b") (lit "3s")
      3000000000 (by decide) (by decide)⟩

set_option maxRecDepth 100000 in
/-- C1, counterexample: the line `"a -> -> 3s"` is `"a ->" ++ " -> " ++ "3s"`,
the text after its final separator is the token `"3s"`, which
`time.ParseDuration` accepts, and `parseLine` rejects the line: it hands the
parser the token `"-> 3s"`. -/
theorem parseLine_final_occurrence_counterexample :
    lit "a -> -> 3s" = lit "a ->" ++ sep ++ lit "3s" ∧
    ¬ sep <:+: lit "3s" ∧
    parseDuration (lit "3s") = .ok 3000000000 ∧
    parseLine parseDuration (lit "a -> -> 3s")
      = ⟨Line.zero, false, [⟨lit "-> 3s", .invalid (lit "-> 3s")⟩]⟩ ∧
    ¬ (∀ (L T : Str) (d : Duration), parseDuration T = .ok d →
        parseLine parseDuration (L ++ sep ++ T) = ⟨⟨L, d⟩, true, []⟩) := by
  refine ⟨by decide, by decide, by decide, by decide, ?_⟩
  intro h
  have h₁ := h (lit "a ->") (lit "3s") 3000000000 (by decide)
  revert h₁
  decide

theorem afterFinalSeparator_eq_none_iff (s : Str) :
    afterFinalSeparator s = none ↔ ¬ sep <:+: s := by
  induction s with
  | nil =>
    simp only [afterFinalSeparator, true_iff]
    intro h
    exact sep_ne_nil (List.eq_nil_of_infix_nil h)
  | cons c s ih =>
    simp only [afterFinalSeparator]
    cases h : afterFinalSeparator s with
    | some t =>
      have hs : sep <:+: s := by
        by_contra hn
        rw [ih.mpr hn] at h
        cases h
      simp only [reduceCtorEq, false_iff, not_not]
      exact List.infix_cons hs
    | none =>
      have hs := ih.mp h
      simp only
      rw [List.infix_cons_iff]
      by_cases hp : sep.isPrefixOf (c :: s) = true
      · simp only [hp, if_true, reduceCtorEq, false_iff, not_not]
        exact Or.inl (List.isPrefixOf_iff_prefix.mp hp)
      · simp only [hp]
        refine ⟨fun _ => ?_, fun _ => rfl⟩
        rintro (h₁ | h₁)
        · exact hp (List.isPrefixOf_iff_prefix.mpr h₁)
        · exact hs h₁

theorem afterFinalSeparator_some (s t : Str) (h : afterFinalSeparator s = some t) :
    ¬ sep <:+: t ∧ ∃ L, s = L ++ sep ++ t := by
  induction s with
  | nil => cases h
  | cons c s ih =>
    simp only [afterFinalSeparator] at h
    cases h₁ : afterFinalSeparator s with
    | some t₁ =>
      rw [h₁] at h
      simp only [Option.some.injEq] at h
      subst h
      obtain ⟨hn, L, hL⟩ := ih h₁
      exact ⟨hn, c :: L, by rw [hL]; rfl⟩
    | none =>
      rw [h₁] at h
      simp only at h
      split at h
      · rename_i hp
        simp only [Option.some.injEq] at h
        obtain ⟨r, hr⟩ := List.isPrefixOf_iff_prefix.mp hp
        have ht : t = r := by
          rw [← h, ← hr]
          exact List.drop_left' rfl
        subst ht
        refine ⟨?_, [], by simpa using hr.symm⟩
        intro hi
        apply (afterFinalSeparator_eq_none_iff s).mp h₁
        have hsuf : t <:+ s := by
          have e : c :: s = [' '] ++ (['-', '>', ' '] ++ t) := by
            rw [← hr]
            rfl
          simp only [List.singleton_append, List.cons.injEq] at e
          exact ⟨['-', '>', ' '], e.2.symm⟩
        exact hi.trans hsuf.isInfix
      · cases h

theorem parseLine_of_label_token (pd : Str → Except DurationError Duration) (L T : Str)
    (hT : ¬ sep <:+: T) (hL : ¬ [' ', '-', '>'] <:+ L) :
    parseLine pd (L ++ sep ++ T) =
      match pd T with
      | .error err => ⟨Line.zero, false, [⟨T, err⟩]⟩
      | .ok d => ⟨⟨L, d⟩, true, []⟩ := by
  obtain ⟨P, hP, hne, hj⟩ :=
    genSplitLoop_label_token T hT ((L ++ sep ++ T).length + 1) L (by omega) hL
  rw [← Split_eq _ sep sep_ne_nil] at hP
  rw [parseLine_of_parts pd _ P T hP hne, hj]

/-- C4 (amended): `parseLine` logs a diagnostic exactly when the line holds
the separator `" -> "` and the duration parser fails on the last part of
`strings.Split(line, " -> ")`, the token it hands to the parser, and it logs at
most one.  A line without separator is rejected with `(Line{}, false)` and no
diagnostic.  For a line `L ++ " -> " ++ T` where `T` is the text after the final
separator and `L` does not end in `" ->"`, that token is `T`: the line is
rejected with `(Line{}, false)` and the one diagnostic for `T` when the parser
fails on `T`, and accepted as `(L, d)` without diagnostic when it returns `d`. -/
theorem parseLine_diagnostic (pd : Str → Except DurationError Duration) (line : Str) :
    (afterFinalSeparator line = none ↔ ¬ sep <:+: line) ∧
    (¬ sep <:+: line → parseLine pd line = ⟨Line.zero, false, []⟩) ∧
    (∀ L T, afterFinalSeparator line = some T → line = L ++ sep ++ T →
      ¬ [' ', '-', '>'] <:+ L →
      (∀ err, pd T = .error err → parseLine pd line = ⟨Line.zero, false, [⟨T, err⟩]⟩) ∧
      (∀ d, pd T = .ok d → parseLine pd line = ⟨⟨L, d⟩, true, []⟩)) ∧
    ((parseLine pd line).log ≠ [] ↔
      (sep <:+: line ∧ ∃ err, pd (trailingToken line) = .error err)) ∧
    (sep <:+: line →
      sep ++ trailingToken line <:+ line ∧ ¬ sep <:+: trailingToken line ∧
      ∀ err, pd (trailingToken line) = .error err →
        parseLine pd line = ⟨Line.zero, false, [⟨trailingToken line, err⟩]⟩) ∧
    (parseLine pd line).log.length ≤ 1 ∧
    ((parseLine pd line).ok = true → (parseLine pd line).log = []) := by
  refine ⟨afterFinalSeparator_eq_none_iff line, ?_, ?_, ?_⟩
  · exact parseLine_of_absent pd line
  · intro L T hT hl hL
    have hTs := (afterFinalSeparator_some line T hT).1
    have hp := parseLine_of_label_token pd L T hTs hL
    rw [← hl] at hp
    constructor
    · intro err he
      rw [he] at hp
      exact hp
    · intro d hd
      rw [hd] at hp
      exact hp
  · by_cases h : sep <:+: line
    · obtain ⟨c, hc, hnt, hp⟩ := parseLine_of_present pd line h
      cases hpd : pd (trailingToken line) with
      | error err =>
        rw [hpd] at hp
        simp only at hp
        refine ⟨?_, fun _ => ⟨⟨c, ?_⟩, hnt, ?_⟩, ?_, ?_⟩
        · simp [hp, h]
        · rw [List.append_assoc] at hc
          exact hc.symm
        · intro err₁ he
          cases he
          exact hp
        · simp [hp]
        · simp [hp]
      | ok d =>
        rw [hpd] at hp
        simp only at hp
        refine ⟨?_, fun _ => ⟨⟨c, ?_⟩, hnt, ?_⟩, ?_, ?_⟩
        · simp [hp]
        · rw [List.append_assoc] at hc
          exact hc.symm
        · intro err₁ he
          cases he
        · simp [hp]
        · simp [hp]
    · have hp := parseLine_of_absent pd line h
      refine ⟨?_, fun hi => absurd hi h, ?_, ?_⟩
      · simp [hp, h]
      · simp [hp]
      · simp [hp]

set_option maxRecDepth 100000 in
/-- C4, witness: the line `"build -> notaduration"` of the specification is
rejected with one diagnostic for the token `"notaduration"`. -/
theorem parseLine_diagnostic_witness :
    afterFinalSeparator (lit "build -> notaduration") = some (lit "notaduration") ∧
    lit "build -> notaduration" = lit "build" ++ sep ++ lit "notaduration" ∧
    ¬ [' ', '-', '>'] <:+ lit "build" ∧
    parseDuration (lit "notaduration") = .error (.invalid (lit "notaduration")) ∧
    parseLine parseDuration (lit "build -> notaduration")
      = ⟨Line.zero, false, [⟨lit "notaduration", .invalid (lit "notaduration")⟩]⟩ :=
  ⟨by decide, by decide, by decide, by decide,
    ((parseLine_diagnostic parseDuration (lit "build -> notaduration")).2.2.1 (lit "build")
      (lit "notaduration") (by decide) (by decide) (by decide)).1 _ (by decide)⟩

set_option maxRecDepth 100000 in
/-- C4, counterexample: the line `"b -> -> 2s"` holds the separator and the
text after its final separator is `"2s"`, on which `time.ParseDuration` does
not fail; yet `parseLine` logs a diagnostic, for the token `"-> 2s"`. -/
theorem parseLine_diagnostic_counterexample :
    sep <:+: lit "b -> -> 2s" ∧
    afterFinalSeparator (lit "b -> -> 2s") = some (lit "2s") ∧
    parseDuration (lit "2s") = .ok 2000000000 ∧
    (parseLine parseDuration (lit "b -> -> 2s")).log
      = [⟨lit "-> 2s", .invalid (lit "-> 2s")⟩] ∧
    ¬ (∀ line : Str, (parseLine parseDuration line).log ≠ [] ↔
        (sep <:+: line ∧
          ∃ t err, afterFinalSeparator line = some t ∧ parseDuration t = .error err)) := by
  refine ⟨by decide, by decide, by decide, by decide, ?_⟩
  intro h
  have h₁ : (parseLine parseDuration (lit "b -> -> 2s")).log ≠ [] := by decide
  obtain ⟨-, t, err, ht, he⟩ := (h (lit "b -> -> 2s")).mp h₁
  have h₂ : afterFinalSeparator (lit "b -> -> 2s") = some (lit "2s") := by decide
  rw [h₂] at ht
  simp only [Option.some.injEq] at ht
  subst ht
  have h₃ : parseDuration (lit "2s") = .ok 2000000000 := by decide
  rw [h₃] at he
  cases he

/-- C10: an accepted line is the label, the separator and a token: if
`parseLine` returns `ok = true` with label `c` and duration `d`, then there is
a token `t` with `line = c ++ " -> " ++ t`, the duration parser accepts `t` with
value `d`, and `t` holds no `" -> "`. -/
theorem parseLine_lossless (pd : Str → Except DurationError Duration) (line : Str)
    (h : (parseLine pd line).ok = true) :
    ∃ t, line = (parseLine pd line).line.Command ++ sep ++ t ∧
      pd t = .ok (parseLine pd line).line.Duration ∧ ¬ sep <:+: t := by
  by_cases hi : sep <:+: line
  · obtain ⟨c, hc, hnt, hp⟩ := parseLine_of_present pd line hi
    cases hpd : pd (trailingToken line) with
    | error err =>
      rw [hpd] at hp
      simp only at hp
      rw [hp] at h
      cases h
    | ok d =>
      rw [hpd] at hp
      simp only at hp
      refine ⟨trailingToken line, ?_, ?_, hnt⟩
      · rw [hp]
        exact hc
      · rw [hp]
        exact hpd
  · rw [parseLine_of_absent pd line hi] at h
    cases h

set_option maxRecDepth 100000 in
/-- C10, witness: the accepted line `"a -> b -> 3s"`. -/
theorem parseLine_lossless_witness :
    (parseLine parseDuration (lit "a -> b -> 3s")).ok = true ∧
    ∃ t, lit "a -> b -> 3s"
        = (parseLine parseDuration (lit "a -> b -> 3s")).line.Command ++ sep ++ t ∧
      parseDuration t = .ok (parseLine parseDuration (lit "a -> b -> 3s")).line.Duration ∧
      ¬ sep <:+: t :=
  ⟨by decide, parseLine_lossless parseDuration (lit "a -> b -> 3s") (by decide)⟩

/-! ## The pipeline: pre-filter, workers, collector, ranking -/

theorem arrow_infix_sep : arrow <:+: sep := ⟨[' '], [' '], rfl⟩

theorem sep_infix_of_ok (pd : Str → Except DurationError Duration) (line : Str)
    (h : (parseLine pd line).ok = true) : sep <:+: line := by
  by_contra hn
  rw [parseLine_of_absent pd line hn] at h
  cases h

theorem Contains_arrow_of_ok (pd : Str → Except DurationError Duration) (line : Str)
    (h : (parseLine pd line).ok = true) : Contains line arrow = true :=
  (Index_isSome_iff line arrow).mpr (arrow_infix_sep.trans (sep_infix_of_ok pd line h))

theorem parseWorker_readLoop (pd : Str → Except DurationError Duration)
    (reads : List ReadResult) :
    parseWorker pd (readLoop reads) = parseWorker pd (readLoopNoCheck reads) := by
  induction reads with
  | nil => rfl
  | cons r rest ih =>
    simp only [readLoop, readLoopNoCheck]
    by_cases hp : r.isPrefix = true
    · simp only [hp, if_true]
      exact ih
    · simp only [hp, if_false]
      by_cases hc : Contains r.line arrow = true
      · simp only [hc, not_true_eq_false, if_false, parseWorker, ih]
      · have hok : ¬ (parseLine pd r.line).ok = true :=
          fun h => hc (Contains_arrow_of_ok pd r.line h)
        simp only [hc, not_false_eq_true, if_true, parseWorker, hok, if_false]
        exact ih

theorem readLoopNoCheck_wholeReads (lines : List Str) :
    readLoopNoCheck (wholeReads lines) = lines := by
  induction lines with
  | nil => rfl
  | cons l rest ih =>
    simp only [wholeReads, List.map_cons, readLoopNoCheck] at ih ⊢
    simp [ih]

theorem parseWorker_eq_filterMap (pd : Str → Except DurationError Duration)
    (lines : List Str) : parseWorker pd lines = lines.filterMap (record pd) := by
  induction lines with
  | nil => rfl
  | cons l rest ih =>
    simp only [parseWorker, List.filterMap_cons, record]
    by_cases h : (parseLine pd l).ok = true
    · simp [h, ih]
    · simp [h, ih]

theorem lineCollector_foldl (acc output : List Line) :
    output.foldl (fun lines out => lines ++ [out]) acc = acc ++ output := by
  induction output generalizing acc with
  | nil => simp
  | cons o rest ih => simp [ih]

theorem lineCollector_eq (output : List Line) : lineCollector output = output := by
  simp [lineCollector, lineCollector_foldl]

/-! ## `sort.Slice`: the result is a sorted permutation -/

section SortingFacts

variable {α : Type} [Inhabited α]

theorem length_swap (data : List α) (i j : Nat) : (swap data i j).length = data.length := by
  simp [swap]

theorem elem_swap (data : List α) (i j n : Nat) (hi : i < data.length) (hj : j < data.length) :
    elem (swap data i j) n = elem data (Equiv.swap i j n) := by
  unfold swap elem
  rw [Equiv.swap_apply_def]
  simp only [List.getD_eq_getElem?_getD, List.getElem?_set, List.length_set]
  by_cases h₁ : n = i
  · subst h₁
    by_cases h₂ : j = n
    · subst h₂
      simp [hj]
    · simp [h₂, hi, Ne.symm h₂]
  · by_cases h₂ : n = j
    · subst h₂
      simp [h₁, hj]
    · simp [h₁, h₂, Ne.symm h₁, Ne.symm h₂]

theorem elem_swap_left (data : List α) (i j : Nat) (hi : i < data.length)
    (hj : j < data.length) : elem (swap data i j) i = elem data j := by
  rw [elem_swap data i j i hi hj, Equiv.swap_apply_left]

theorem elem_swap_right (data : List α) (i j : Nat) (hi : i < data.length)
    (hj : j < data.length) : elem (swap data i j) j = elem data i := by
  rw [elem_swap data i j j hi hj, Equiv.swap_apply_right]

theorem elem_swap_other (data : List α) (i j n : Nat) (hi : i < data.length)
    (hj : j < data.length) (h₁ : n ≠ i) (h₂ : n ≠ j) : elem (swap data i j) n = elem data n := by
  rw [elem_swap data i j n hi hj, Equiv.swap_apply_of_ne_of_ne h₁ h₂]

theorem Seg.refl (a b : Nat) (data : List α) : Seg a b data data :=
  ⟨rfl, 1, fun _ _ => rfl, fun _ => rfl⟩

theorem Seg.trans {a b : Nat} {d₁ d₂ d₃ : List α} (h₁ : Seg a b d₁ d₂) (h₂ : Seg a b d₂ d₃) :
    Seg a b d₁ d₃ := by
  obtain ⟨hl₁, p₁, hp₁, he₁⟩ := h₁
  obtain ⟨hl₂, p₂, hp₂, he₂⟩ := h₂
  refine ⟨hl₂.trans hl₁, p₁ * p₂, ?_, ?_⟩
  · intro n hn
    rw [Equiv.Perm.mul_apply, hp₂ n hn, hp₁ n hn]
  · intro n
    rw [he₂, he₁, Equiv.Perm.mul_apply]

theorem Seg.mono {a b a₁ b₁ : Nat} {d₁ d₂ : List α} (h : Seg a b d₁ d₂) (ha : a₁ ≤ a)
    (hb : b ≤ b₁) : Seg a₁ b₁ d₁ d₂ := by
  obtain ⟨hl, p, hp, he⟩ := h
  exact ⟨hl, p, fun n hn => hp n (by omega), he⟩

theorem Seg.length_eq {a b : Nat} {d₁ d₂ : List α} (h : Seg a b d₁ d₂) :
    d₂.length = d₁.length := h.1

theorem Seg.outside {a b : Nat} {d₁ d₂ : List α} (h : Seg a b d₁ d₂) (n : Nat)
    (hn : n < a ∨ b ≤ n) : elem d₂ n = elem d₁ n := by
  obtain ⟨-, p, hp, he⟩ := h
  rw [he, hp n hn]

theorem Seg.swap (a b : Nat) (data : List α) (i j : Nat) (hai : a ≤ i) (hib : i < b)
    (haj : a ≤ j) (hjb : j < b) (hb : b ≤ data.length) : Seg a b data (swap data i j) := by
  refine ⟨length_swap data i j, Equiv.swap i j, ?_, ?_⟩
  · intro n hn
    exact Equiv.swap_apply_of_ne_of_ne (by omega) (by omega)
  · intro n
    exact elem_swap data i j n (by omega) (by omega)

/-- A rearrangement of `data[a:b]` keeps what holds of all its elements. -/
theorem Seg.forall {a b : Nat} {d₁ d₂ : List α} (h : Seg a b d₁ d₂) (P : α → Prop)
    (hP : ∀ n, a ≤ n → n < b → P (elem d₁ n)) : ∀ n, a ≤ n → n < b → P (elem d₂ n) := by
  obtain ⟨-, p, hp, he⟩ := h
  intro n han hnb
  rw [he]
  have hin : a ≤ p n ∧ p n < b := by
    by_contra hout
    have hfix : p (p n) = p n := hp (p n) (by omega)
    have := p.injective hfix
    omega
  exact hP (p n) hin.1 hin.2

theorem map_elem_range (data : List α) :
    (List.range data.length).map (elem data) = data := by
  apply List.ext_getElem
  · simp
  · intro n h₁ h₂
    simp [elem, List.getD_eq_getElem?_getD, List.getElem?_eq_getElem h₂]

/-- A rearrangement of the whole slice is a permutation of the list. -/
theorem Seg.perm {b : Nat} {d₁ d₂ : List α} (h : Seg 0 b d₁ d₂) (hb : b ≤ d₁.length) :
    d₂.Perm d₁ := by
  obtain ⟨hl, p, hp, he⟩ := h
  have hmaps : ∀ n, n < d₁.length → p n < d₁.length := by
    intro n hn
    by_contra hout
    have hfix : p (p n) = p n := hp (p n) (by omega)
    have := p.injective hfix
    omega
  have hperm : ((List.range d₁.length).map p).Perm (List.range d₁.length) := by
    apply List.perm_of_nodup_nodup_toFinset_eq
    · exact (List.nodup_range _).map p.injective
    · exact List.nodup_range _
    · ext n
      simp only [List.mem_toFinset, List.mem_map, List.mem_range]
      constructor
      · rintro ⟨m, hm, rfl⟩
        exact hmaps m hm
      · intro hn
        refine ⟨p.symm n, ?_, by simp⟩
        by_contra hout
        have hfix : p (p.symm n) = p.symm n := hp _ (by omega)
        rw [Equiv.apply_symm_apply] at hfix
        omega
  have h₂ : d₂ = ((List.range d₁.length).map p).map (elem d₁) := by
    rw [← map_elem_range d₂, hl, List.map_map]
    apply List.map_congr_left
    intro n _
    exact he n
  rw [h₂]
  conv_rhs => rw [← map_elem_range d₁]
  exact hperm.map _

theorem SortedOn.glue {k : α → Int} {data : List α} {a mid b : Nat}
    (h₁ : SortedOn k data a mid) (h₂ : SortedOn k data mid b)
    (h : ∀ i j, a ≤ i → i < mid → mid ≤ j → j < b → k (elem data i) ≤ k (elem data j)) :
    SortedOn k data a b := by
  intro i j hai hij hjb
  by_cases hjm : j < mid
  · exact h₁ i j hai hij hjm
  · by_cases him : i < mid
    · exact h i j hai him (by omega) hjb
    · exact h₂ i j (by omega) hij hjb

theorem SortedOn.of_eq {k : α → Int} {d₁ d₂ : List α} {a b : Nat} (h : SortedOn k d₁ a b)
    (he : ∀ n, a ≤ n → n < b → elem d₂ n = elem d₁ n) : SortedOn k d₂ a b := by
  intro i j hai hij hjb
  rw [he i hai (by omega), he j (by omega) hjb]
  exact h i j hai hij hjb

end SortingFacts

section InsertionFacts

variable {α : Type} [Inhabited α]

theorem lessAt_iff {k : α → Int} {less : α → α → Bool}
    (hk : ∀ x y, less x y = true ↔ k x < k y) (data : List α) (i j : Nat) :
    lessAt less data i j = true ↔ k (elem data i) < k (elem data j) := hk _ _

theorem insertionInner_spec {k : α → Int} {less : α → α → Bool}
    (hk : ∀ x y, less x y = true ↔ k x < k y) (a : Nat) (i : Nat) (data : List α)
    (hai : a ≤ i) (hi : i < data.length) (hs : SortedOn k data a i) :
    Seg a (i + 1) data (insertionInner less a i data) ∧
      SortedOn k (insertionInner less a i data) a (i + 1) := by
  induction i generalizing data with
  | zero =>
    refine ⟨Seg.refl _ _ _, ?_⟩
    intro x y hx hxy hy
    have : x = y := by omega
    subst this
    exact le_refl _
  | succ i ih =>
    simp only [insertionInner]
    split
    · rename_i hc
      obtain ⟨hgt, hlt⟩ := hc
      have hlt₁ := (lessAt_iff hk data (i + 1) i).mp hlt
      have hsw := Seg.swap a (i + 2) data (i + 1) i (by omega) (by omega) (by omega)
        (by omega) (by omega)
      have hs₁ : SortedOn k (swap data (i + 1) i) a i := by
        intro x y hx hxy hy
        rw [elem_swap_other data (i + 1) i x hi (by omega) (by omega) (by omega),
          elem_swap_other data (i + 1) i y hi (by omega) (by omega) (by omega)]
        exact hs x y hx hxy (by omega)
      obtain ⟨hseg, hsorted⟩ := ih (swap data (i + 1) i) (by omega)
        (by rw [length_swap]; omega) hs₁
      refine ⟨hsw.trans (hseg.mono (le_refl _) (by omega)), ?_⟩
      have htop : elem (insertionInner less a i (swap data (i + 1) i)) (i + 1) = elem data i := by
        rw [hseg.outside (i + 1) (Or.inr (le_refl _))]
        exact elem_swap_left data (i + 1) i hi (by omega)
      have hbound : ∀ n, a ≤ n → n < i + 1 →
          k (elem (insertionInner less a i (swap data (i + 1) i)) n) ≤ k (elem data i) := by
        apply hseg.forall (fun x => k x ≤ k (elem data i))
        intro n han hn
        by_cases hni : n = i
        · rw [hni, elem_swap_right data (i + 1) i hi (by omega)]
          exact le_of_lt hlt₁
        · rw [elem_swap_other data (i + 1) i n hi (by omega) (by omega) hni]
          exact hs n i han (by omega) (by omega)
      intro x y hx hxy hy
      by_cases hy₁ : y = i + 1
      · subst hy₁
        rw [htop]
        by_cases hx₁ : x = i + 1
        · subst hx₁
          rw [htop]
        · exact hbound x hx (by omega)
      · exact hsorted x y hx hxy (by omega)
    · rename_i hc
      refine ⟨Seg.refl _ _ _, ?_⟩
      intro x y hx hxy hy
      by_cases hy₁ : y = i + 1
      · subst hy₁
        by_cases hx₁ : x = i + 1
        · subst hx₁
          exact le_refl _
        · have hgt : i + 1 > a := by omega
          have hnl : ¬ k (elem data (i + 1)) < k (elem data i) := by
            intro hlt
            exact hc ⟨hgt, (lessAt_iff hk data (i + 1) i).mpr hlt⟩
          have := hs x i hx (by omega) (by omega)
          omega
      · exact hs x y hx hxy (by omega)

theorem insertionOuter_spec {k : α → Int} {less : α → α → Bool}
    (hk : ∀ x y, less x y = true ↔ k x < k y) (a b : Nat) (fuel i : Nat) (data : List α)
    (hai : a ≤ i) (hib : i ≤ b) (hb : b ≤ data.length) (hf : b - i ≤ fuel)
    (hs : SortedOn k data a i) :
    Seg a b data (insertionOuter less a b fuel i data) ∧
      SortedOn k (insertionOuter less a b fuel i data) a b := by
  induction fuel generalizing i data with
  | zero =>
    have : i = b := by omega
    subst this
    exact ⟨Seg.refl _ _ _, hs⟩
  | succ fuel ih =>
    simp only [insertionOuter]
    split
    · rename_i hlt
      obtain ⟨hseg, hsorted⟩ := insertionInner_spec hk a i data hai (by omega) hs
      obtain ⟨hseg₁, hsorted₁⟩ := ih (i + 1) (insertionInner less a i data) (by omega)
        (by omega) (by rw [hseg.length_eq]; exact hb) (by omega) hsorted
      exact ⟨(hseg.mono (le_refl _) (by omega)).trans hseg₁, hsorted₁⟩
    · have : i = b := by omega
      subst this
      exact ⟨Seg.refl _ _ _, hs⟩

/-- Go `sort.insertionSort_func` sorts `data[a:b]`. -/
theorem insertionSortFunc_spec {k : α → Int} {less : α → α → Bool}
    (hk : ∀ x y, less x y = true ↔ k x < k y) (data : List α) (a b : Nat) (hab : a ≤ b)
    (hb : b ≤ data.length) :
    Seg a b data (insertionSortFunc less data a b) ∧
      SortedOn k (insertionSortFunc less data a b) a b := by
  unfold insertionSortFunc
  by_cases h : a = b
  · subst h
    simp only [Nat.sub_self, insertionOuter]
    exact ⟨Seg.refl _ _ _, fun i j hi hij hj => by omega⟩
  · apply insertionOuter_spec hk a b (b - a) (a + 1) data (by omega) (by omega) hb (by omega)
    intro x y hx hxy hy
    have : x = y := by omega
    subst this
    exact le_refl _

end InsertionFacts

section PartitionFacts

variable {α : Type} [Inhabited α]

theorem scanUpLess_spec {k : α → Int} {less : α → α → Bool}
    (hk : ∀ x y, less x y = true ↔ k x < k y) (data : List α) (a j fuel i : Nat)
    (hf : j + 1 - i ≤ fuel) :
    i ≤ scanUpLess less data a j fuel i ∧
      (i ≤ j + 1 → scanUpLess less data a j fuel i ≤ j + 1) ∧
      (∀ n, i ≤ n → n < scanUpLess less data a j fuel i →
        k (elem data n) < k (elem data a)) ∧
      (scanUpLess less data a j fuel i ≤ j →
        ¬ k (elem data (scanUpLess less data a j fuel i)) < k (elem data a)) := by
  induction fuel generalizing i with
  | zero =>
    simp only [scanUpLess]
    exact ⟨le_refl _, fun h => h, fun n h₁ h₂ => by omega, fun h => by omega⟩
  | succ fuel ih =>
    simp only [scanUpLess]
    split
    · rename_i hc
      obtain ⟨h₁, h₂, h₃, h₄⟩ := ih (i + 1) (by omega)
      refine ⟨by omega, fun _ => h₂ (by omega), ?_, h₄⟩
      intro n hin hn
      by_cases hni : n = i
      · subst hni
        exact (lessAt_iff hk data n a).mp hc.2
      · exact h₃ n (by omega) hn
    · rename_i hc
      refine ⟨le_refl _, fun h => h, fun n h₁ h₂ => by omega, ?_⟩
      intro hij hlt
      exact hc ⟨hij, (lessAt_iff hk data i a).mpr hlt⟩

theorem scanDownNotLess_spec {k : α → Int} {less : α → α → Bool}
    (hk : ∀ x y, less x y = true ↔ k x < k y) (data : List α) (a i j : Nat) (hi : 1 ≤ i) :
    scanDownNotLess less data a i j ≤ j ∧
      (i ≤ j + 1 → i ≤ scanDownNotLess less data a i j + 1) ∧
      (∀ n, scanDownNotLess less data a i j < n → n ≤ j →
        ¬ k (elem data n) < k (elem data a)) ∧
      (i ≤ scanDownNotLess less data a i j →
        k (elem data (scanDownNotLess less data a i j)) < k (elem data a)) := by
  induction j with
  | zero =>
    simp only [scanDownNotLess]
    exact ⟨le_refl _, fun h => h, fun n h₁ h₂ => by omega, fun h => by omega⟩
  | succ j ih =>
    simp only [scanDownNotLess]
    split
    · rename_i hc
      obtain ⟨h₁, h₂, h₃, h₄⟩ := ih
      refine ⟨by omega, fun _ => h₂ (by omega), ?_, h₄⟩
      intro n hn hnj
      by_cases hnj₁ : n = j + 1
      · subst hnj₁
        intro hlt
        exact hc.2 ((lessAt_iff hk data (j + 1) a).mpr hlt)
      · exact h₃ n hn (by omega)
    · rename_i hc
      refine ⟨le_refl _, fun h => by omega, fun n h₁ h₂ => by omega, ?_⟩
      intro hij
      by_contra hnl
      exact hc ⟨hij, fun hl => hnl ((lessAt_iff hk data (j + 1) a).mp hl)⟩

theorem partitionLoop_spec {k : α → Int} {less : α → α → Bool}
    (hk : ∀ x y, less x y = true ↔ k x < k y) (a b : Nat) (p : Int) (fuel i j : Nat)
    (data : List α) (hb : b ≤ data.length) (hi : a + 1 ≤ i) (hj : j < b) (hij : i ≤ j + 1)
    (hf : j + 2 - i ≤ fuel) (hpa : k (elem data a) = p)
    (hlo : ∀ n, a + 1 ≤ n → n < i → k (elem data n) < p)
    (hhi : ∀ n, j < n → n < b → p ≤ k (elem data n)) :
    Seg (a + 1) b data (partitionLoop less a fuel i j data).1 ∧
      a ≤ (partitionLoop less a fuel i j data).2 ∧
      (partitionLoop less a fuel i j data).2 < b ∧
      (∀ n, a + 1 ≤ n → n ≤ (partitionLoop less a fuel i j data).2 →
        k (elem (partitionLoop less a fuel i j data).1 n) < p) ∧
      (∀ n, (partitionLoop less a fuel i j data).2 < n → n < b →
        p ≤ k (elem (partitionLoop less a fuel i j data).1 n)) := by
  induction fuel generalizing i j data with
  | zero => omega
  | succ fuel ih =>
    simp only [partitionLoop]
    obtain ⟨u₁, u₂, u₃, u₄⟩ := scanUpLess_spec hk data a j (j + 1 - i) i (le_refl _)
    generalize scanUpLess less data a j (j + 1 - i) i = i₁ at u₁ u₂ u₃ u₄ ⊢
    obtain ⟨v₁, v₂, v₃, v₄⟩ := scanDownNotLess_spec hk data a i₁ j (by omega)
    generalize scanDownNotLess less data a i₁ j = j₁ at v₁ v₂ v₃ v₄ ⊢
    have u₂ := u₂ hij
    have v₂ := v₂ u₂
    rw [hpa] at u₃ u₄ v₃ v₄
    have hlo₁ : ∀ n, a + 1 ≤ n → n < i₁ → k (elem data n) < p := by
      intro n h₁ h₂
      by_cases h₃ : n < i
      · exact hlo n h₁ h₃
      · exact u₃ n (by omega) h₂
    have hhi₁ : ∀ n, j₁ < n → n < b → p ≤ k (elem data n) := by
      intro n h₁ h₂
      by_cases h₃ : j < n
      · exact hhi n h₃ h₂
      · have := v₃ n h₁ (by omega)
        omega
    split
    · rename_i hgt
      refine ⟨Seg.refl _ _ _, by omega, by omega, ?_, hhi₁⟩
      intro n h₁ h₂
      exact hlo₁ n h₁ (by omega)
    · rename_i hle
      have hle : i₁ ≤ j₁ := by omega
      have hki := u₄ (by omega)
      have hkj := v₄ hle
      have hne : i₁ ≠ j₁ := by
        intro he
        rw [he] at hki
        exact hki hkj
      have hil : i₁ < data.length := by omega
      have hjl : j₁ < data.length := by omega
      obtain ⟨r₁, r₂, r₃, r₄, r₅⟩ := ih (i₁ + 1) (j₁ - 1) (swap data i₁ j₁)
        (by rw [length_swap]; exact hb) (by omega) (by omega) (by omega) (by omega)
        (by rw [elem_swap_other data i₁ j₁ a hil hjl (by omega) (by omega)]; exact hpa)
        (by
          intro n h₁ h₂
          by_cases h₃ : n = i₁
          · rw [h₃, elem_swap_left data i₁ j₁ hil hjl]
            exact hkj
          · rw [elem_swap_other data i₁ j₁ n hil hjl h₃ (by omega)]
            exact hlo₁ n h₁ (by omega))
        (by
          intro n h₁ h₂
          by_cases h₃ : n = j₁
          · rw [h₃, elem_swap_right data i₁ j₁ hil hjl]
            omega
          · rw [elem_swap_other data i₁ j₁ n hil hjl (by omega) h₃]
            exact hhi₁ n (by omega) h₂)
      exact ⟨(Seg.swap (a + 1) b data i₁ j₁ (by omega) (by omega) (by omega) (by omega)
        hb).trans r₁, r₂, r₃, r₄, r₅⟩

/-- The last step of Go `sort.partition_func`, `data.Swap(j, a)`. -/
theorem partition_finish {k : α → Int} (a b m : Nat) (data : List α) (hb : b ≤ data.length)
    (ham : a ≤ m) (hmb : m < b)
    (hlo : ∀ n, a + 1 ≤ n → n ≤ m → k (elem data n) < k (elem data a))
    (hhi : ∀ n, m < n → n < b → k (elem data a) ≤ k (elem data n)) :
    Seg a b data (swap data m a) ∧ elem (swap data m a) m = elem data a ∧
      (∀ n, a ≤ n → n < m → k (elem (swap data m a) n) < k (elem (swap data m a) m)) ∧
      (∀ n, m < n → n < b → k (elem (swap data m a) m) ≤ k (elem (swap data m a) n)) := by
  have hml : m < data.length := by omega
  have hal : a < data.length := by omega
  have hm : elem (swap data m a) m = elem data a := elem_swap_left data m a hml hal
  refine ⟨Seg.swap a b data m a ham hmb (le_refl _) (by omega) hb, hm, ?_, ?_⟩
  · intro n h₁ h₂
    rw [hm]
    by_cases h₃ : n = a
    · rw [h₃, elem_swap_right data m a hml hal]
      exact hlo m (by omega) (le_refl _)
    · rw [elem_swap_other data m a n hml hal (by omega) h₃]
      exact hlo n (by omega) (by omega)
  · intro n h₁ h₂
    rw [hm, elem_swap_other data m a n hml hal (by omega) (by omega)]
    exact hhi n h₁ h₂

/-- Go `sort.partition_func`: the elements before `newpivot` have a smaller
key than the pivot, those after it a key that is not smaller. -/
theorem partitionFunc_spec {k : α → Int} {less : α → α → Bool}
    (hk : ∀ x y, less x y = true ↔ k x < k y) (data : List α) (a b pivot : Nat)
    (hap : a ≤ pivot) (hpb : pivot < b) (hb : b ≤ data.length) :
    Seg a b data (partitionFunc less data a b pivot).1 ∧
      a ≤ (partitionFunc less data a b pivot).2.1 ∧
      (partitionFunc less data a b pivot).2.1 < b ∧
      (∀ n, a ≤ n → n < (partitionFunc less data a b pivot).2.1 →
        k (elem (partitionFunc less data a b pivot).1 n)
          < k (elem (partitionFunc less data a b pivot).1
              (partitionFunc less data a b pivot).2.1)) ∧
      (∀ n, (partitionFunc less data a b pivot).2.1 < n → n < b →
        k (elem (partitionFunc less data a b pivot).1 (partitionFunc less data a b pivot).2.1)
          ≤ k (elem (partitionFunc less data a b pivot).1 n)) := by
  have hsw := Seg.swap a b data a pivot (le_refl _) (by omega) hap hpb hb
  have hb₁ : b ≤ (swap data a pivot).length := by rw [length_swap]; exact hb
  simp only [partitionFunc]
  generalize swap data a pivot = d₁ at hsw hb₁ ⊢
  obtain ⟨u₁, u₂, u₃, u₄⟩ := scanUpLess_spec hk d₁ a (b - 1) (b - 1 - a) (a + 1) (by omega)
  generalize scanUpLess less d₁ a (b - 1) (b - 1 - a) (a + 1) = i at u₁ u₂ u₃ u₄ ⊢
  obtain ⟨v₁, v₂, v₃, v₄⟩ := scanDownNotLess_spec hk d₁ a i (b - 1) (by omega)
  generalize scanDownNotLess less d₁ a i (b - 1) = j at v₁ v₂ v₃ v₄ ⊢
  have u₂ := u₂ (by omega)
  have v₂ := v₂ u₂
  have hhi : ∀ n, j < n → n < b → k (elem d₁ a) ≤ k (elem d₁ n) := by
    intro n h₁ h₂
    have := v₃ n h₁ (by omega)
    omega
  split
  · rename_i hgt
    obtain ⟨f₁, -, f₃, f₄⟩ := partition_finish a b j d₁ hb₁ (by omega) (by omega)
      (fun n h₁ h₂ => u₃ n h₁ (by omega)) hhi
    dsimp only
    exact ⟨hsw.trans f₁, by omega, by omega, f₃, f₄⟩
  · rename_i hle
    have hle : i ≤ j := by omega
    have hki := u₄ (by omega)
    have hkj := v₄ hle
    have hne : i ≠ j := by
      intro he
      rw [he] at hki
      exact hki hkj
    have hil : i < d₁.length := by omega
    have hjl : j < d₁.length := by omega
    obtain ⟨r₁, r₂, r₃, r₄, r₅⟩ := partitionLoop_spec hk a b (k (elem d₁ a)) (b - a) (i + 1)
      (j - 1) (swap d₁ i j) (by rw [length_swap]; exact hb₁) (by omega) (by omega) (by omega)
      (by omega) (by rw [elem_swap_other d₁ i j a hil hjl (by omega) (by omega)])
      (by
        intro n h₁ h₂
        by_cases h₃ : n = i
        · rw [h₃, elem_swap_left d₁ i j hil hjl]
          exact hkj
        · rw [elem_swap_other d₁ i j n hil hjl h₃ (by omega)]
          exact u₃ n h₁ (by omega))
      (by
        intro n h₁ h₂
        by_cases h₃ : n = j
        · rw [h₃, elem_swap_right d₁ i j hil hjl]
          omega
        · rw [elem_swap_other d₁ i j n hil hjl (by omega) h₃]
          exact hhi n (by omega) h₂)
    generalize partitionLoop less a (b - a) (i + 1) (j - 1) (swap d₁ i j) = r at r₁ r₂ r₃ r₄ r₅ ⊢
    have hra : elem r.1 a = elem d₁ a := by
      rw [r₁.outside a (Or.inl (by omega))]
      exact elem_swap_other d₁ i j a hil hjl (by omega) (by omega)
    have hrl : b ≤ r.1.length := by
      rw [r₁.length_eq, length_swap]
      exact hb₁
    obtain ⟨f₁, -, f₃, f₄⟩ := partition_finish a b r.2 r.1 hrl r₂ r₃
      (by rw [hra]; exact r₄) (by rw [hra]; exact r₅)
    refine ⟨hsw.trans (((Seg.swap a b d₁ i j (by omega) (by omega) (by omega) (by omega)
      hb₁).trans (r₁.mono (by omega) (le_refl _))).trans f₁), r₂, r₃, f₃, f₄⟩

end PartitionFacts

section PartitionEqualFacts

variable {α : Type} [Inhabited α]

theorem scanUpNotGreater_spec {k : α → Int} {less : α → α → Bool}
    (hk : ∀ x y, less x y = true ↔ k x < k y) (data : List α) (a j fuel i : Nat)
    (hf : j + 1 - i ≤ fuel) :
    i ≤ scanUpNotGreater less data a j fuel i ∧
      (i ≤ j + 1 → scanUpNotGreater less data a j fuel i ≤ j + 1) ∧
      (∀ n, i ≤ n → n < scanUpNotGreater less data a j fuel i →
        ¬ k (elem data a) < k (elem data n)) ∧
      (scanUpNotGreater less data a j fuel i ≤ j →
        k (elem data a) < k (elem data (scanUpNotGreater less data a j fuel i))) := by
  induction fuel generalizing i with
  | zero =>
    simp only [scanUpNotGreater]
    exact ⟨le_refl _, fun h => h, fun n h₁ h₂ => by omega, fun h => by omega⟩
  | succ fuel ih =>
    simp only [scanUpNotGreater]
    split
    · rename_i hc
      obtain ⟨h₁, h₂, h₃, h₄⟩ := ih (i + 1) (by omega)
      refine ⟨by omega, fun _ => h₂ (by omega), ?_, h₄⟩
      intro n hin hn
      by_cases hni : n = i
      · subst hni
        intro hlt
        exact hc.2 ((lessAt_iff hk data a n).mpr hlt)
      · exact h₃ n (by omega) hn
    · rename_i hc
      refine ⟨le_refl _, fun h => h, fun n h₁ h₂ => by omega, ?_⟩
      intro hij
      by_contra hnl
      exact hc ⟨hij, fun hl => hnl ((lessAt_iff hk data a i).mp hl)⟩

theorem scanDownGreater_spec {k : α → Int} {less : α → α → Bool}
    (hk : ∀ x y, less x y = true ↔ k x < k y) (data : List α) (a i j : Nat) (hi : 1 ≤ i) :
    scanDownGreater less data a i j ≤ j ∧
      (i ≤ j + 1 → i ≤ scanDownGreater less data a i j + 1) ∧
      (∀ n, scanDownGreater less data a i j < n → n ≤ j →
        k (elem data a) < k (elem data n)) ∧
      (i ≤ scanDownGreater less data a i j →
        ¬ k (elem data a) < k (elem data (scanDownGreater less data a i j))) := by
  induction j with
  | zero =>
    simp only [scanDownGreater]
    exact ⟨le_refl _, fun h => h, fun n h₁ h₂ => by omega, fun h => by omega⟩
  | succ j ih =>
    simp only [scanDownGreater]
    split
    · rename_i hc
      obtain ⟨h₁, h₂, h₃, h₄⟩ := ih
      refine ⟨by omega, fun _ => h₂ (by omega), ?_, h₄⟩
      intro n hn hnj
      by_cases hnj₁ : n = j + 1
      · subst hnj₁
        exact (lessAt_iff hk data a (j + 1)).mp hc.2
      · exact h₃ n hn (by omega)
    · rename_i hc
      refine ⟨le_refl _, fun h => by omega, fun n h₁ h₂ => by omega, ?_⟩
      intro hij hlt
      exact hc ⟨hij, (lessAt_iff hk data a (j + 1)).mpr hlt⟩

theorem partitionEqualLoop_spec {k : α → Int} {less : α → α → Bool}
    (hk : ∀ x y, less x y = true ↔ k x < k y) (a b : Nat) (p : Int) (fuel i j : Nat)
    (data : List α) (hb : b ≤ data.length) (hi : a + 1 ≤ i) (hj : j < b) (hij : i ≤ j + 1)
    (hf : j + 2 - i ≤ fuel) (hpa : k (elem data a) = p)
    (hlo : ∀ n, a + 1 ≤ n → n < i → ¬ p < k (elem data n))
    (hhi : ∀ n, j < n → n < b → p < k (elem data n)) :
    Seg (a + 1) b data (partitionEqualLoop less a fuel i j data).1 ∧
      a + 1 ≤ (partitionEqualLoop less a fuel i j data).2 ∧
      (partitionEqualLoop less a fuel i j data).2 ≤ b ∧
      (∀ n, a + 1 ≤ n → n < (partitionEqualLoop less a fuel i j data).2 →
        ¬ p < k (elem (partitionEqualLoop less a fuel i j data).1 n)) ∧
      (∀ n, (partitionEqualLoop less a fuel i j data).2 ≤ n → n < b →
        p < k (elem (partitionEqualLoop less a fuel i j data).1 n)) := by
  induction fuel generalizing i j data with
  | zero => omega
  | succ fuel ih =>
    simp only [partitionEqualLoop]
    obtain ⟨u₁, u₂, u₃, u₄⟩ := scanUpNotGreater_spec hk data a j (j + 1 - i) i (le_refl _)
    generalize scanUpNotGreater less data a j (j + 1 - i) i = i₁ at u₁ u₂ u₃ u₄ ⊢
    obtain ⟨v₁, v₂, v₃, v₄⟩ := scanDownGreater_spec hk data a i₁ j (by omega)
    generalize scanDownGreater less data a i₁ j = j₁ at v₁ v₂ v₃ v₄ ⊢
    have u₂ := u₂ hij
    have v₂ := v₂ u₂
    rw [hpa] at u₃ u₄ v₃ v₄
    have hlo₁ : ∀ n, a + 1 ≤ n → n < i₁ → ¬ p < k (elem data n) := by
      intro n h₁ h₂
      by_cases h₃ : n < i
      · exact hlo n h₁ h₃
      · exact u₃ n (by omega) h₂
    have hhi₁ : ∀ n, j₁ < n → n < b → p < k (elem data n) := by
      intro n h₁ h₂
      by_cases h₃ : j < n
      · exact hhi n h₃ h₂
      · exact v₃ n h₁ (by omega)
    split
    · rename_i hgt
      refine ⟨Seg.refl _ _ _, by omega, by omega, hlo₁, ?_⟩
      intro n h₁ h₂
      exact hhi₁ n (by omega) h₂
    · rename_i hle
      have hle : i₁ ≤ j₁ := by omega
      have hki := u₄ (by omega)
      have hkj := v₄ hle
      have hne : i₁ ≠ j₁ := by
        intro he
        rw [he] at hki
        exact hkj hki
      have hil : i₁ < data.length := by omega
      have hjl : j₁ < data.length := by omega
      obtain ⟨r₁, r₂, r₃, r₄, r₅⟩ := ih (i₁ + 1) (j₁ - 1) (swap data i₁ j₁)
        (by rw [length_swap]; exact hb) (by omega) (by omega) (by omega) (by omega)
        (by rw [elem_swap_other data i₁ j₁ a hil hjl (by omega) (by omega)]; exact hpa)
        (by
          intro n h₁ h₂
          by_cases h₃ : n = i₁
          · rw [h₃, elem_swap_left data i₁ j₁ hil hjl]
            exact hkj
          · rw [elem_swap_other data i₁ j₁ n hil hjl h₃ (by omega)]
            exact hlo₁ n h₁ (by omega))
        (by
          intro n h₁ h₂
          by_cases h₃ : n = j₁
          · rw [h₃, elem_swap_right data i₁ j₁ hil hjl]
            exact hki
          · rw [elem_swap_other data i₁ j₁ n hil hjl (by omega) h₃]
            exact hhi₁ n (by omega) h₂)
      exact ⟨(Seg.swap (a + 1) b data i₁ j₁ (by omega) (by omega) (by omega) (by omega)
        hb).trans r₁, r₂, r₃, r₄, r₅⟩

/-- Go `sort.partitionEqual_func` on a `data[a:b]` that holds no key below the
pivot: the elements before `newpivot` have the key of the pivot, those from
`newpivot` on a greater key. -/
theorem partitionEqualFunc_spec {k : α → Int} {less : α → α → Bool}
    (hk : ∀ x y, less x y = true ↔ k x < k y) (data : List α) (a b pivot : Nat)
    (hap : a ≤ pivot) (hpb : pivot < b) (hb : b ≤ data.length)
    (hmin : ∀ n, a ≤ n → n < b → k (elem data pivot) ≤ k (elem data n)) :
    Seg a b data (partitionEqualFunc less data a b pivot).1 ∧
      a < (partitionEqualFunc less data a b pivot).2 ∧
      (partitionEqualFunc less data a b pivot).2 ≤ b ∧
      (∀ n, a ≤ n → n < (partitionEqualFunc less data a b pivot).2 →
        k (elem (partitionEqualFunc less data a b pivot).1 n) = k (elem data pivot)) ∧
      (∀ n, (partitionEqualFunc less data a b pivot).2 ≤ n → n < b →
        k (elem data pivot) < k (elem (partitionEqualFunc less data a b pivot).1 n)) := by
  have hsw := Seg.swap a b data a pivot (le_refl _) (by omega) hap hpb hb
  have hb₁ : b ≤ (swap data a pivot).length := by rw [length_swap]; exact hb
  have hpa : k (elem (swap data a pivot) a) = k (elem data pivot) := by
    rw [elem_swap_left data a pivot (by omega) (by omega)]
  simp only [partitionEqualFunc]
  generalize swap data a pivot = d₁ at hsw hb₁ hpa ⊢
  obtain ⟨r₁, r₂, r₃, r₄, r₅⟩ := partitionEqualLoop_spec hk a b (k (elem data pivot))
    (b - a + 1) (a + 1) (b - 1) d₁ hb₁ (le_refl _) (by omega) (by omega) (by omega) hpa
    (fun n h₁ h₂ => by omega) (fun n h₁ h₂ => by omega)
  generalize partitionEqualLoop less a (b - a + 1) (a + 1) (b - 1) d₁ = r at r₁ r₂ r₃ r₄ r₅ ⊢
  have hseg : Seg a b data r.1 := hsw.trans (r₁.mono (by omega) (le_refl _))
  have hmin₁ := hseg.forall (fun x => k (elem data pivot) ≤ k x) hmin
  refine ⟨hseg, by omega, r₃, ?_, r₅⟩
  intro n h₁ h₂
  by_cases h₃ : n = a
  · rw [h₃, r₁.outside a (Or.inl (by omega))]
    exact hpa
  · have h₄ := r₄ n (by omega) h₂
    have h₅ := hmin₁ n h₁ (by omega)
    omega

end PartitionEqualFacts

section MiscFacts

variable {α : Type} [Inhabited α]

theorem LowerBound.seg {k : α → Int} {d₁ d₂ : List α} {a b : Nat}
    (h : LowerBound k d₁ a b) (hs : Seg a b d₁ d₂) : LowerBound k d₂ a b := by
  intro ha
  rw [hs.outside (a - 1) (Or.inl (by omega))]
  exact hs.forall (fun x => k (elem d₁ (a - 1)) ≤ k x) (h ha)

theorem LowerBound.sub {k : α → Int} {data : List α} {a b b₁ : Nat}
    (h : LowerBound k data a b) (hb : b₁ ≤ b) : LowerBound k data a b₁ :=
  fun ha n h₁ h₂ => h ha n h₁ (by omega)

theorem reverseLoop_spec (a b fuel i j : Nat) (data : List α) (hai : a ≤ i) (hjb : j < b)
    (hb : b ≤ data.length) : Seg a b data (reverseLoop fuel i j data) := by
  induction fuel generalizing i j data with
  | zero => exact Seg.refl _ _ _
  | succ fuel ih =>
    simp only [reverseLoop]
    split
    · rename_i hlt
      exact (Seg.swap a b data i j hai (by omega) (by omega) hjb hb).trans
        (ih (i + 1) (j - 1) (swap data i j) (by omega) (by omega)
          (by rw [length_swap]; exact hb))
    · exact Seg.refl _ _ _

theorem reverseRangeFunc_spec (data : List α) (a b : Nat) (hab : a < b)
    (hb : b ≤ data.length) : Seg a b data (reverseRangeFunc data a b) :=
  reverseLoop_spec a b (b - a) a (b - 1) data (le_refl _) (by omega) hb

theorem bitLenAux_pow (fuel n : Nat) (hn : 1 ≤ n) : 2 ^ bitLenAux fuel n ≤ 2 * n := by
  induction fuel generalizing n with
  | zero =>
    simp only [bitLenAux, pow_zero]
    omega
  | succ fuel ih =>
    simp only [bitLenAux]
    rw [if_neg (by omega)]
    by_cases h : n / 2 = 0
    · rw [h]
      have : bitLenAux fuel 0 = 0 := by
        cases fuel <;> simp [bitLenAux]
      rw [this]
      simp only [zero_add, pow_one]
      omega
    · have := ih (n / 2) (by omega)
      rw [pow_succ]
      omega

theorem breakOther_lt (r length : Nat) (hl : 1 ≤ length) :
    breakOther r (2 ^ bitLen length) length < length := by
  have h₁ : 2 ^ bitLen length ≤ 2 * length := bitLenAux_pow 256 length hl
  have h₂ : r &&& (2 ^ bitLen length - 1) ≤ 2 ^ bitLen length - 1 := Nat.and_le_right
  have h₃ : 0 < 2 ^ bitLen length := pow_pos (by decide) _
  unfold breakOther
  simp only
  split <;> omega

theorem breakPatternsFunc_spec (next : Nat → Nat) (data : List α) (a b : Nat)
    (hb : b ≤ data.length) : Seg a b data (breakPatternsFunc next data a b) := by
  unfold breakPatternsFunc
  simp only
  split
  · rename_i hl
    have o₁ := breakOther_lt (next (b - a)) (b - a) (by omega)
    have o₂ := breakOther_lt (next (next (b - a))) (b - a) (by omega)
    have o₃ := breakOther_lt (next (next (next (b - a)))) (b - a) (by omega)
    have hq : 2 ≤ (b - a) / 4 := by omega
    have hq₁ : (b - a) / 4 * 4 ≤ b - a := Nat.div_mul_le_self _ _
    have s₁ := Seg.swap a b data (a + (b - a) / 4 * 2 - 1 - 1 + 0)
      (a + breakOther (next (b - a)) (2 ^ bitLen (b - a)) (b - a)) (by omega) (by omega)
      (by omega) (by omega) hb
    have hb₁ := hb
    rw [← s₁.length_eq] at hb₁
    have s₂ := Seg.swap a b _ (a + (b - a) / 4 * 2 - 1 - 1 + 1)
      (a + breakOther (next (next (b - a))) (2 ^ bitLen (b - a)) (b - a)) (by omega)
      (by omega) (by omega) (by omega) hb₁
    have hb₂ := hb₁
    rw [← s₂.length_eq] at hb₂
    have s₃ := Seg.swap a b _ (a + (b - a) / 4 * 2 - 1 - 1 + 2)
      (a + breakOther (next (next (next (b - a)))) (2 ^ bitLen (b - a)) (b - a)) (by omega)
      (by omega) (by omega) (by omega) hb₂
    exact (s₁.trans s₂).trans s₃
  · exact Seg.refl _ _ _

theorem medianFunc_mem (less : α → α → Bool) (data : List α) (a b c swaps : Nat) :
    (medianFunc less data a b c swaps).1 = a ∨ (medianFunc less data a b c swaps).1 = b ∨
      (medianFunc less data a b c swaps).1 = c := by
  unfold medianFunc order2Func
  simp only
  split_ifs <;> simp

/-- Go `sort.choosePivot_func` on a `data[a:b]` of more than 12 elements
returns an index of `data[a:b]`. -/
theorem choosePivotFunc_range (less : α → α → Bool) (data : List α) (a b : Nat)
    (hl : 12 < b - a) :
    a ≤ (choosePivotFunc less data a b).1 ∧ (choosePivotFunc less data a b).1 < b := by
  have hq : 3 ≤ (b - a) / 4 := by omega
  have hq₁ : (b - a) / 4 * 4 ≤ b - a := Nat.div_mul_le_self _ _
  have key : ∀ r : Nat × Nat, (a ≤ r.1 ∧ r.1 < b) →
      a ≤ (if r.2 = 0 then (r.1, SortedHint.increasingHint)
        else if r.2 = 12 then (r.1, SortedHint.decreasingHint)
        else (r.1, SortedHint.unknownHint)).1 ∧
      (if r.2 = 0 then (r.1, SortedHint.increasingHint)
        else if r.2 = 12 then (r.1, SortedHint.decreasingHint)
        else (r.1, SortedHint.unknownHint)).1 < b := by
    intro r hr
    split
    · exact hr
    · split <;> exact hr
  unfold choosePivotFunc
  simp only
  apply key
  rw [if_pos (by omega)]
  split
  · unfold medianAdjacentFunc
    generalize hi : medianFunc less data (a + (b - a) / 4 * 1 - 1) (a + (b - a) / 4 * 1)
      (a + (b - a) / 4 * 1 + 1) 0 = ri
    have mi := medianFunc_mem less data (a + (b - a) / 4 * 1 - 1) (a + (b - a) / 4 * 1)
      (a + (b - a) / 4 * 1 + 1) 0
    rw [hi] at mi
    generalize hj : medianFunc less data (a + (b - a) / 4 * 2 - 1) (a + (b - a) / 4 * 2)
      (a + (b - a) / 4 * 2 + 1) ri.2 = rj
    have mj := medianFunc_mem less data (a + (b - a) / 4 * 2 - 1) (a + (b - a) / 4 * 2)
      (a + (b - a) / 4 * 2 + 1) ri.2
    rw [hj] at mj
    generalize hk : medianFunc less data (a + (b - a) / 4 * 3 - 1) (a + (b - a) / 4 * 3)
      (a + (b - a) / 4 * 3 + 1) rj.2 = rk
    have mk := medianFunc_mem less data (a + (b - a) / 4 * 3 - 1) (a + (b - a) / 4 * 3)
      (a + (b - a) / 4 * 3 + 1) rj.2
    rw [hk] at mk
    have mm := medianFunc_mem less data ri.1 rj.1 rk.1 rk.2
    omega
  · have mm := medianFunc_mem less data (a + (b - a) / 4 * 1) (a + (b - a) / 4 * 2)
      (a + (b - a) / 4 * 3) 0
    omega

end MiscFacts

section PartialFacts

variable {α : Type} [Inhabited α]

theorem scanSorted_spec {k : α → Int} {less : α → α → Bool}
    (hk : ∀ x y, less x y = true ↔ k x < k y) (data : List α) (b fuel i : Nat)
    (hf : b - i ≤ fuel) :
    i ≤ scanSorted less data b fuel i ∧
      (i ≤ b → scanSorted less data b fuel i ≤ b) ∧
      (∀ n, i ≤ n → n < scanSorted less data b fuel i →
        ¬ k (elem data n) < k (elem data (n - 1))) ∧
      (scanSorted less data b fuel i < b →
        k (elem data (scanSorted less data b fuel i))
          < k (elem data (scanSorted less data b fuel i - 1))) := by
  induction fuel generalizing i with
  | zero =>
    simp only [scanSorted]
    exact ⟨le_refl _, fun h => h, fun n h₁ h₂ => by omega, fun h => by omega⟩
  | succ fuel ih =>
    simp only [scanSorted]
    split
    · rename_i hc
      obtain ⟨h₁, h₂, h₃, h₄⟩ := ih (i + 1) (by omega)
      refine ⟨by omega, fun _ => h₂ (by omega), ?_, h₄⟩
      intro n hin hn
      by_cases hni : n = i
      · subst hni
        intro hlt
        exact hc.2 ((lessAt_iff hk data n (n - 1)).mpr hlt)
      · exact h₃ n (by omega) hn
    · rename_i hc
      refine ⟨le_refl _, fun h => h, fun n h₁ h₂ => by omega, ?_⟩
      intro hib
      by_contra hnl
      exact hc ⟨hib, fun hl => hnl ((lessAt_iff hk data i (i - 1)).mp hl)⟩

theorem shiftLeft_eq {k : α → Int} {less : α → α → Bool}
    (hk : ∀ x y, less x y = true ↔ k x < k y) (a b j : Nat) (data : List α) (haj : a ≤ j)
    (hjb : j < b) (hb : b ≤ data.length) (hlb : LowerBound k data a b) :
    shiftLeft less j data = insertionInner less a j data := by
  induction j generalizing data with
  | zero => rfl
  | succ j ih =>
    simp only [shiftLeft, insertionInner]
    by_cases hl : lessAt less data (j + 1) j = true
    · have hgt : j + 1 > a := by
        by_contra hle
        have hja : j + 1 = a := by omega
        have h₁ := (lessAt_iff hk data (j + 1) j).mp hl
        have h₂ := hlb (by omega) a (le_refl _) (by omega)
        rw [← hja] at h₂
        simp only [Nat.add_sub_cancel] at h₂
        omega
      rw [if_neg (by simp [hl]), if_pos ⟨hgt, hl⟩]
      exact ih (swap data (j + 1) j) (by omega) (by omega) (by rw [length_swap]; exact hb)
        (hlb.seg (Seg.swap a b data (j + 1) j (by omega) hjb (by omega) (by omega) hb))
    · rw [if_pos hl, if_neg (fun h => hl h.2)]

theorem shiftRight_spec (less : α → α → Bool) (lo b fuel j : Nat) (data : List α)
    (hlo : lo + 1 ≤ j) (hb : b ≤ data.length) :
    Seg lo b data (shiftRight less b fuel j data) := by
  induction fuel generalizing j data with
  | zero => exact Seg.refl _ _ _
  | succ fuel ih =>
    simp only [shiftRight]
    split
    · rename_i hjb
      split
      · exact Seg.refl _ _ _
      · exact (Seg.swap lo b data j (j - 1) (by omega) hjb (by omega) (by omega) hb).trans
          (ih (j + 1) (swap data j (j - 1)) (by omega) (by rw [length_swap]; exact hb))
    · exact Seg.refl _ _ _

theorem partialInsertionLoop_spec {k : α → Int} {less : α → α → Bool}
    (hk : ∀ x y, less x y = true ↔ k x < k y) (a b steps i : Nat) (data : List α)
    (hai : a + 1 ≤ i) (hib : i ≤ b) (hb : b ≤ data.length) (hlb : LowerBound k data a b)
    (hs : SortedOn k data a i) :
    Seg a b data (partialInsertionLoop less a b steps i data).1 ∧
      ((partialInsertionLoop less a b steps i data).2 = true →
        SortedOn k (partialInsertionLoop less a b steps i data).1 a b) := by
  induction steps generalizing i data with
  | zero =>
    simp only [partialInsertionLoop]
    exact ⟨Seg.refl _ _ _, fun h => by cases h⟩
  | succ steps ih =>
    simp only [partialInsertionLoop]
    obtain ⟨u₁, u₂, u₃, u₄⟩ := scanSorted_spec hk data b (b - i) i (le_refl _)
    generalize scanSorted less data b (b - i) i = i₁ at u₁ u₂ u₃ u₄ ⊢
    have u₂ := u₂ hib
    have hs₁ : SortedOn k data a i₁ := by
      have hadj : ∀ n, a + 1 ≤ n → n < i₁ → k (elem data (n - 1)) ≤ k (elem data n) := by
        intro n h₁ h₂
        by_cases h₃ : n < i
        · exact hs (n - 1) n (by omega) (by omega) h₃
        · have := u₃ n (by omega) h₂
          omega
      intro x y hx hxy hy
      induction y with
      | zero =>
        have : x = 0 := by omega
        subst this
        exact le_refl _
      | succ y ihy =>
        by_cases hxy₁ : x = y + 1
        · subst hxy₁
          exact le_refl _
        · have h₁ := ihy (by omega) (by omega)
          have h₂ := hadj (y + 1) (by omega) hy
          simp only [Nat.add_sub_cancel] at h₂
          omega
    split
    · rename_i he
      subst he
      exact ⟨Seg.refl _ _ _, fun _ => hs₁⟩
    · rename_i hne
      split
      · exact ⟨Seg.refl _ _ _, fun h => by cases h⟩
      · have hlt : i₁ < b := by omega
        have hil : i₁ < data.length := by omega
        have s₁ := Seg.swap a b data i₁ (i₁ - 1) (by omega) hlt (by omega) (by omega) hb
        have hb₁ : b ≤ (swap data i₁ (i₁ - 1)).length := by rw [length_swap]; exact hb
        have hsd₁ : SortedOn k (swap data i₁ (i₁ - 1)) a (i₁ - 1) := by
          intro x y hx hxy hy
          rw [elem_swap_other data i₁ (i₁ - 1) x hil (by omega) (by omega) (by omega),
            elem_swap_other data i₁ (i₁ - 1) y hil (by omega) (by omega) (by omega)]
          exact hs₁ x y hx hxy (by omega)
        generalize swap data i₁ (i₁ - 1) = d₁ at s₁ hb₁ hsd₁ ⊢
        have hlb₁ := hlb.seg s₁
        have h₂ : Seg a b d₁ (if i₁ - a ≥ 2 then shiftLeft less (i₁ - 1) d₁ else d₁) ∧
            SortedOn k (if i₁ - a ≥ 2 then shiftLeft less (i₁ - 1) d₁ else d₁) a i₁ := by
          split
          · rw [shiftLeft_eq hk a b (i₁ - 1) d₁ (by omega) (by omega) hb₁ hlb₁]
            obtain ⟨q₁, q₂⟩ := insertionInner_spec hk a (i₁ - 1) d₁ (by omega) (by omega) hsd₁
            have e : i₁ - 1 + 1 = i₁ := by omega
            rw [e] at q₁ q₂
            exact ⟨q₁.mono (le_refl _) (by omega), q₂⟩
          · refine ⟨Seg.refl _ _ _, ?_⟩
            intro x y hx hxy hy
            have : x = y := by omega
            subst this
            exact le_refl _
        obtain ⟨s₂, hsd₂⟩ := h₂
        generalize (if i₁ - a ≥ 2 then shiftLeft less (i₁ - 1) d₁ else d₁) = d₂ at s₂ hsd₂ ⊢
        have hb₂ : b ≤ d₂.length := by rw [s₂.length_eq]; exact hb₁
        have s₃ : Seg i₁ b d₂
            (if b - i₁ ≥ 2 then shiftRight less b (b - (i₁ + 1)) (i₁ + 1) d₂ else d₂) := by
          split
          · exact shiftRight_spec less i₁ b _ (i₁ + 1) d₂ (le_refl _) hb₂
          · exact Seg.refl _ _ _
        generalize (if b - i₁ ≥ 2 then shiftRight less b (b - (i₁ + 1)) (i₁ + 1) d₂
          else d₂) = d₃ at s₃ ⊢
        have s₃₁ : Seg a b d₂ d₃ := s₃.mono (by omega) (le_refl _)
        have hsd₃ : SortedOn k d₃ a i₁ :=
          hsd₂.of_eq (fun n h₁ h₂ => s₃.outside n (Or.inl h₂))
        obtain ⟨r₁, r₂⟩ := ih i₁ d₃ (by omega) (by omega)
          (by rw [s₃.length_eq]; exact hb₂) ((hlb₁.seg s₂).seg s₃₁) hsd₃
        exact ⟨((s₁.trans s₂).trans s₃₁).trans r₁, r₂⟩

/-- Go `sort.partialInsertionSort_func` rearranges `data[a:b]`, and `data[a:b]`
is sorted when it returns `true`. -/
theorem partialInsertionSortFunc_spec {k : α → Int} {less : α → α → Bool}
    (hk : ∀ x y, less x y = true ↔ k x < k y) (data : List α) (a b : Nat) (hab : a < b)
    (hb : b ≤ data.length) (hlb : LowerBound k data a b) :
    Seg a b data (partialInsertionSortFunc less data a b).1 ∧
      ((partialInsertionSortFunc less data a b).2 = true →
        SortedOn k (partialInsertionSortFunc less data a b).1 a b) := by
  apply partialInsertionLoop_spec hk a b 5 (a + 1) data (le_refl _) (by omega) hb hlb
  intro x y hx hxy hy
  have : x = y := by omega
  subst this
  exact le_refl _

end PartialFacts

section HeapFacts

variable {α : Type} [Inhabited α]

theorem siftDownFunc_spec {k : α → Int} {less : α → α → Bool}
    (hk : ∀ x y, less x y = true ↔ k x < k y) (hi first lo fuel root : Nat) (data : List α)
    (hlen : first + hi ≤ data.length) (hf : hi - root ≤ fuel)
    (hP : HeapExcept k data first lo hi root) :
    Seg (first + root) (first + hi) data (siftDownFunc less hi first fuel root data) ∧
      HeapFrom k (siftDownFunc less hi first fuel root data) first lo hi := by
  induction fuel generalizing root data with
  | zero =>
    simp only [siftDownFunc]
    refine ⟨Seg.refl _ _ _, ?_⟩
    intro n c hn hc hch
    by_cases hnr : n = root
    · omega
    · exact hP.1 n c hn hnr hc hch
  | succ fuel ih =>
    simp only [siftDownFunc]
    split
    · rename_i hge
      refine ⟨Seg.refl _ _ _, ?_⟩
      intro n c hn hc hch
      by_cases hnr : n = root
      · omega
      · exact hP.1 n c hn hnr hc hch
    · rename_i hlt
      have hlt : 2 * root + 1 < hi := by omega
      have hsel : ∃ c₁, (if 2 * root + 1 + 1 < hi ∧
            lessAt less data (first + (2 * root + 1)) (first + (2 * root + 1) + 1) = true
            then 2 * root + 1 + 1 else 2 * root + 1) = c₁ ∧
          (c₁ = 2 * root + 1 ∨ c₁ = 2 * root + 2) ∧ c₁ < hi ∧
          ∀ c, (c = 2 * root + 1 ∨ c = 2 * root + 2) → c < hi →
            k (elem data (first + c)) ≤ k (elem data (first + c₁)) := by
        split
        · rename_i hc
          have hl := (lessAt_iff hk data _ _).mp hc.2
          refine ⟨_, rfl, Or.inr rfl, hc.1, ?_⟩
          intro c hcc hch
          rcases hcc with rfl | rfl
          · have e : first + (2 * root + 1) + 1 = first + (2 * root + 1 + 1) := by omega
            rw [e] at hl
            exact le_of_lt hl
          · exact le_refl _
        · rename_i hc
          refine ⟨_, rfl, Or.inl rfl, hlt, ?_⟩
          intro c hcc hch
          rcases hcc with rfl | rfl
          · exact le_refl _
          · by_contra hnl
            apply hc
            refine ⟨by omega, (lessAt_iff hk data _ _).mpr ?_⟩
            have e : first + (2 * root + 1) + 1 = first + (2 * root + 2) := by omega
            rw [e]
            omega
      obtain ⟨c₁, hc₁, hcc, hch, hmax⟩ := hsel
      rw [hc₁]
      split
      · rename_i hnl
        refine ⟨Seg.refl _ _ _, ?_⟩
        intro n c hn hc hcl
        by_cases hnr : n = root
        · subst hnr
          have h₁ := hmax c hc hcl
          have h₂ : ¬ k (elem data (first + n)) < k (elem data (first + c₁)) :=
            fun hl => hnl ((lessAt_iff hk data _ _).mpr hl)
          omega
        · exact hP.1 n c hn hnr hc hcl
      · rename_i hl
        have hl : k (elem data (first + root)) < k (elem data (first + c₁)) := by
          by_contra hnl
          exact hl (fun h => hnl ((lessAt_iff hk data _ _).mp h))
        have hrl : first + root < data.length := by omega
        have hcl : first + c₁ < data.length := by omega
        have es : ∀ n, n ≠ root → n ≠ c₁ →
            elem (swap data (first + root) (first + c₁)) (first + n) = elem data (first + n) :=
          fun n h₁ h₂ => elem_swap_other data _ _ _ hrl hcl (by omega) (by omega)
        have er : elem (swap data (first + root) (first + c₁)) (first + root)
            = elem data (first + c₁) := elem_swap_left data _ _ hrl hcl
        have ec : elem (swap data (first + root) (first + c₁)) (first + c₁)
            = elem data (first + root) := elem_swap_right data _ _ hrl hcl
        have hP₁ : HeapExcept k (swap data (first + root) (first + c₁)) first lo hi c₁ := by
          constructor
          · intro n c hn hnc hc hcl₁
            by_cases hnr : n = root
            · subst hnr
              rw [er]
              by_cases hcc₁ : c = c₁
              · rw [hcc₁, ec]
                exact le_of_lt hl
              · rw [es c (by omega) hcc₁]
                exact hmax c hc hcl₁
            · rw [es n hnr hnc]
              by_cases hcr : c = root
              · rw [hcr, er]
                exact hP.2 n c₁ hn (by omega) hcc hch
              · rw [es c hcr (by omega)]
                exact hP.1 n c hn hnr hc hcl₁
          · intro n c hn hnp hc hcl₁
            have hnr : n = root := by omega
            subst hnr
            rw [er, es c (by omega) (by omega)]
            by_cases hcn : c₁ = n
            · omega
            · exact hP.1 c₁ c (by omega) hcn hc hcl₁
        obtain ⟨r₁, r₂⟩ := ih c₁ (swap data (first + root) (first + c₁))
          (by rw [length_swap]; exact hlen) (by omega) hP₁
        exact ⟨(Seg.swap (first + root) (first + hi) data (first + root) (first + c₁)
          (le_refl _) (by omega) (by omega) (by omega) hlen).trans
          (r₁.mono (by omega) (le_refl _)), r₂⟩

theorem heapBuild_spec {k : α → Int} {less : α → α → Bool}
    (hk : ∀ x y, less x y = true ↔ k x < k y) (hi first m : Nat) (data : List α)
    (hlen : first + hi ≤ data.length) (hH : HeapFrom k data first m hi) :
    Seg first (first + hi) data (heapBuild less hi first m data) ∧
      HeapFrom k (heapBuild less hi first m data) first 0 hi := by
  induction m generalizing data with
  | zero => exact ⟨Seg.refl _ _ _, hH⟩
  | succ i ih =>
    simp only [heapBuild]
    have hP : HeapExcept k data first i hi i := by
      constructor
      · intro n c hn hni hc hcl
        exact hH n c (by omega) hc hcl
      · intro n c hn hnp hc hcl
        omega
    obtain ⟨s₁, h₁⟩ := siftDownFunc_spec hk hi first i hi i data hlen (by omega) hP
    obtain ⟨s₂, h₂⟩ := ih (siftDownFunc less hi first hi i data)
      (by rw [s₁.length_eq]; exact hlen) h₁
    exact ⟨(s₁.mono (by omega) (le_refl _)).trans s₂, h₂⟩

theorem heap_root_max {k : α → Int} (data : List α) (first hi : Nat)
    (hH : HeapFrom k data first 0 hi) (n : Nat) (hn : n < hi) :
    k (elem data (first + n)) ≤ k (elem data (first + 0)) := by
  induction n using Nat.strong_induction_on with
  | _ n ih =>
    by_cases h0 : n = 0
    · subst h0
      exact le_refl _
    · have h₁ := ih ((n - 1) / 2) (by omega) (by omega)
      have h₂ := hH ((n - 1) / 2) n (Nat.zero_le _) (by omega) hn
      omega

theorem heapPop_spec {k : α → Int} {less : α → α → Bool}
    (hk : ∀ x y, less x y = true ↔ k x < k y) (hi first m : Nat) (data : List α)
    (hm : m ≤ hi) (hlen : first + hi ≤ data.length) (hH : HeapFrom k data first 0 m)
    (hs : SortedOn k data (first + m) (first + hi))
    (hle : ∀ n t, n < m → m ≤ t → t < hi →
      k (elem data (first + n)) ≤ k (elem data (first + t))) :
    Seg first (first + hi) data (heapPop less first m data) ∧
      SortedOn k (heapPop less first m data) first (first + hi) := by
  induction m generalizing data with
  | zero => exact ⟨Seg.refl _ _ _, hs⟩
  | succ i ih =>
    simp only [heapPop]
    have hfl : first < data.length := by omega
    have hil : first + i < data.length := by omega
    have hmax := heap_root_max data first (i + 1) hH
    have s₁ := Seg.swap first (first + hi) data first (first + i) (le_refl _) (by omega)
      (by omega) (by omega) hlen
    have ef : ∀ n, n ≠ 0 → n ≠ i →
        elem (swap data first (first + i)) (first + n) = elem data (first + n) :=
      fun n h₁ h₂ => elem_swap_other data _ _ _ hfl hil (by omega) (by omega)
    have ei : elem (swap data first (first + i)) (first + i) = elem data (first + 0) :=
      elem_swap_right data _ _ hfl hil
    have e0 : elem (swap data first (first + i)) (first + 0) = elem data (first + i) :=
      elem_swap_left data _ _ hfl hil
    generalize hd₁ : swap data first (first + i) = d₁ at s₁ ef ei e0 ⊢
    have hlen₁ : first + hi ≤ d₁.length := by rw [s₁.length_eq]; exact hlen
    have hP : HeapExcept k d₁ first 0 i 0 := by
      constructor
      · intro n c hn hn0 hc hcl
        rw [ef c (by omega) (by omega), ef n hn0 (by omega)]
        exact hH n c hn hc (by omega)
      · intro n c hn hnp hc hcl
        omega
    obtain ⟨s₂, h₂⟩ := siftDownFunc_spec hk i first 0 i 0 d₁ (by omega) (by omega) hP
    generalize siftDownFunc less i first i 0 d₁ = d₂ at s₂ h₂ ⊢
    have hlen₂ : first + hi ≤ d₂.length := by rw [s₂.length_eq]; exact hlen₁
    have eo : ∀ t, i ≤ t → elem d₂ (first + t) = elem d₁ (first + t) :=
      fun t ht => s₂.outside (first + t) (Or.inr (by omega))
    have hheap : ∀ n, n < i → k (elem d₂ (first + n)) ≤ k (elem data (first + 0)) := by
      have hb : ∀ n, first + 0 ≤ n → n < first + i → k (elem d₁ n) ≤ k (elem data (first + 0)) := by
        intro n h₁ h₂
        have e : n = first + (n - first) := by omega
        rw [e]
        by_cases h0 : n - first = 0
        · rw [h0, e0]
          exact hmax i (by omega)
        · rw [ef (n - first) h0 (by omega)]
          exact hmax (n - first) (by omega)
      intro n hn
      exact s₂.forall (fun x => k x ≤ k (elem data (first + 0))) hb (first + n) (by omega)
        (by omega)
    have hs₂ : SortedOn k d₂ (first + i) (first + hi) := by
      intro x y hx hxy hy
      have ex : x = first + (x - first) := by omega
      have ey : y = first + (y - first) := by omega
      rw [ex, ey, eo _ (by omega), eo _ (by omega)]
      by_cases hxi : x - first = i
      · rw [hxi, ei]
        by_cases hyi : y - first = i
        · rw [hyi, ei]
        · rw [ef _ (by omega) hyi]
          exact hle 0 (y - first) (by omega) (by omega) (by omega)
      · rw [ef _ (by omega) hxi, ef _ (by omega) (by omega)]
        have := hs x y (by omega) hxy hy
        rw [ex, ey] at this
        simpa using this
    have hle₂ : ∀ n t, n < i → i ≤ t → t < hi →
        k (elem d₂ (first + n)) ≤ k (elem d₂ (first + t)) := by
      intro n t hn ht hth
      rw [eo t ht]
      by_cases hti : t = i
      · rw [hti, ei]
        exact hheap n hn
      · rw [ef t (by omega) hti]
        exact le_trans (hheap n hn) (hle 0 t (by omega) (by omega) hth)
    obtain ⟨s₃, h₃⟩ := ih d₂ (by omega) hlen₂ h₂ hs₂ hle₂
    exact ⟨(s₁.trans (s₂.mono (by omega) (by omega))).trans s₃, h₃⟩

/-- Go `sort.heapSort_func` sorts `data[a:b]`. -/
theorem heapSortFunc_spec {k : α → Int} {less : α → α → Bool}
    (hk : ∀ x y, less x y = true ↔ k x < k y) (data : List α) (a b : Nat) (hab : a ≤ b)
    (hb : b ≤ data.length) :
    Seg a b data (heapSortFunc less data a b) ∧
      SortedOn k (heapSortFunc less data a b) a b := by
  unfold heapSortFunc
  simp only
  have hlen : a + (b - a) ≤ data.length := by omega
  have hH : HeapFrom k data a ((b - a - 1) / 2 + 1) (b - a) := by
    intro n c hn hc hcl
    omega
  obtain ⟨s₁, h₁⟩ := heapBuild_spec hk (b - a) a ((b - a - 1) / 2 + 1) data hlen hH
  generalize heapBuild less (b - a) a ((b - a - 1) / 2 + 1) data = d₁ at s₁ h₁ ⊢
  obtain ⟨s₂, h₂⟩ := heapPop_spec hk (b - a) a (b - a) d₁ (le_refl _)
    (by rw [s₁.length_eq]; exact hlen) h₁ (fun i j h₁ h₂ h₃ => by omega)
    (fun n t h₁ h₂ h₃ => by omega)
  have e : a + (b - a) = b := by omega
  rw [e] at s₁ s₂ h₂
  exact ⟨s₁.trans s₂, h₂⟩

end HeapFacts

section PdqFacts

variable {α : Type} [Inhabited α]

theorem SortedOn.glue₃ {k : α → Int} {data : List α} {a mid b : Nat}
    (h₁ : SortedOn k data a mid) (h₂ : SortedOn k data (mid + 1) b)
    (hlo : ∀ n, a ≤ n → n < mid → k (elem data n) ≤ k (elem data mid))
    (hhi : ∀ n, mid < n → n < b → k (elem data mid) ≤ k (elem data n)) :
    SortedOn k data a b := by
  intro i j hai hij hjb
  by_cases hjm : j < mid
  · exact h₁ i j hai hij hjm
  · by_cases hje : j = mid
    · subst hje
      by_cases hie : i = j
      · subst hie
        exact le_refl _
      · exact hlo i hai (by omega)
    · by_cases him : i < mid
      · exact le_trans (hlo i hai him) (hhi j (by omega) hjb)
      · by_cases hie : i = mid
        · subst hie
          exact hhi j (by omega) hjb
        · exact h₂ i j (by omega) hij hjb

theorem pdqsortLoop_spec {k : α → Int} {less : α → α → Bool}
    (hk : ∀ x y, less x y = true ↔ k x < k y) (next : Nat → Nat) (fuel : Nat)
    (data : List α) (a b limit : Nat) (wb wp : Bool) (hab : a ≤ b) (hb : b ≤ data.length)
    (hf : b - a < fuel) (hlb : LowerBound k data a b) :
    Seg a b data (pdqsortLoop next less fuel data a b limit wb wp) ∧
      SortedOn k (pdqsortLoop next less fuel data a b limit wb wp) a b := by
  induction fuel generalizing data a b limit wb wp with
  | zero => omega
  | succ fuel ih =>
    rw [pdqsortLoop]
    lift_lets
    intro d₁ limit₁ ch d₂ pivot hint tryPartial pr d₃ pe pt d₄ mid leftLen rightLen bt d₅ d₆
    split
    · exact insertionSortFunc_spec hk data a b hab hb
    · rename_i hlen
      split
      · exact heapSortFunc_spec hk data a b hab hb
      · rename_i hlim
        have hlen : 12 < b - a := by omega
        -- breakPatterns
        have s₁ : Seg a b data d₁ := by
          show Seg a b data (if ¬ wb = true then breakPatternsFunc next data a b else data)
          split
          · exact breakPatternsFunc_spec next data a b hb
          · exact Seg.refl _ _ _
        have hb₁ : b ≤ d₁.length := by rw [s₁.length_eq]; exact hb
        clear_value d₁
        -- choosePivot
        have hch : a ≤ ch.1 ∧ ch.1 < b := choosePivotFunc_range less d₁ a b hlen
        clear_value ch
        have s₂ : Seg a b d₁ d₂ := by
          show Seg a b d₁ (if ch.2 = SortedHint.decreasingHint then reverseRangeFunc d₁ a b
            else d₁)
          split
          · exact reverseRangeFunc_spec d₁ a b (by omega) hb₁
          · exact Seg.refl _ _ _
        have hb₂ : b ≤ d₂.length := by rw [s₂.length_eq]; exact hb₁
        clear_value d₂
        have hpv : a ≤ pivot ∧ pivot < b := by
          show a ≤ (if ch.2 = SortedHint.decreasingHint then b - 1 - (ch.1 - a) else ch.1) ∧
            (if ch.2 = SortedHint.decreasingHint then b - 1 - (ch.1 - a) else ch.1) < b
          split <;> omega
        clear_value pivot
        have hlb₂ : LowerBound k d₂ a b := (hlb.seg s₁).seg s₂
        -- partialInsertionSort
        have s₃ : Seg a b d₂ pr.1 ∧ (pr.2 = true → SortedOn k pr.1 a b) := by
          show Seg a b d₂ (if tryPartial = true then partialInsertionSortFunc less d₂ a b
              else (d₂, false)).1 ∧
            ((if tryPartial = true then partialInsertionSortFunc less d₂ a b
              else (d₂, false)).2 = true →
              SortedOn k (if tryPartial = true then partialInsertionSortFunc less d₂ a b
                else (d₂, false)).1 a b)
          split
          · exact partialInsertionSortFunc_spec hk d₂ a b (by omega) hb₂ hlb₂
          · exact ⟨Seg.refl _ _ _, fun h => by cases h⟩
        clear_value pr
        obtain ⟨s₃, hsorted₃⟩ := s₃
        have s₁₃ : Seg a b data pr.1 := (s₁.trans s₂).trans s₃
        split
        · rename_i hdone
          exact ⟨s₁₃, hsorted₃ hdone⟩
        · have hd₃ : d₃ = pr.1 := rfl
          clear_value d₃
          rw [← hd₃] at s₃ s₁₃
          have hb₃ : b ≤ d₃.length := by rw [s₃.length_eq]; exact hb₂
          have hlb₃ : LowerBound k d₃ a b := hlb₂.seg s₃
          split
          · rename_i hpe
            obtain ⟨ha0, hnl⟩ := hpe
            have hnl : ¬ k (elem d₃ (a - 1)) < k (elem d₃ pivot) :=
              fun h => hnl ((lessAt_iff hk d₃ (a - 1) pivot).mpr h)
            have hmin : ∀ n, a ≤ n → n < b → k (elem d₃ pivot) ≤ k (elem d₃ n) := by
              intro n h₁ h₂
              have := hlb₃ ha0 n h₁ h₂
              omega
            obtain ⟨e₁, e₂, e₃, e₄, e₅⟩ := partitionEqualFunc_spec hk d₃ a b pivot hpv.1 hpv.2
              hb₃ hmin
            have hpe : pe = partitionEqualFunc less d₃ a b pivot := rfl
            rw [← hpe] at e₁ e₂ e₃ e₄ e₅
            clear_value pe
            have hbe : b ≤ pe.1.length := by rw [e₁.length_eq]; exact hb₃
            have hlbe : LowerBound k pe.1 pe.2 b := by
              intro _ n h₁ h₂
              rw [e₄ (pe.2 - 1) (by omega) (by omega)]
              exact le_of_lt (e₅ n h₁ h₂)
            obtain ⟨r₁, r₂⟩ := ih pe.1 pe.2 b limit₁ wb wp e₃ hbe (by omega) hlbe
            refine ⟨s₁₃.trans (e₁.trans (r₁.mono (by omega) (le_refl _))), ?_⟩
            have hlow : SortedOn k (pdqsortLoop next less fuel pe.1 pe.2 b limit₁ wb wp) a pe.2 := by
              intro x y hx hxy hy
              rw [r₁.outside x (Or.inl (by omega)), r₁.outside y (Or.inl hy),
                e₄ x hx (by omega), e₄ y (by omega) hy]
            apply hlow.glue r₂
            intro x y hx hxm hmy hyb
            rw [r₁.outside x (Or.inl hxm), e₄ x hx hxm]
            exact le_of_lt (r₁.forall (fun z => k (elem d₃ pivot) < k z) e₅ y hmy hyb)
          · obtain ⟨p₁, p₂, p₃, p₄, p₅⟩ := partitionFunc_spec hk d₃ a b pivot hpv.1 hpv.2 hb₃
            have hpt : pt = partitionFunc less d₃ a b pivot := rfl
            rw [← hpt] at p₁ p₂ p₃ p₄ p₅
            clear_value pt
            have hd₄ : d₄ = pt.1 := rfl
            have hmid : mid = pt.2.1 := rfl
            clear_value d₄ mid
            simp only [← hd₄, ← hmid] at p₁ p₂ p₃ p₄ p₅
            have hb₄ : b ≤ d₄.length := by rw [p₁.length_eq]; exact hb₃
            have hlb₄ : LowerBound k d₄ a b := hlb₃.seg p₁
            have s₁₄ : Seg a b data d₄ := s₁₃.trans p₁
            split
            · -- left part first
              have hd₅ : d₅ = pdqsortLoop next less fuel d₄ a mid limit₁ true true := rfl
              obtain ⟨q₁, q₂⟩ := ih d₄ a mid limit₁ true true p₂ (by omega) (by omega)
                (hlb₄.sub (by omega))
              rw [← hd₅] at q₁ q₂
              clear_value d₅
              have hb₅ : b ≤ d₅.length := by rw [q₁.length_eq]; exact hb₄
              have em : elem d₅ mid = elem d₄ mid := q₁.outside mid (Or.inr (le_refl _))
              have hlb₅ : LowerBound k d₅ (mid + 1) b := by
                intro _ n h₁ h₂
                simp only [Nat.add_sub_cancel]
                rw [em, q₁.outside n (Or.inr (by omega))]
                exact p₅ n (by omega) h₂
              obtain ⟨r₁, r₂⟩ := ih d₅ (mid + 1) b limit₁ (decide (leftLen ≥ bt)) pt.2.2
                (by omega) hb₅ (by omega) hlb₅
              refine ⟨s₁₄.trans ((q₁.mono (le_refl _) (by omega)).trans
                (r₁.mono (by omega) (le_refl _))), ?_⟩
              have em₂ : elem (pdqsortLoop next less fuel d₅ (mid + 1) b limit₁
                  (decide (leftLen ≥ bt)) pt.2.2) mid = elem d₄ mid := by
                rw [r₁.outside mid (Or.inl (by omega)), em]
              apply SortedOn.glue₃ _ r₂
              · intro n h₁ h₂
                rw [em₂, r₁.outside n (Or.inl (by omega))]
                exact le_of_lt (q₁.forall (fun z => k z < k (elem d₄ mid)) p₄ n h₁ h₂)
              · intro n h₁ h₂
                rw [em₂]
                apply r₁.forall (fun z => k (elem d₄ mid) ≤ k z) _ n (by omega) h₂
                intro m h₃ h₄
                rw [q₁.outside m (Or.inr (by omega))]
                exact p₅ m (by omega) h₄
              · exact q₂.of_eq (fun n h₁ h₂ => r₁.outside n (Or.inl (by omega)))
            · -- right part first
              have hd₆ : d₆ = pdqsortLoop next less fuel d₄ (mid + 1) b limit₁ true true := rfl
              have hlbr : LowerBound k d₄ (mid + 1) b := by
                intro _ n h₁ h₂
                simp only [Nat.add_sub_cancel]
                exact p₅ n (by omega) h₂
              obtain ⟨q₁, q₂⟩ := ih d₄ (mid + 1) b limit₁ true true (by omega) hb₄ (by omega)
                hlbr
              rw [← hd₆] at q₁ q₂
              clear_value d₆
              have hb₆ : b ≤ d₆.length := by rw [q₁.length_eq]; exact hb₄
              have hlb₆ : LowerBound k d₆ a mid :=
                (hlb₄.seg (q₁.mono (by omega) (le_refl _))).sub (by omega)
              obtain ⟨r₁, r₂⟩ := ih d₆ a mid limit₁ (decide (rightLen ≥ bt)) pt.2.2 p₂
                (by omega) (by omega) hlb₆
              refine ⟨s₁₄.trans ((q₁.mono (by omega) (le_refl _)).trans
                (r₁.mono (le_refl _) (by omega))), ?_⟩
              have em : elem d₆ mid = elem d₄ mid := q₁.outside mid (Or.inl (by omega))
              have em₂ : elem (pdqsortLoop next less fuel d₆ a mid limit₁
                  (decide (rightLen ≥ bt)) pt.2.2) mid = elem d₄ mid := by
                rw [r₁.outside mid (Or.inr (le_refl _)), em]
              apply SortedOn.glue₃ r₂
              · exact q₂.of_eq (fun n h₁ h₂ => r₁.outside n (Or.inr (by omega)))
              · intro n h₁ h₂
                rw [em₂]
                apply le_of_lt
                apply r₁.forall (fun z => k z < k (elem d₄ mid)) _ n h₁ h₂
                intro m h₃ h₄
                rw [q₁.outside m (Or.inl (by omega))]
                exact p₄ m h₃ h₄
              · intro n h₁ h₂
                rw [em₂, r₁.outside n (Or.inr (by omega))]
                exact q₁.forall (fun z => k (elem d₄ mid) ≤ k z)
                  (fun m h₃ h₄ => p₅ m (by omega) h₄) n (by omega) h₂

/-- Go `sort.Slice` with a `less` that compares a key returns a permutation
of the slice whose keys are in non-decreasing order, whatever the generator
of `breakPatterns`. -/
theorem sortSliceWith_spec {k : α → Int} {less : α → α → Bool}
    (hk : ∀ x y, less x y = true ↔ k x < k y) (next : Nat → Nat) (x : List α) :
    (sortSliceWith next less x).Perm x ∧
      (sortSliceWith next less x).Pairwise (fun u v => k u ≤ k v) := by
  obtain ⟨h₁, h₂⟩ := pdqsortLoop_spec hk next (x.length + 1) x 0 x.length (bitLen x.length)
    true true (Nat.zero_le _) (le_refl _) (by omega) (fun h => by omega)
  refine ⟨h₁.perm (le_refl _), ?_⟩
  unfold sortSliceWith
  generalize pdqsortLoop next less (x.length + 1) x 0 x.length (bitLen x.length) true true
    = r at h₁ h₂
  rw [List.pairwise_iff_getElem]
  intro i j hi hj hij
  have := h₂ i j (Nat.zero_le _) (le_of_lt hij) (by rw [← h₁.length_eq]; exact hj)
  simpa [elem, List.getD_eq_getElem?_getD, List.getElem?_eq_getElem hi,
    List.getElem?_eq_getElem hj] using this

end PdqFacts

theorem rankWith_perm (next : Nat → Nat) (lines : List Line) :
    (rankWith next lines).Perm lines :=
  (@sortSliceWith_spec Line _ (fun l => -l.Duration)
    (fun a b => decide (a.Duration > b.Duration)) (fun x y => by simp) next lines).1

theorem rankWith_pairwise (next : Nat → Nat) (lines : List Line) :
    (rankWith next lines).Pairwise (fun a b => b.Duration ≤ a.Duration) := by
  have h := (@sortSliceWith_spec Line _ (fun l => -l.Duration)
    (fun a b => decide (a.Duration > b.Duration)) (fun x y => by simp) next lines).2
  exact h.imp (fun h₁ => by simpa using h₁)

/-! ### The pipeline: claims -/

set_option maxRecDepth 100000 in
/-- C2: the ranking step yields a sequence that is non-increasing in
`Duration` (compared as a signed integer) across every pair of consecutive
entries, and across every pair of entries, for every collection of Records
and whatever the generator of the library's `breakPatterns`; the records of
the example are ranked lint (2s), build (1.2s), test (500ms), and thirteen
Records with the durations 1ns and 2ns in turn are ranked `j b d f h l` (2ns)
before `c e g i a k m` (1ns), ties in the order the library leaves them in. -/
theorem rank_nonincreasing :
    (∀ (next : Nat → Nat) (lines : List Line),
      (rankWith next lines).Chain' (fun a b => b.Duration ≤ a.Duration)) ∧
    (∀ (next : Nat → Nat) (lines : List Line),
      (rankWith next lines).Pairwise (fun a b => b.Duration ≤ a.Duration)) ∧
    (∀ lines : List Line, (rank lines).Chain' (fun a b => b.Duration ≤ a.Duration)) ∧
    rank (parseWorker parseDuration
        [lit "build -> 1.2s", lit "test -> 500ms", lit "lint -> 2s"]) = exampleRanked ∧
    (rank exampleThirteen).map (fun l => l.Command) =
      [lit "j", lit "b", lit "d", lit "f", lit "h", lit "l", lit "c", lit "e", lit "g",
       lit "i", lit "a", lit "k", lit "m"] := by
  refine ⟨fun next lines => (rankWith_pairwise next lines).chain', rankWith_pairwise,
    fun lines => (rankWith_pairwise xorshift lines).chain', by decide, by decide⟩

/-- C3: in the sequential run of the pipeline, the ranked output is a
permutation of the Records that `parseLine` returns over the input lines, one
per accepted line and none for a rejected line; the number of Records is the
number of input lines that `parseLine` accepts.  This holds whatever the
generator of the library's `breakPatterns`, so for `ranked` as well. -/
theorem ranked_perm (pd : Str → Except DurationError Duration) (next : Nat → Nat)
    (lines : List Str) :
    (rankedWith pd next (wholeReads lines)).Perm (lines.filterMap (record pd)) ∧
    (rankedWith pd next (wholeReads lines)).length
      = lines.countP (fun l => (parseLine pd l).ok) ∧
    (ranked pd (wholeReads lines)).Perm (lines.filterMap (record pd)) := by
  have hp : ∀ nx, (rankedWith pd nx (wholeReads lines)).Perm (lines.filterMap (record pd)) := by
    intro nx
    unfold rankedWith
    refine (rankWith_perm _ _).trans ?_
    rw [lineCollector_eq, parseWorker_readLoop, readLoopNoCheck_wholeReads,
      parseWorker_eq_filterMap]
  refine ⟨hp next, ?_, hp xorshift⟩
  rw [(hp next).length_eq]
  clear hp
  induction lines with
  | nil => rfl
  | cons l rest ih =>
    simp only [List.filterMap_cons, record, List.countP_cons]
    by_cases h : (parseLine pd l).ok = true
    · simp [h, ih]
    · simp [h, ih]

/-- C5: the pre-filter never rejects a line that `parseLine` accepts: an
accepted line contains `"->"`; so the Records sent by the workers with the
pre-filter are those sent when `parseLine` is applied to every line read. -/
theorem prefilter_sound (pd : Str → Except DurationError Duration) :
    (∀ line, (parseLine pd line).ok = true → Contains line arrow = true) ∧
    (∀ reads, parseWorker pd (readLoop reads) = parseWorker pd (readLoopNoCheck reads)) ∧
    (∀ lines, parseWorker pd (readLoop (wholeReads lines)) = lines.filterMap (record pd)) := by
  refine ⟨Contains_arrow_of_ok pd, parseWorker_readLoop pd, fun lines => ?_⟩
  rw [parseWorker_readLoop, readLoopNoCheck_wholeReads, parseWorker_eq_filterMap]

/-! ## The report -/

theorem singleton_infix_iff_mem (c : Char) (s : Str) : [c] <:+: s ↔ c ∈ s := by
  constructor
  · rintro ⟨a, b, rfl⟩
    simp
  · intro h
    obtain ⟨a, b, rfl⟩ := List.append_of_mem h
    exact ⟨a, b, by simp⟩

theorem baseCmd_eq_none_iff (c : Str) : baseCmd c = none ↔ ' ' ∉ c := by
  rw [← singleton_infix_iff_mem, ← Index_eq_none_iff]
  have h₁ : ¬ ((2 : Int) = 0) := by decide
  have h₂ : ¬ ((2 : Int) < 0) := by decide
  have h₃ : (2 : Int).toNat = 2 := rfl
  cases c with
  | nil =>
    simp [baseCmd, SplitAfterN, genSplit, genSplitLoop, Index]
  | cons x s =>
    have h₄ : ¬ (2 > (x :: s).length + 1) := by
      simp only [List.length_cons]
      omega
    simp only [baseCmd, SplitAfterN, genSplit, h₁, h₂, h₃, h₄, if_false, genSplitLoop]
    cases Index (x :: s) [' '] with
    | none => simp
    | some m => simp [genSplitLoop]

theorem baseCmd_of_space (a b : Str) (ha : ' ' ∉ a) :
    baseCmd (a ++ ' ' :: b) = some (Base (a ++ [' ']) ++ b) := by
  have hne : a ++ ' ' :: b ≠ [] := by simp
  have h₁ : ¬ ((2 : Int) = 0) := by decide
  have h₂ : ¬ ((2 : Int) < 0) := by decide
  have h₃ : (2 : Int).toNat = 2 := rfl
  have h₄ : ¬ (2 > (a ++ ' ' :: b).length + 1) := by
    simp only [List.length_append, List.length_cons]
    omega
  have hi : Index (a ++ ' ' :: b) [' '] = some a.length := by
    cases h : Index (a ++ ' ' :: b) [' '] with
    | none =>
      exact absurd ⟨a, b, by simp⟩ ((Index_eq_none_iff _ _).mp h)
    | some m =>
      obtain ⟨a₁, b₁, hs, hl, hmin⟩ := Index_some_split _ _ m h
      have hm : m ≤ a.length := hmin a b (by simp)
      have : a₁ = a := by
        rw [List.append_assoc, List.append_eq_append_iff] at hs
        rcases hs with ⟨c, hc, h₅⟩ | ⟨c, hc, h₅⟩
        · cases c with
          | nil => simpa using hc
          | cons y c =>
            have hy : y = ' ' := by
              simp only [List.singleton_append, List.cons_append, List.cons.injEq] at h₅
              exact h₅.1.symm
            exfalso
            have := congrArg List.length hc
            simp only [List.length_append, List.length_cons] at this
            omega
        · cases c with
          | nil => simpa using hc.symm
          | cons y c =>
            have hy : y = ' ' := by
              simp only [List.singleton_append, List.cons_append, List.cons.injEq] at h₅
              exact h₅.1.symm
            exfalso
            apply ha
            rw [hc, hy]
            simp
      rw [← hl, this]
  have ht : (a ++ ' ' :: b).take (a.length + 1) = a ++ [' '] := by
    have := take_sep_of_split a [' '] b
    simpa using this
  have hd : (a ++ ' ' :: b).drop (a.length + 1) = b := by
    have := drop_of_split a [' '] b
    simp only [List.length_singleton, List.append_assoc, List.singleton_append] at this
    exact this
  simp only [baseCmd, SplitAfterN, genSplit, h₁, h₂, h₃, h₄, if_false, genSplitLoop, hi,
    List.length_singleton, ht, hd]
  rfl

/-! ### The report: claims -/

set_option maxRecDepth 100000 in
/-- C6: `baseCmd` on a label without a space, such as `"build"` or the empty
label, ends in the panic of `parts[1]` out of range, and so does the default
mode on the ranked Records of the example; `baseCmd` returns a value exactly
for a label that holds a space, and then it is `filepath.Base` of the first
token (with its space) followed by the rest of the label. -/
theorem baseCmd_single_token_panics :
    baseCmd (lit "build") = none ∧ baseCmd (lit "") = none ∧
    SplitAfterN (lit "build") [' '] 2 = [lit "build"] ∧
    defaultMode (ranked parseDuration (wholeReads exampleInput)) 200 = .panic ∧
    (∀ c : Str, baseCmd c = none ↔ ' ' ∉ c) ∧
    (∀ a b : Str, ' ' ∉ a → baseCmd (a ++ ' ' :: b) = some (Base (a ++ [' ']) ++ b)) := by
  refine ⟨by decide, by decide, by decide, by decide, baseCmd_eq_none_iff, baseCmd_of_space⟩

set_option maxRecDepth 100000 in
/-- C7: in index mode with the parsed index `l`, the run is fatal exactly when
`l < 0` or `l >= len(lines)`; otherwise it prints the label and the duration of
the entry at the zero-based position `l`, the label unchanged, and the access
`lines[l]` is in range.  On the ranked output of the example, index 1 prints
`("build", 1.2s)` and index 99 is fatal. -/
theorem lineMode_spec :
    (∀ (lines : List Line) (l : Int),
      (lineMode lines l = .fatal ↔ (l < 0 ∨ l ≥ (lines.length : Int))) ∧
      (¬ (l < 0 ∨ l ≥ (lines.length : Int)) →
        ∃ e, lines[l.toNat]? = some e ∧ lineMode lines l = .printed (e.Command, e.Duration)) ∧
      lineMode lines l ≠ .panic) ∧
    ranked parseDuration (wholeReads exampleInput) = exampleRanked ∧
    lineMode exampleRanked 1 = .printed (lit "build", 1200000000) ∧
    lineMode exampleRanked 99 = .fatal := by
  refine ⟨fun lines l => ?_, by decide, by decide, by decide⟩
  by_cases h : l < 0 ∨ l ≥ (lines.length : Int)
  · have hf : lineMode lines l = .fatal := by simp only [lineMode, h, if_true]
    refine ⟨?_, fun hn => absurd h hn, ?_⟩
    · simp [hf, h]
    · rw [hf]
      intro hc
      cases hc
  · have hlt : l.toNat < lines.length := by omega
    have hget : lines[l.toNat]? = some (lines[l.toNat]) := List.getElem?_eq_getElem hlt
    have hp : lineMode lines l
        = .printed ((lines[l.toNat]).Command, (lines[l.toNat]).Duration) := by
      simp only [lineMode, h, if_false, hget]
    refine ⟨?_, fun _ => ⟨lines[l.toNat], hget, hp⟩, ?_⟩
    · simp [hp, h]
    · rw [hp]
      intro hc
      cases hc

set_option maxRecDepth 100000 in
/-- C8: `ellipsize` on a label whose length is exactly `max` truncates it:
`ellipsize("ab cd", 5)` is `"ab..."`, and the default mode with
`-maxcolumns 5` prints the label `"ab cd"` as `"ab..."`.  For `max >= 3` the
label is returned unchanged when `len(s) < max`, and when `len(s) >= max` the
result is the first `max - 3` bytes followed by `"..."`, of length `max`. -/
theorem ellipsize_at_max :
    ellipsize (lit "ab cd") 5 = lit "ab..." ∧ (lit "ab cd").length = 5 ∧
    defaultMode [⟨lit "ab cd", 1000000000⟩] 5 = .printed [(1000000000, lit "ab...")] ∧
    (∀ (s : Str) (max : Int), 3 ≤ max → (s.length : Int) < max → ellipsize s max = s) ∧
    (∀ (s : Str) (max : Int), 3 ≤ max → max ≤ (s.length : Int) →
      ellipsize s max = s.take (max - 3).toNat ++ lit "..." ∧
      ((ellipsize s max).length : Int) = max) := by
  refine ⟨by decide, by decide, by decide, ?_, ?_⟩
  · intro s max h₃ hlt
    have : ¬ max < 3 := by omega
    simp only [ellipsize, this, if_false, hlt, if_true]
  · intro s max h₃ hle
    have h₁ : ¬ max < 3 := by omega
    have h₂ : ¬ (s.length : Int) < max := by omega
    have he : ellipsize s max = s.take (max - 3).toNat ++ lit "..." := by
      simp only [ellipsize, h₁, if_false, h₂]
      rfl
    refine ⟨he, ?_⟩
    rw [he]
    simp only [List.length_append, List.length_take, lit]
    have : ("...".toList).length = 3 := rfl
    rw [this]
    omega

/-! ## The goroutines: interleavings -/

theorem pendingAll_append_cons (pd : Str → Except DurationError Duration)
    (a b : List Worker) (w : Worker) :
    pendingAll pd (a ++ w :: b) = pendingAll pd a + w.pending pd + pendingAll pd b := by
  simp [pendingAll, add_assoc]

theorem liveCount_append_cons (a b : List Worker) (w : Worker) :
    liveCount (a ++ w :: b)
      = liveCount a + (if w = .exited then 0 else 1) + liveCount b := by
  simp [liveCount, add_assoc]

theorem weight_append_cons (a b : List Worker) (w : Worker) :
    ((a ++ w :: b).map Worker.weight).sum
      = (a.map Worker.weight).sum + w.weight + (b.map Worker.weight).sum := by
  simp [add_assoc]

theorem pendingAll_of_exited (pd : Str → Except DurationError Duration) (ws : List Worker)
    (h : ∀ w ∈ ws, w = .exited) : pendingAll pd ws = 0 := by
  induction ws with
  | nil => rfl
  | cons w ws ih =>
    have hw : w = .exited := h w (List.mem_cons_self _ _)
    have := ih (fun v hv => h v (List.mem_cons_of_mem _ hv))
    subst hw
    simp only [pendingAll, List.map_cons, List.sum_cons] at this ⊢
    rw [this]
    rfl

theorem liveCount_nonneg (ws : List Worker) : 0 ≤ liveCount ws := by
  induction ws with
  | nil => simp [liveCount]
  | cons w ws ih =>
    simp only [liveCount, List.map_cons, List.sum_cons] at ih ⊢
    split <;> omega

theorem liveCount_eq_zero (ws : List Worker) (h : liveCount ws = 0) :
    ∀ w ∈ ws, w = .exited := by
  induction ws with
  | nil => simp
  | cons w ws ih =>
    have hn := liveCount_nonneg ws
    simp only [liveCount, List.map_cons, List.sum_cons] at h hn
    intro v hv
    rcases List.mem_cons.mp hv with rfl | hv
    · by_contra hne
      rw [if_neg hne] at h
      omega
    · apply ih _ v hv
      simp only [liveCount]
      split at h <;> omega

theorem exists_live (ws : List Worker) (h : liveCount ws ≠ 0) :
    ∃ a w b, ws = a ++ w :: b ∧ w ≠ .exited := by
  induction ws with
  | nil => simp [liveCount] at h
  | cons w ws ih =>
    by_cases hw : w = .exited
    · have : liveCount ws ≠ 0 := by
        simp only [liveCount, List.map_cons, List.sum_cons, hw, if_true, zero_add] at h
        exact h
      obtain ⟨a, v, b, hab, hv⟩ := ih this
      exact ⟨w :: a, v, b, by simp [hab], hv⟩
    · exact ⟨[], w, ws, rfl, hw⟩

theorem Inv_init (pd : Str → Except DurationError Duration) (maxProcs : Nat)
    (reads : List ReadResult) : Inv pd maxProcs reads (Sys.init maxProcs reads) := by
  refine ⟨by simp [Sys.init], ?_, ?_, ?_⟩
  · simp [Sys.init, liveCount]
  · have hw : ∀ w ∈ List.replicate maxProcs Worker.receiving,
        w ≠ .returned ∧ w ≠ .exited := by
      intro w hw
      rw [List.eq_of_mem_replicate hw]
      exact ⟨by decide, by decide⟩
    exact ⟨rfl, rfl, hw, ⟨[], rfl⟩⟩
  · have : pendingAll pd (List.replicate maxProcs Worker.receiving) = 0 := by
      simp [pendingAll, Worker.pending]
    simp [Sys.init, Sys.collected, MainPc.future, this]

theorem collected_workers (m : MainPc) (ic oc ic₁ oc₁ : Bool) (wg wg₁ : Int)
    (ws ws₁ : List Worker) (col : Collector) :
    Sys.collected ⟨m, ic, oc, wg, ws, col⟩ = Sys.collected ⟨m, ic₁, oc₁, wg₁, ws₁, col⟩ := rfl

theorem phaseOk_workers (m : MainPc) (ic oc : Bool) (wg wg₁ : Int) (ws ws₁ : List Worker)
    (col : Collector) (h : Sys.phaseOk ⟨m, ic, oc, wg, ws, col⟩)
    (h₁ : (∀ w ∈ ws, w ≠ .returned ∧ w ≠ .exited) → ic = false →
      ∀ w ∈ ws₁, w ≠ .returned ∧ w ≠ .exited)
    (h₂ : (∀ w ∈ ws, w = .exited) → ∀ w ∈ ws₁, w = .exited) :
    Sys.phaseOk ⟨m, ic, oc, wg₁, ws₁, col⟩ := by
  cases m with
  | reading reads => exact ⟨h.1, h.2.1, h₁ h.2.2.1 h.1, h.2.2.2⟩
  | waiting => exact h
  | closing => exact ⟨h.1, h.2.1, h₂ h.2.2.1, h.2.2.2⟩
  | receiving => exact ⟨h.1, h.2.1, h₂ h.2.2.1, h.2.2.2⟩
  | got lines => exact ⟨h.1, h.2.1, h₂ h.2.2.1, h.2.2.2⟩

theorem parseWorker_cons (pd : Str → Except DurationError Duration) (x : Str)
    (xs : List Str) : parseWorker pd (x :: xs) = parseWorker pd [x] ++ parseWorker pd xs := by
  simp only [parseWorker]
  split <;> rfl

theorem Inv_step (pd : Str → Except DurationError Duration) (maxProcs : Nat)
    (reads : List ReadResult) (s s₁ : Sys) (h : Inv pd maxProcs reads s)
    (hs : Step pd s s₁) : Inv pd maxProcs reads s₁ := by
  obtain ⟨hl, hw, hp, hc⟩ := h
  cases hs with
  | skipPrefix r rest ic oc wg ws col h =>
    refine ⟨hl, hw, hp, ?_⟩
    obtain ⟨-, -, -, l, hcol⟩ := hp
    simp only at hcol
    subst hcol
    simpa [Sys.collected, MainPc.future, readLoop, h] using hc
  | skipNoArrow r rest ic oc wg ws col h₁ h₂ =>
    refine ⟨hl, hw, hp, ?_⟩
    obtain ⟨-, -, -, l, hcol⟩ := hp
    simp only at hcol
    subst hcol
    simpa [Sys.collected, MainPc.future, readLoop, h₁, h₂] using hc
  | sendLine r rest oc wg a b col h₁ h₂ =>
    obtain ⟨-, hoc, hws, l, hcol⟩ := hp
    simp only at hoc hws hcol
    subst hcol
    refine ⟨?_, ?_, ⟨rfl, hoc, ?_, ⟨l, rfl⟩⟩, ?_⟩
    · simpa using hl
    · simp only [liveCount_append_cons] at hw ⊢
      simpa using hw
    · intro w hw₁
      simp only [List.mem_append, List.mem_cons] at hw₁ hws
      rcases hw₁ with hw₁ | rfl | hw₁
      · exact hws w (Or.inl hw₁)
      · exact ⟨by simp, by simp⟩
      · exact hws w (Or.inr (Or.inr hw₁))
    · have hf : parseWorker pd (readLoop (r :: rest))
          = parseWorker pd [r.line] ++ parseWorker pd (readLoop rest) := by
        simp only [readLoop, h₁, h₂, Bool.false_eq_true, if_false, not_true_eq_false]
        exact parseWorker_cons pd _ _
      simp only [Sys.collected, MainPc.future, pendingAll_append_cons, Worker.pending, hf,
        ← Multiset.coe_add] at hc ⊢
      rw [← hc]
      abel
  | closeIn oc wg ws col =>
    obtain ⟨-, hoc, hws, l, hcol⟩ := hp
    simp only at hoc hws hcol
    subst hcol
    refine ⟨hl, hw, ⟨rfl, hoc, ⟨l, rfl⟩⟩, ?_⟩
    simpa [Sys.collected, MainPc.future, readLoop, parseWorker] using hc
  | accept m ic oc wg a b col str h =>
    refine ⟨?_, ?_, ?_, ?_⟩
    · simpa using hl
    · simp only [liveCount_append_cons] at hw ⊢
      simpa using hw
    · refine phaseOk_workers m ic oc wg wg _ _ col hp ?_ ?_
      · intro hws _ w hw₁
        simp only [List.mem_append, List.mem_cons] at hw₁ hws
        rcases hw₁ with hw₁ | rfl | hw₁
        · exact hws w (Or.inl hw₁)
        · exact ⟨by simp, by simp⟩
        · exact hws w (Or.inr (Or.inr hw₁))
      · intro hws
        have := hws (.parsing str) (by simp)
        cases this
    · rw [collected_workers m ic oc ic oc wg wg _ (a ++ Worker.parsing str :: b) col]
      simp only [pendingAll_append_cons, Worker.pending, parseWorker, h, if_true] at hc ⊢
      exact hc
  | reject m ic oc wg a b col str h =>
    refine ⟨?_, ?_, ?_, ?_⟩
    · simpa using hl
    · simp only [liveCount_append_cons] at hw ⊢
      simpa using hw
    · refine phaseOk_workers m ic oc wg wg _ _ col hp ?_ ?_
      · intro hws _ w hw₁
        simp only [List.mem_append, List.mem_cons] at hw₁ hws
        rcases hw₁ with hw₁ | rfl | hw₁
        · exact hws w (Or.inl hw₁)
        · exact ⟨by simp, by simp⟩
        · exact hws w (Or.inr (Or.inr hw₁))
      · intro hws
        have := hws (.parsing str) (by simp)
        cases this
    · rw [collected_workers m ic oc ic oc wg wg _ (a ++ Worker.parsing str :: b) col]
      simp only [pendingAll_append_cons, Worker.pending, parseWorker, h, Bool.false_eq_true,
        if_false] at hc ⊢
      exact hc
  | rangeEnd m oc wg a b col =>
    refine ⟨?_, ?_, ?_, ?_⟩
    · simpa using hl
    · simp only [liveCount_append_cons] at hw ⊢
      simpa using hw
    · refine phaseOk_workers m true oc wg wg _ _ col hp ?_ ?_
      · intro _ hic
        cases hic
      · intro hws
        have := hws .receiving (by simp)
        cases this
    · rw [collected_workers m true oc true oc wg wg _ (a ++ Worker.receiving :: b) col]
      simp only [pendingAll_append_cons, Worker.pending] at hc ⊢
      exact hc
  | done m ic oc wg a b col h =>
    refine ⟨?_, ?_, ?_, ?_⟩
    · simpa using hl
    · simp only [liveCount_append_cons] at hw ⊢
      simp only [reduceCtorEq, if_false, if_true] at hw ⊢
      omega
    · cases m with
      | reading reads =>
        have := (hp.2.2.1 .returned (by simp)).1
        exact absurd rfl this
      | waiting => exact hp
      | closing =>
        have := hp.2.2.1 .returned (by simp)
        cases this
      | receiving =>
        have := hp.2.2.1 .returned (by simp)
        cases this
      | got lines =>
        have := hp.2.2.1 .returned (by simp)
        cases this
    · rw [collected_workers m ic oc ic oc (wg - 1) wg _ (a ++ Worker.returned :: b) col]
      simp only [pendingAll_append_cons, Worker.pending] at hc ⊢
      exact hc
  | collect m ic wg a b line lines =>
    refine ⟨?_, ?_, ?_, ?_⟩
    · simpa using hl
    · simp only [liveCount_append_cons] at hw ⊢
      simpa using hw
    · cases m with
      | reading reads =>
        refine ⟨hp.1, hp.2.1, ?_, ⟨_, rfl⟩⟩
        intro w hw₁
        have hws := hp.2.2.1
        simp only [List.mem_append, List.mem_cons] at hw₁ hws
        rcases hw₁ with hw₁ | rfl | hw₁
        · exact hws w (Or.inl hw₁)
        · exact ⟨by simp, by simp⟩
        · exact hws w (Or.inr (Or.inr hw₁))
      | waiting => exact ⟨hp.1, hp.2.1, ⟨_, rfl⟩⟩
      | closing =>
        have := hp.2.2.1 (.sending line) (by simp)
        cases this
      | receiving =>
        have := hp.2.1
        cases this
      | got lines =>
        have := hp.2.1
        cases this
    · simp only [Sys.collected, pendingAll_append_cons, Worker.pending,
        ← Multiset.coe_add] at hc ⊢
      rw [← hc]
      abel
  | waitReturns ic oc ws col =>
    obtain ⟨hic, hoc, l, hcol⟩ := hp
    simp only at hic hoc hcol
    subst hcol
    have hex : ∀ w ∈ ws, w = .exited := liveCount_eq_zero ws hw.symm
    refine ⟨hl, hw, ⟨hic, hoc, hex, ⟨l, rfl⟩⟩, ?_⟩
    simpa [Sys.collected, MainPc.future] using hc
  | closeOut ic wg ws col =>
    obtain ⟨hic, -, hex, l, hcol⟩ := hp
    simp only at hic hex hcol
    subst hcol
    refine ⟨hl, hw, ⟨hic, rfl, hex, ⟨l, Or.inl rfl⟩⟩, ?_⟩
    simpa [Sys.collected, MainPc.future] using hc
  | collectorRangeEnd m ic wg ws lines =>
    refine ⟨hl, hw, ?_, ?_⟩
    · cases m with
      | reading reads =>
        have := hp.2.1
        cases this
      | waiting =>
        have := hp.2.1
        cases this
      | closing =>
        have := hp.2.1
        cases this
      | receiving => exact ⟨hp.1, hp.2.1, hp.2.2.1, ⟨lines, Or.inr rfl⟩⟩
      | got lines₁ =>
        have := hp.2.2.2
        cases this
    · simpa [Sys.collected] using hc
  | deliver ic oc wg ws lines =>
    obtain ⟨hic, hoc, hex, -⟩ := hp
    simp only at hic hoc hex
    refine ⟨hl, hw, ⟨hic, hoc, hex, rfl⟩, ?_⟩
    simpa [Sys.collected, MainPc.future] using hc

theorem Inv_reachable (pd : Str → Except DurationError Duration) (maxProcs : Nat)
    (reads : List ReadResult) (s : Sys)
    (h : Reachable pd (Sys.init maxProcs reads) s) : Inv pd maxProcs reads s := by
  induction h with
  | refl => exact Inv_init pd maxProcs reads
  | tail _ hs ih => exact Inv_step pd maxProcs reads _ _ ih hs

theorem Step_weight (pd : Str → Except DurationError Duration) (s s₁ : Sys)
    (hs : Step pd s s₁) : s₁.weight < s.weight := by
  cases hs <;>
    simp only [Sys.weight, MainPc.weight, Collector.weight, Worker.weight, weight_append_cons,
      List.length_cons] <;>
    omega

theorem worker_step (pd : Str → Except DurationError Duration) (m : MainPc) (ic : Bool)
    (wg : Int) (a b : List Worker) (w : Worker) (l : List Line)
    (hw : w ≠ .exited) (hwg : wg = liveCount (a ++ w :: b))
    (hrecv : w = .receiving → ic = true) :
    ∃ s₁, Step pd ⟨m, ic, false, wg, a ++ w :: b, .collecting l⟩ s₁ := by
  cases w with
  | receiving =>
    have := hrecv rfl
    subst this
    exact ⟨_, Step.rangeEnd m false wg a b _⟩
  | parsing str =>
    by_cases h : (parseLine pd str).ok = true
    · exact ⟨_, Step.accept m ic false wg a b _ str h⟩
    · exact ⟨_, Step.reject m ic false wg a b _ str (by simpa using h)⟩
  | sending line => exact ⟨_, Step.collect m ic wg a b line l⟩
  | returned =>
    have hpos : 0 < wg := by
      have h₁ := liveCount_nonneg a
      have h₂ := liveCount_nonneg b
      rw [hwg, liveCount_append_cons]
      simp only [reduceCtorEq, if_false]
      omega
    exact ⟨_, Step.done m ic false wg a b _ hpos⟩
  | exited => exact absurd rfl hw

theorem progress (pd : Str → Except DurationError Duration) (maxProcs : Nat)
    (reads : List ReadResult) (s : Sys) (hN : 1 ≤ maxProcs) (h : Inv pd maxProcs reads s) :
    (∃ lines, s.main = .got lines) ∨ ∃ s₁, Step pd s s₁ := by
  obtain ⟨hl, hw, hp, -⟩ := h
  obtain ⟨m, ic, oc, wg, ws, col⟩ := s
  simp only at hl hw
  cases m with
  | reading rs =>
    obtain ⟨hic, hoc, hws, l, hcol⟩ := hp
    simp only at hic hoc hws hcol
    subst hic hoc hcol
    right
    cases rs with
    | nil => exact ⟨_, Step.closeIn _ _ _ _⟩
    | cons r rest =>
      by_cases h₁ : r.isPrefix = true
      · exact ⟨_, Step.skipPrefix r rest _ _ _ _ _ h₁⟩
      · have h₁ : r.isPrefix = false := by simpa using h₁
        by_cases h₂ : Contains r.line arrow = true
        · cases ws with
          | nil =>
            simp only [List.length_nil] at hl
            omega
          | cons w b =>
            by_cases hr : w = .receiving
            · subst hr
              exact ⟨_, Step.sendLine r rest false wg [] b _ h₁ h₂⟩
            · exact worker_step pd _ false wg [] b w l
                (hws w (List.mem_cons_self _ _)).2 hw (fun e => absurd e hr)
        · exact ⟨_, Step.skipNoArrow r rest _ _ _ _ _ h₁ (by simpa using h₂)⟩
  | waiting =>
    obtain ⟨hic, hoc, l, hcol⟩ := hp
    simp only at hic hoc hcol
    subst hic hoc hcol
    right
    by_cases hz : wg = 0
    · subst hz
      exact ⟨_, Step.waitReturns _ _ _ _⟩
    · obtain ⟨a, w, b, rfl, hne⟩ := exists_live ws (by rw [← hw]; exact hz)
      exact worker_step pd _ true wg a b w l hne hw (fun _ => rfl)
  | closing =>
    obtain ⟨-, hoc, -, -⟩ := hp
    simp only at hoc
    subst hoc
    exact Or.inr ⟨_, Step.closeOut _ _ _ _⟩
  | receiving =>
    obtain ⟨-, hoc, -, l, hcol⟩ := hp
    simp only at hoc hcol
    subst hoc
    rcases hcol with rfl | rfl
    · exact Or.inr ⟨_, Step.collectorRangeEnd _ _ _ _ _⟩
    · exact Or.inr ⟨_, Step.deliver _ _ _ _ _⟩
  | got lines => exact Or.inl ⟨lines, rfl⟩

theorem no_step_of_got (pd : Str → Except DurationError Duration) (maxProcs : Nat)
    (reads : List ReadResult) (s s₁ : Sys) (lines : List Line)
    (h : Inv pd maxProcs reads s) (hm : s.main = .got lines) : ¬ Step pd s s₁ := by
  intro hs
  have hp := h.phase
  cases hs <;> simp only at hm <;> cases hm <;>
    (obtain ⟨-, hoc, hex, hcol⟩ := hp
     simp only at hoc hex hcol
     first
       | exact Worker.noConfusion (hex _ (List.mem_append_right _ (List.mem_cons_self _ _)))
       | cases hcol)

/-- From every state that satisfies the invariant, some interleaving reaches
the point where `main` has received the slice. -/
theorem reaches_got (pd : Str → Except DurationError Duration) (maxProcs : Nat)
    (reads : List ReadResult) (hN : 1 ≤ maxProcs) (n : Nat) (s : Sys)
    (hn : s.weight ≤ n) (h : Inv pd maxProcs reads s) :
    ∃ s₁ lines, Relation.ReflTransGen (Step pd) s s₁ ∧ s₁.main = .got lines := by
  induction n generalizing s with
  | zero =>
    rcases progress pd maxProcs reads s hN h with ⟨lines, hg⟩ | ⟨s₁, hs⟩
    · exact ⟨s, lines, Relation.ReflTransGen.refl, hg⟩
    · have := Step_weight pd s s₁ hs
      omega
  | succ n ih =>
    rcases progress pd maxProcs reads s hN h with ⟨lines, hg⟩ | ⟨s₁, hs⟩
    · exact ⟨s, lines, Relation.ReflTransGen.refl, hg⟩
    · have hlt := Step_weight pd s s₁ hs
      obtain ⟨s₂, lines, hr, hg⟩ := ih s₁ (by omega) (Inv_step pd maxProcs reads s s₁ h hs)
      exact ⟨s₂, lines, Relation.ReflTransGen.head hs hr, hg⟩

/-- A run of the pipeline with two workers on the one line `"lint -> 2s"`. -/
theorem example_run :
    Reachable parseDuration (Sys.init 2 [⟨lit "lint -> 2s", false⟩])
      ⟨.got [⟨lit "lint", 2000000000⟩], true, true, 0, [.exited, .exited], .exited⟩ := by
  have e : parseLine parseDuration (lit "lint -> 2s") = ⟨⟨lit "lint", 2000000000⟩, true, []⟩ := by
    set_option maxRecDepth 100000 in decide
  have s₁ := @Step.sendLine parseDuration ⟨lit "lint -> 2s", false⟩ [] false 2 []
    [.receiving] (.collecting []) rfl (by decide)
  have s₂ := @Step.accept parseDuration (.reading []) false false 2 [] [.receiving]
    (.collecting []) (lit "lint -> 2s") (by rw [e])
  rw [e] at s₂
  have s₃ := @Step.collect parseDuration (.reading []) false 2 [] [.receiving]
    ⟨lit "lint", 2000000000⟩ []
  have s₄ := @Step.closeIn parseDuration false 2 [.receiving, .receiving]
    (.collecting [⟨lit "lint", 2000000000⟩])
  have s₅ := @Step.rangeEnd parseDuration .waiting false 2 [] [.receiving]
    (.collecting [⟨lit "lint", 2000000000⟩])
  have s₆ := @Step.rangeEnd parseDuration .waiting false 2 [.returned] []
    (.collecting [⟨lit "lint", 2000000000⟩])
  have s₇ := @Step.done parseDuration .waiting true false 2 [] [.returned]
    (.collecting [⟨lit "lint", 2000000000⟩]) (by decide)
  have s₈ := @Step.done parseDuration .waiting true false 1 [.exited] []
    (.collecting [⟨lit "lint", 2000000000⟩]) (by decide)
  have s₉ := @Step.waitReturns parseDuration true false [.exited, .exited]
    (.collecting [⟨lit "lint", 2000000000⟩])
  have s₁₀ := @Step.closeOut parseDuration true 0 [.exited, .exited]
    (.collecting [⟨lit "lint", 2000000000⟩])
  have s₁₁ := @Step.collectorRangeEnd parseDuration .receiving true 0 [.exited, .exited]
    [⟨lit "lint", 2000000000⟩]
  have s₁₂ := @Step.deliver parseDuration true true 0 [.exited, .exited]
    [⟨lit "lint", 2000000000⟩]
  exact .head s₁ (.head s₂ (.head s₃ (.head s₄ (.head s₅ (.head s₆ (.head s₇ (.head s₈
    (.head s₉ (.head s₁₀ (.head s₁₁ (.head s₁₂ .refl)))))))))))

/-- C9: for every worker count `maxProcs >= 1`, every finite input and every
state `s` that an interleaving of `main`, the workers and the collector
reaches: if `lineOut` is closed then every worker has exited and the collector
holds every Record of the sequential run; if `main` has received the slice, it
is a permutation of the slice of the sequential run and no goroutine can step
again (the slice is received once); `s` is either such a final state or some
goroutine can step (no deadlock, no panic); every step decreases a measure (no
interleaving runs forever); and a final state is reachable from `s`. -/
theorem pipeline_interleavings (pd : Str → Except DurationError Duration) (maxProcs : Nat)
    (reads : List ReadResult) (s : Sys) (hN : 1 ≤ maxProcs)
    (hr : Reachable pd (Sys.init maxProcs reads) s) :
    (s.lineOutClosed = true →
      (∀ w ∈ s.workers, w = .exited) ∧
      s.collected.Perm (lineCollector (parseWorker pd (readLoop reads)))) ∧
    (∀ lines, s.main = .got lines →
      lines.Perm (lineCollector (parseWorker pd (readLoop reads))) ∧
      ∀ s₁, ¬ Step pd s s₁) ∧
    ((∃ lines, s.main = .got lines) ∨ ∃ s₁, Step pd s s₁) ∧
    (∀ s₁, Step pd s s₁ → s₁.weight < s.weight) ∧
    (∃ s₁ lines, Relation.ReflTransGen (Step pd) s s₁ ∧ s₁.main = .got lines) := by
  have hinv := Inv_reachable pd maxProcs reads s hr
  have hclosed : s.lineOutClosed = true →
      (∀ w ∈ s.workers, w = .exited) ∧
      s.collected.Perm (lineCollector (parseWorker pd (readLoop reads))) := by
    intro hoc
    obtain ⟨-, -, hp, hc⟩ := hinv
    obtain ⟨m, ic, oc, wg, ws, col⟩ := s
    simp only at hoc
    subst hoc
    have key : (∀ w ∈ ws, w = .exited) ∧ MainPc.future pd m = [] := by
      cases m with
      | reading rs => exact absurd hp.2.1 (by simp)
      | waiting => exact absurd hp.2.1 (by simp)
      | closing => exact absurd hp.2.1 (by simp)
      | receiving => exact ⟨hp.2.2.1, rfl⟩
      | got lines => exact ⟨hp.2.2.1, rfl⟩
    refine ⟨key.1, ?_⟩
    simp only [pendingAll_of_exited pd ws key.1, key.2, add_zero, Multiset.coe_nil] at hc
    rw [lineCollector_eq]
    exact Multiset.coe_eq_coe.mp hc
  refine ⟨hclosed, ?_, progress pd maxProcs reads s hN hinv, Step_weight pd s,
    reaches_got pd maxProcs reads hN s.weight s (le_refl _) hinv⟩
  intro lines hm
  refine ⟨?_, fun s₁ => no_step_of_got pd maxProcs reads s s₁ lines hinv hm⟩
  have hp := hinv.phase
  obtain ⟨m, ic, oc, wg, ws, col⟩ := s
  simp only at hm
  subst hm
  have hoc : oc = true := hp.2.1
  have hcol : col = .exited := hp.2.2.2
  have := (hclosed hoc).2
  subst hcol
  exact this

/-- C9, witness: the final state of a run with two workers on one line. -/
theorem pipeline_interleavings_witness :
    1 ≤ 2 ∧
    Reachable parseDuration (Sys.init 2 [⟨lit "lint -> 2s", false⟩])
      ⟨.got [⟨lit "lint", 2000000000⟩], true, true, 0, [.exited, .exited], .exited⟩ ∧
    [(⟨lit "lint", 2000000000⟩ : Line)].Perm
      (lineCollector (parseWorker parseDuration (readLoop [⟨lit "lint -> 2s", false⟩]))) :=
  ⟨by decide, example_run,
    ((pipeline_interleavings parseDuration 2 [⟨lit "lint -> 2s", false⟩] _ (by decide)
      example_run).2.1 _ rfl).1⟩

end Minitime
